import Mathlib

/-!
Exact test for Hardy-Weinberg equilibrium: the Markov-chain core

A shallow embedding of the HWE randomization engine (`hwe.h`, `do_switch.c`,
`test_switch.c`, `select_index.c`, `random_choose.c`, `cal_n.c`, `cal_prob.c`,
`read_data.c`, `log_factorial.c`, `cal_const.c`, `ln_p_value.c`, and the loops of `main`
in `hwe.c`) and theorems about it.

Conventions of the embedding.
* `int a[LENGTH]` is a function `Nat → Int`; `a[k]` is `a k`, an assignment
  `a[k] = v` is `Function.update a k v`.  Cells are mathematical integers:
  signed overflow is undefined behaviour in C and is outside the model.
* Allele indices (`i1`, `i2`, `j1`, `j2`, loop counters) are natural numbers.
* `double` values are exact rationals; `pow(2.0, k)` is `2 ^ k`.  The definitions with the
  suffix `_rnd` repeat the numerical part of the program with the result of every
  operation on `double`s passed through a function `rnd`: `rnd = id` gives the exact
  arithmetic again, `rnd = fl` the rounding of IEEE 754 binary64.
* A call of `drand48()` is a rational argument holding the value it returns.
* Out-parameters and uninitialised locals are passed in explicitly and
  returned, so that a branch that does not write them leaves the old value.
* In `main` a `double` computed by a division is an `Option ℚ`: a division by zero has
  no rational value and gives `none`, which every later operation propagates.
* A `for` loop with `n` iterations is a recursion on `n` or a fold over `List.range n`.
* The input file is the list of its white-space separated items, `some v` for an item
  that `%d` converts to `v` and `none` for any other item.
* The recursion of `log_factorial` is bounded by a fuel argument; `none` is a call that
  has not returned within the bound.
-/

namespace HWE

/-! ## hwe.h -/

/-- The macro `#define MAX_ALLELE 20`. -/
def MAX_ALLELE : Nat := 20

/-- The macro `#define LENGTH MAX_ALLELE * ( MAX_ALLELE + 1 ) / 2`. -/
def LENGTH : Nat := MAX_ALLELE * (MAX_ALLELE + 1) / 2

/-- The macro `#define LL(a, b)  a * ( a + 1 ) / 2  + b`. -/
def LL (a b : Nat) : Nat := a * (a + 1) / 2 + b

/-- The macro `#define L(a, b)  ( a < b ) ? b*(b + 1)/2 + a : a*(a+1)/2 + b`. -/
def L (a b : Nat) : Nat := if a < b then b * (b + 1) / 2 + a else a * (a + 1) / 2 + b

/-- The macro `#define MIN(x, y)  ((x) < (y)) ? (x) : (y)`. -/
def MIN (x y : ℚ) : ℚ := if x < y then x else y

/-- The macro `#define TRANS(x)  (MIN(1.0, x))/2.0`, the transition probability. -/
def TRANS (x : ℚ) : ℚ := (MIN 1 x) / 2

/-- The genotype table `int a[LENGTH]`. -/
abbrev Table := Nat → Int

/-- The window `typedef struct _Index { int i1; int i2; int j1; int j2; int type; double cst; } Index;` -/
structure Index where
  i1 : Nat
  i2 : Nat
  j1 : Nat
  j2 : Nat
  type : Int
  cst : ℚ

/-! ## do_switch.c -/

/-- The function `do_switch ( a, index, type )`: the four cells are addressed through `L`;
`type == 0` is the D-switch, anything else the R-switch.  The four updates are
performed one after the other on the same array. -/
def do_switch (a : Table) (index : Index) (type : Int) : Table :=
  let k11 := L index.i1 index.j1
  let k12 := L index.i1 index.j2
  let k21 := L index.i2 index.j1
  let k22 := L index.i2 index.j2
  if type = 0 then
    let a1 := Function.update a k11 (a k11 - 1)
    let a2 := Function.update a1 k22 (a1 k22 - 1)
    let a3 := Function.update a2 k12 (a2 k12 + 1)
    Function.update a3 k21 (a3 k21 + 1)
  else
    let a1 := Function.update a k11 (a k11 + 1)
    let a2 := Function.update a1 k22 (a1 k22 + 1)
    let a3 := Function.update a2 k12 (a2 k12 - 1)
    Function.update a3 k21 (a3 k21 - 1)

/-! ## cal_n.c -/

/-- The body of the outer loop of `cal_n` for one `i`:
`l = LL(i, i); n[i] = a[l]; for (j = 0; j < no_allele; ++j) n[i] += a[L(i, j)];` -/
def cal_n_row (no_allele : Nat) (a : Table) (i : Nat) : Int :=
  (List.range no_allele).foldl (fun acc j => acc + a (L i j)) (a (LL i i))

/-- The function `cal_n ( no_allele, a, n )`: fills `n[0 .. no_allele-1]`, leaving the rest
of `n` as it was. -/
def cal_n (no_allele : Nat) (a : Table) (n : Nat → Int) : Nat → Int :=
  (List.range no_allele).foldl (fun m i => Function.update m i (cal_n_row no_allele a i)) n

/-! ## random_choose.c and select_index.c -/

/-- The function `random_choose ( k1, k2, k )` with the two values `u1`, `u2` returned by
`drand48()`.  The conversion of a non-negative `double` to `int` is the floor.
`work` is the uninitialised local array.  (`k >= 3` in every call, so `--k`
stays non-negative.) -/
def random_choose (u1 u2 : ℚ) (k : Nat) (work : Nat → Nat) : Nat × Nat :=
  let work1 := (List.range k).foldl (fun w i => Function.update w i i) work
  let k1 := Nat.floor (u1 * (k : ℚ))
  let k' := k - 1
  let work2 := ((List.range k').filter (fun i => k1 ≤ i)).foldl
    (fun w i => Function.update w i (i + 1)) work1
  let i := Nat.floor (u2 * (k' : ℚ))
  let k2 := work2 i
  if k1 > k2 then (k2, k1) else (k1, k2)

/-- The part of `select_index` after the two calls of `random_choose`: it
stores the four indices, counts the coincidences `k` and sets `cst`. -/
def select_index_of (i1 i2 j1 j2 : Nat) : Index :=
  let k0 : Nat := 0
  let l0 : Nat := 0
  let k1 := if i1 = j1 then k0 + 1 else k0
  let k2 := if i1 = j2 then k1 + 1 else k1
  let k3 := if i2 = j1 then k2 + 1 else k2
  let k := if i2 = j2 then k3 + 1 else k3
  let l := if i1 = j1 ∨ i2 = j2 then l0 + 1 else l0
  { i1 := i1, i2 := i2, j1 := j1, j2 := j2, type := (k : Int),
    cst := if l = 1 then (2 : ℚ) ^ k else ((2 : ℚ) ^ k)⁻¹ }

/-- The function `select_index ( index, no_allele )` with the four values `u1 .. u4`
returned by `drand48()`, in call order. -/
def select_index (u1 u2 u3 u4 : ℚ) (no_allele : Nat) (work work' : Nat → Nat) : Index :=
  let r := random_choose u1 u2 no_allele work
  let c := random_choose u3 u4 no_allele work'
  select_index_of r.1 r.2 c.1 c.2

/-! ## test_switch.c -/

/-- The four out-parameters of `test_switch`. -/
structure Switch where
  switch_ind : Int
  switch_type : Int
  p1_rt : ℚ
  p2_rt : ℚ

/-- The function `test_switch ( a, index, switch_ind, switch_type, p1_rt, p2_rt )`.  `out`
holds the values the out-parameters point to on entry; only `switch_ind` is
always written.  The macro `RATIO(u, v)` is `( (double) (u) ) / ( 1.0 + (double) (v) )`
without outer parentheses and is expanded textually, as the C preprocessor does;
`*` and `/` associate to the left in both languages. -/
def test_switch (a : Table) (index : Index) (out : Switch) : Switch :=
  let s0 : Switch := { out with switch_ind := 0 }
  let k11 := L index.i1 index.j1
  let k22 := L index.i2 index.j2
  let k12 := L index.i1 index.j2
  let k21 := L index.i2 index.j1
  if index.type ≤ 1 then
    let s1 : Switch :=
      if a k11 > 0 ∧ a k22 > 0 then
        { s0 with
          switch_ind := 1
          switch_type := 0
          p1_rt := ((a k11 : ℚ)) / (1 + ((a k12 : ℚ))) * ((a k22 : ℚ)) / (1 + ((a k21 : ℚ)))
                     * index.cst }
      else s0
    if a k12 > 0 ∧ a k21 > 0 then
      { s1 with
        switch_ind := s1.switch_ind + 1
        switch_type := 1
        p2_rt := ((a k12 : ℚ)) / (1 + ((a k11 : ℚ))) * ((a k21 : ℚ)) / (1 + ((a k22 : ℚ)))
                   / index.cst }
    else s1
  else
    let s1 : Switch :=
      if a k11 > 0 ∧ a k22 > 0 then
        { s0 with
          switch_ind := 1
          switch_type := 0
          p1_rt := ((a k11 : ℚ)) / (1 + ((a k12 : ℚ) + 1)) * ((a k22 : ℚ)) / (1 + ((a k12 : ℚ)))
                     * index.cst }
      else s0
    if a k12 > 1 then
      { s1 with
        switch_ind := s1.switch_ind + 1
        switch_type := 1
        p2_rt := ((a k12 : ℚ)) / (1 + ((a k11 : ℚ))) * (((a k12 - 1 : Int) : ℚ))
                   / (1 + ((a k22 : ℚ))) / index.cst }
    else s1

/-! ## cal_prob.c -/

/-- What `cal_prob` leaves behind: the table, the returned log-probability and
`*actual_switch`. -/
structure Step (R : Type) where
  a : Table
  ln_p_new : R
  actual_switch : Int

/-- The function `cal_prob ( a, index, ln_p_old, actual_switch )`.  `log` stands for the
C library logarithm, `rand_num` for the value `drand48()` returns when it is
called, and `locals` for the uninitialised locals `switch_ind`, `type`,
`p1_ratio`, `p2_ratio` handed to `test_switch`. -/
def cal_prob {R : Type} [Add R] (log : ℚ → R) (a : Table) (index : Index) (ln_p_old : R)
    (rand_num : ℚ) (locals : Switch) : Step R :=
  let t := test_switch a index locals
  if t.switch_ind = 0 then
    { a := a, ln_p_new := ln_p_old, actual_switch := 0 }
  else if t.switch_ind = 1 then
    let p1_ratio := if t.switch_type = 1 then t.p2_rt else t.p1_rt
    if rand_num < TRANS p1_ratio then
      { a := do_switch a index t.switch_type, ln_p_new := ln_p_old + log p1_ratio,
        actual_switch := 1 }
    else
      { a := a, ln_p_new := ln_p_old, actual_switch := 0 }
  else
    if rand_num ≤ TRANS t.p1_rt then
      { a := do_switch a index 0, ln_p_new := ln_p_old + log t.p1_rt, actual_switch := 2 }
    else if rand_num ≤ TRANS t.p1_rt + TRANS t.p2_rt then
      { a := do_switch a index 1, ln_p_new := ln_p_old + log t.p2_rt, actual_switch := 2 }
    else
      { a := a, ln_p_new := ln_p_old, actual_switch := 0 }

/-- One iteration of the chain as the driver sees it: the window, the draw
consumed by `cal_prob` and the garbage in its locals. -/
structure Move where
  index : Index
  rand_num : ℚ
  locals : Switch

/-- A sequence of `cal_prob` calls on the same array, each starting from the
log-probability the previous one returned. -/
def cal_prob_steps {R : Type} [Add R] (log : ℚ → R) (a : Table) (ln_p : R) :
    List Move → Table × R
  | [] => (a, ln_p)
  | m :: ms =>
    let s := cal_prob log a m.index ln_p m.rand_num m.locals
    cal_prob_steps log s.a s.ln_p_new ms

/-- The sum of all `LENGTH` entries of the table. -/
def total (a : Table) : Int := ∑ k ∈ Finset.range LENGTH, a k

/-- Every index of the window is below `K`. -/
def Index.below (index : Index) (K : Nat) : Prop :=
  index.i1 < K ∧ index.i2 < K ∧ index.j1 < K ∧ index.j2 < K

instance Index.decidableBelow (index : Index) (K : Nat) : Decidable (index.below K) := by
  unfold Index.below; infer_instance

/-- The table `[[5],[2,5],[1,1,5]]` for three alleles, stored through `LL`. -/
def table3 : Table := fun k => [5, 2, 5, 1, 1, 5].getD k 0

/-! ## Quantities used in the statements -/

/-- The indicator of a cell. -/
def cell (k x : Nat) : Int := if x = k then 1 else 0

/-- The sign of a switch: `-1` on the diagonal pair for a D-switch, `+1` for an R-switch. -/
def sgn (type : Int) : Int := if type = 0 then -1 else 1

/-- The D-switch is legal: the cells `A = a[k11]` and `B = a[k22]` are positive. -/
def legalD (a : Table) (index : Index) : Prop :=
  a (L index.i1 index.j1) > 0 ∧ a (L index.i2 index.j2) > 0

/-- The R-switch is legal: for `type <= 1` the cells `C = a[k12]` and `D = a[k21]` are
positive, otherwise the cell `a[k12]` exceeds 1. -/
def legalR (a : Table) (index : Index) : Prop :=
  if index.type ≤ 1 then a (L index.i1 index.j2) > 0 ∧ a (L index.i2 index.j1) > 0
  else a (L index.i1 index.j2) > 1

instance legalD.decidable (a : Table) (index : Index) : Decidable (legalD a index) := by
  unfold legalD; infer_instance

instance legalR.decidable (a : Table) (index : Index) : Decidable (legalR a index) := by
  unfold legalR; infer_instance

/-- The sum of the off-diagonal entries `a(i,j)`, `j < i < K`. -/
def offDiag (K : Nat) (a : Table) : Int :=
  ∑ i ∈ Finset.range K, ∑ j ∈ Finset.range i, a (LL i j)

/-- The factorial of a count, as a rational. -/
def fq (z : Int) : ℚ := ((z.toNat.factorial : Nat) : ℚ)

/-- The table-dependent factor of the HWE probability for `K` alleles, written after the
formula `2^(sum of the off-diagonal entries) / (product over all cells of a(i,j)!)`; the
cells are those `ln_p_value` visits, `LL(i, j)` for `j <= i < K`. -/
def W (K : Nat) (a : Table) : ℚ :=
  (2 : ℚ) ^ (offDiag K a) / ∏ i ∈ Finset.range K, ∏ j ∈ Finset.range (i + 1), fq (a (LL i j))

/-- The exponent of 2 by which a D-switch on the window changes the probability. -/
def expo (i1 i2 j1 j2 : Nat) : Int :=
  (if i1 = j1 then 1 else 0) + (if i2 = j2 then 1 else 0)
    - (if i1 = j2 then 1 else 0) - (if i2 = j1 then 1 else 0)

/-! ## random_choose.c on the integer draws -/

/-- The function `random_choose ( k1, k2, k )` with the two integers `r1`, the value of
`drand48() * k` converted to `int`, and `r2`, the value of `drand48() * k` after `--k`,
in place of the draws. -/
def random_choose_of (r1 r2 : Nat) (k : Nat) (work : Nat → Nat) : Nat × Nat :=
  let work1 := (List.range k).foldl (fun w i => Function.update w i i) work
  let k1 := r1
  let k' := k - 1
  let work2 := ((List.range k').filter (fun i => k1 ≤ i)).foldl
    (fun w i => Function.update w i (i + 1)) work1
  let i := r2
  let k2 := work2 i
  if k1 > k2 then (k2, k1) else (k1, k2)

/-! ## hwe.c -/

/-- The parameters `struct randomization { int group; int size; int step; }`. -/
structure randomization where
  group : Int
  size : Int
  step : Int

/-- The result `struct outcome { double p_value; double se; int swch_count[3]; }`.  A
`double` that is the result of a division by zero has no rational value and is `none`.
The field `se_radicand` is `result.se` before `sqrt` is applied to it. -/
structure outcome where
  p_value : Option ℚ
  se_radicand : Option ℚ
  swch_count : Nat → Int

/-- Division of two `double`s; a division by zero gives no rational value. -/
def fdiv (x y : Option ℚ) : Option ℚ :=
  match x, y with
  | some u, some v => if v = 0 then none else some (u / v)
  | _, _ => none

/-- Addition of two `double`s. -/
def fadd (x y : Option ℚ) : Option ℚ :=
  match x, y with
  | some u, some v => some (u + v)
  | _, _ => none

/-- Subtraction of two `double`s. -/
def fsub (x y : Option ℚ) : Option ℚ :=
  match x, y with
  | some u, some v => some (u - v)
  | _, _ => none

/-- Multiplication of two `double`s. -/
def fmul (x y : Option ℚ) : Option ℚ :=
  match x, y with
  | some u, some v => some (u * v)
  | _, _ => none

/-- What one iteration of the chain reads from outside: the values `drand48()` returns to
`select_index` (`u1 .. u4`) and to `cal_prob` (`rand_num`, used only if it is called), and
the contents of the uninitialised locals of `random_choose` and `cal_prob`. -/
structure Draw where
  u1 : ℚ
  u2 : ℚ
  u3 : ℚ
  u4 : ℚ
  rand_num : ℚ
  work : Nat → Nat
  work' : Nat → Nat
  locals : Switch

/-- The variables of `main` that the chain changes: the table, `ln_p_simulated`,
`result.swch_count` and the number of iterations performed so far. -/
structure Chain (R : Type) where
  a : Table
  ln_p_simulated : R
  swch_count : Nat → Int
  done : Nat

/-- The statements both loops of `main` share:
`select_index ( &index, no_allele ); ln_p_simulated = cal_prob(a, index, ln_p_simulated,
&actual_switch); ++result.swch_count[actual_switch];`.  `draws n` is what iteration `n`
of the run reads. -/
def iteration {R : Type} [Add R] (log : ℚ → R) (no_allele : Nat) (draws : Nat → Draw)
    (c : Chain R) : Chain R :=
  let d := draws c.done
  let index := select_index d.u1 d.u2 d.u3 d.u4 no_allele d.work d.work'
  let s := cal_prob log c.a index c.ln_p_simulated d.rand_num d.locals
  { a := s.a
    ln_p_simulated := s.ln_p_new
    swch_count := Function.update c.swch_count s.actual_switch.toNat
      (c.swch_count s.actual_switch.toNat + 1)
    done := c.done + 1 }

/-- The de-memorization loop `for ( i = 0; i < sample.step; ++i )`, run `n` times. -/
def dememorize {R : Type} [Add R] (log : ℚ → R) (no_allele : Nat) (draws : Nat → Draw) :
    Nat → Chain R → Chain R
  | 0, c => c
  | n + 1, c => dememorize log no_allele draws n (iteration log no_allele draws c)

/-- The inner loop `for ( j = 0; j < sample.size; ++j )`, run `n` times, with `counter`. -/
def batch {R : Type} [Add R] [LE R] [DecidableRel (fun x y : R => x ≤ y)] (log : ℚ → R)
    (no_allele : Nat) (draws : Nat → Draw) (ln_p_observed : R) :
    Nat → Chain R × Int → Chain R × Int
  | 0, s => s
  | n + 1, s =>
    let c := iteration log no_allele draws s.1
    batch log no_allele draws ln_p_observed n
      (c, if c.ln_p_simulated ≤ ln_p_observed then s.2 + 1 else s.2)

/-- The outer loop `for ( i = 0; i < sample.group; ++i )`, run `n` times, with `p_mean`
and `p_square`. -/
def sampling {R : Type} [Add R] [LE R] [DecidableRel (fun x y : R => x ≤ y)] (log : ℚ → R)
    (no_allele : Nat) (draws : Nat → Draw) (ln_p_observed : R) (size : Int) :
    Nat → Chain R × Option ℚ × Option ℚ → Chain R × Option ℚ × Option ℚ
  | 0, s => s
  | n + 1, s =>
    let b := batch log no_allele draws ln_p_observed size.toNat (s.1, 0)
    let p_simulated := fdiv (some (b.2 : ℚ)) (some (size : ℚ))
    sampling log no_allele draws ln_p_observed size n
      (b.1, fadd s.2.1 p_simulated, fadd s.2.2 (fmul p_simulated p_simulated))

/-- The last assignments of `main` to `p_mean`, `result.p_value` and `result.se`, up to
the call of `sqrt`. -/
def p_value_se (group : Int) (p_mean p_square : Option ℚ) : Option ℚ × Option ℚ :=
  let p_mean := fdiv p_mean (some (group : ℚ))
  (p_mean,
   fsub (fdiv (fdiv p_square (some (group : ℚ))) (some ((group : ℚ) - 1)))
     (fmul (fdiv p_mean (some ((group : ℚ) - 1))) p_mean))

/-- What `main` leaves behind. -/
structure Run (R : Type) where
  a : Table
  ln_p_simulated : R
  result : outcome
  total_step : Int

/-- The function `main` of `hwe.c` from the line after `print_data` to the line before
`sqrt`: `a`, `no_allele` and `sample` are what `read_data` stored. -/
def main {R : Type} [Add R] [Zero R] [LE R] [DecidableRel (fun x y : R => x ≤ y)]
    (log : ℚ → R) (a : Table) (no_allele : Nat) (sample : randomization)
    (draws : Nat → Draw) : Run R :=
  let ln_p_observed : R := 0
  let c0 : Chain R :=
    { a := a, ln_p_simulated := ln_p_observed, swch_count := fun _ => 0, done := 0 }
  let c1 := dememorize log no_allele draws sample.step.toNat c0
  let s := sampling log no_allele draws ln_p_observed sample.size sample.group.toNat
    (c1, some 0, some 0)
  let r := p_value_se sample.group s.2.1 s.2.2
  { a := s.1.a
    ln_p_simulated := s.1.ln_p_simulated
    result := { p_value := r.1, se_radicand := r.2, swch_count := s.1.swch_count }
    total_step := sample.step + sample.group * sample.size }

/-- The table `[[5],[0,5],[1,1,5]]` for three alleles: on the window `0 1 / 0 1` only the
D-switch is legal. -/
def table3_partly : Table := fun k => [5, 0, 5, 1, 1, 5].getD k 0

/-- The table `[[19],[0,0],[0,0,0]]` for three alleles: all 19 individuals are homozygous
for the first allele. -/
def table3_fixed : Table := fun k => [19, 0, 0, 0, 0, 0].getD k 0

/-- The four values `drand48()` returns to `select_index` lie in `[0,1)`. -/
def Draw.unit (d : Draw) : Prop :=
  (0 ≤ d.u1 ∧ d.u1 < 1) ∧ (0 ≤ d.u2 ∧ d.u2 < 1) ∧ (0 ≤ d.u3 ∧ d.u3 < 1) ∧
    (0 ≤ d.u4 ∧ d.u4 < 1)

/-- A draw with all values `1/2`, zeroed locals. -/
def draw_half : Draw :=
  { u1 := 1 / 2, u2 := 1 / 2, u3 := 1 / 2, u4 := 1 / 2, rand_num := 1 / 2,
    work := fun _ => 0, work' := fun _ => 0, locals := ⟨0, 0, 0, 0⟩ }

/-! ## read_data.c -/

/-- One conversion `%d` of `fscanf`.  The input is the list of its white-space separated
items, `some v` for an item that reads as the integer `v` and `none` for one that does
not.  A conversion that fails, by a mismatch or at the end of the input, consumes
nothing. -/
def scan_int (input : List (Option Int)) : Option Int × List (Option Int) :=
  match input with
  | some v :: rest => (some v, rest)
  | _ => (none, input)

/-- What `read_data` returns and what it leaves in its out-parameters. -/
structure ReadData where
  err : Int
  a : Table
  no_allele : Int
  total : Int
  sample : randomization

/-- The body of the inner loop of `read_data`:
`l = LL(i, j); fscanf (*infile, "%d ", &a[l]); *total += a[l];`.  The value of `fscanf` is
not looked at; a failed conversion leaves `a[l]` as it was. -/
def read_cell (i j : Nat) (s : Table × Int × List (Option Int)) :
    Table × Int × List (Option Int) :=
  let l := LL i j
  let r := scan_int s.2.2
  let a : Table :=
    match r.1 with
    | some v => Function.update s.1 l v
    | none => s.1
  (a, s.2.1 + a l, r.2)

/-- The function `read_data ( a, no_allele, total, sample, infile )`.  The arguments `a`,
`no_allele` and `sample` hold what the uninitialised variables of `main` contain. -/
def read_data (a : Table) (no_allele : Int) (sample : randomization)
    (input : List (Option Int)) : ReadData :=
  let err : Int := 1
  let total : Int := 0
  let r := scan_int input
  match r.1 with
  | none => { err := err, a := a, no_allele := no_allele, total := total, sample := sample }
  | some k =>
    if k < 3 then
      { err := err, a := a, no_allele := k, total := total, sample := sample }
    else
      let s := (List.range k.toNat).foldl
        (fun s i => (List.range (i + 1)).foldl (fun s j => read_cell i j s) s) (a, total, r.2)
      let r1 := scan_int s.2.2
      match r1.1 with
      | none => { err := err, a := s.1, no_allele := k, total := s.2.1, sample := sample }
      | some step =>
        let r2 := scan_int r1.2
        match r2.1 with
        | none =>
          { err := err, a := s.1, no_allele := k, total := s.2.1,
            sample := { sample with step := step } }
        | some group =>
          let r3 := scan_int r2.2
          match r3.1 with
          | none =>
            { err := err, a := s.1, no_allele := k, total := s.2.1,
              sample := { sample with step := step, group := group } }
          | some size =>
            if step < 1 ∨ group ≤ 1 then
              { err := err, a := s.1, no_allele := k, total := s.2.1,
                sample := { group := group, size := size, step := step } }
            else
              { err := 0, a := s.1, no_allele := k, total := s.2.1,
                sample := { group := group, size := size, step := step } }

/-- The function `main` of `hwe.c` from the call of `read_data` on:
`if ( read_data ( a, &no_allele, &total, &sample, &infile ) ) exit (2);` and then the
chain.  The value is the exit code 2 or what the run leaves behind. -/
def main_from_read_data {R : Type} [Add R] [Zero R] [LE R]
    [DecidableRel (fun x y : R => x ≤ y)] (log : ℚ → R) (a : Table) (no_allele : Int)
    (sample : randomization) (input : List (Option Int)) (draws : Nat → Draw) :
    Except Int (Run R) :=
  let r := read_data a no_allele sample input
  if r.err ≠ 0 then Except.error 2
  else Except.ok (main log r.a r.no_allele.toNat r.sample draws)

/-- A well-formed input: the number of alleles, the counts of the lower triangle row by
row, and the three parameters. -/
def input_of (K : Int) (counts : List Int) (step group size : Int) : List (Option Int) :=
  some K :: (counts.map some ++ [some step, some group, some size])

/-- The table after the first `m` counts of `cs` have been stored in the cells `0 .. m-1`. -/
def loaded (a : Table) (cs : List Int) (m : Nat) : Table :=
  fun k => if k < m then cs.getD k 0 else a k


/-- The divisors of the divisions `test_switch` performs on its way, in the order of
evaluation: the two expansions of `RATIO` and, for the R-switch, `index.cst`.  The branches
are those of `test_switch`. -/
def test_switch_divisors (a : Table) (index : Index) : List ℚ :=
  let k11 := L index.i1 index.j1
  let k22 := L index.i2 index.j2
  let k12 := L index.i1 index.j2
  let k21 := L index.i2 index.j1
  if index.type ≤ 1 then
    (if a k11 > 0 ∧ a k22 > 0 then [1 + ((a k12 : ℚ)), 1 + ((a k21 : ℚ))] else []) ++
      (if a k12 > 0 ∧ a k21 > 0 then [1 + ((a k11 : ℚ)), 1 + ((a k22 : ℚ)), index.cst]
       else [])
  else
    (if a k11 > 0 ∧ a k22 > 0 then [1 + ((a k12 : ℚ) + 1), 1 + ((a k12 : ℚ))] else []) ++
      (if a k12 > 1 then [1 + ((a k11 : ℚ)), 1 + ((a k22 : ℚ)), index.cst] else [])


/-! ## log_factorial.c, cal_const.c and ln_p_value.c -/

/-- The function `log_factorial ( k )`: `0.0` for `k == 0` and otherwise
`log( (double) k ) + log_factorial ( k - 1 )`.  The recursion of the C function does not
end for a negative `k`; `fuel` bounds its depth, and `none` says the bound was reached. -/
def log_factorial {R : Type} [Ring R] (log : ℚ → R) : Nat → Int → Option R
  | 0, _ => none
  | fuel + 1, k =>
    if k = 0 then some 0
    else (log_factorial log fuel (k - 1)).map (fun r => log (k : ℚ) + r)

/-- The difference of two `double`s, each the value of a call that may not return. -/
def dsub {R : Type} [Ring R] (x y : Option R) : Option R :=
  match x, y with
  | some u, some v => some (u - v)
  | _, _ => none

/-- The sum of two `double`s, each the value of a call that may not return. -/
def dadd {R : Type} [Ring R] (x y : Option R) : Option R :=
  match x, y with
  | some u, some v => some (u + v)
  | _, _ => none

/-- The function `cal_const ( no_allele, n, total )`:
`constant = log_factorial ( total ) - log_factorial ( 2*total );` and then
`constant += log_factorial ( n[i] )` for `i < no_allele`. -/
def cal_const {R : Type} [Ring R] (log : ℚ → R) (fuel : Nat) (no_allele : Nat)
    (n : Nat → Int) (total : Int) : Option R :=
  let constant := dsub (log_factorial log fuel total) (log_factorial log fuel (2 * total))
  (List.range no_allele).foldl (fun c i => dadd c (log_factorial log fuel (n i))) constant

/-- The function `ln_p_value ( a, no_allele, constant )`.  The state of the loops is the
pair of `temp` and `ln_prob`; the inner loop runs over `j < i`, the diagonal cell
`LL(i, i)` is handled after it, and `temp * log ( 2.0 )` is added at the end. -/
def ln_p_value {R : Type} [Ring R] (log : ℚ → R) (fuel : Nat) (a : Table) (no_allele : Nat)
    (constant : R) : Option R :=
  let s := (List.range no_allele).foldl
    (fun s i =>
      let s1 := (List.range i).foldl
        (fun s j => (s.1 + a (LL i j), dsub s.2 (log_factorial log fuel (a (LL i j))))) s
      (s1.1, dsub s1.2 (log_factorial log fuel (a (LL i i)))))
    ((0 : Int), some constant)
  dadd s.2 (some ((s.1 : R) * log 2))

/-- The three statements that `main` keeps in a comment before `ln_p_observed = 0.0;`:
`cal_n ( no_allele, a, n ); constant = cal_const ( no_allele, n, total );
ln_p_observed = ln_p_value ( a, no_allele, constant );`. -/
def ln_p_table {R : Type} [Ring R] (log : ℚ → R) (fuel : Nat) (a : Table) (no_allele : Nat)
    (n : Nat → Int) (total : Int) : Option R :=
  match cal_const log fuel no_allele (cal_n no_allele a n) total with
  | none => none
  | some constant => ln_p_value log fuel a no_allele constant


/-- The calls of `do_switch` that `cal_prob` performs, as the list of their `type`
arguments in the order of the calls.  The branches are those of `cal_prob`. -/
def cal_prob_calls (a : Table) (index : Index) (rand_num : ℚ) (locals : Switch) : List Int :=
  let t := test_switch a index locals
  if t.switch_ind = 0 then []
  else if t.switch_ind = 1 then
    let p1_ratio := if t.switch_type = 1 then t.p2_rt else t.p1_rt
    if rand_num < TRANS p1_ratio then [t.switch_type] else []
  else
    if rand_num ≤ TRANS t.p1_rt then [0]
    else if rand_num ≤ TRANS t.p1_rt + TRANS t.p2_rt then [1]
    else []


/-- The three percentages `main` prints after the run, of partial, full and all switches:
`result.swch_count[1] / total_step * 100`, `result.swch_count[2] / total_step * 100` and
`(result.swch_count[1] + result.swch_count[2]) / total_step * 100`, with `total_step` a
`double`. -/
def percentages {R : Type} (r : Run R) : Option ℚ × Option ℚ × Option ℚ :=
  let total_step : Option ℚ := some (r.total_step : ℚ)
  (fmul (fdiv (some (r.result.swch_count 1 : ℚ)) total_step) (some 100),
    fmul (fdiv (some (r.result.swch_count 2 : ℚ)) total_step) (some 100),
    fmul (fdiv (some ((r.result.swch_count 1 + r.result.swch_count 2 : Int) : ℚ)) total_step)
      (some 100))


/-! ## The arithmetic of double -/

/-- The rounding of IEEE 754 binary64, to nearest with ties to even: the `double` that an
operation returns when its exact result is `q`, for results in the normal range (none of
the operations evaluated below overflows or underflows).  With `2^e <= |q| < 2^(e+1)` the
doubles next to `q` are the multiples of `u = 2^(e-52)`; `n` is the multiple below `q`
and `r` the rest.  Every operation is rounded on its own, to `double` (no fused
multiply-add, no wider intermediate format). -/
def fl (q : ℚ) : ℚ :=
  if q = 0 then 0
  else
    let u : ℚ := (2 : ℚ) ^ (Int.log 2 |q| - 52)
    let n : Int := ⌊q / u⌋
    let r : ℚ := q / u - n
    if r < 1 / 2 then n * u
    else if 1 / 2 < r then (n + 1) * u
    else if n % 2 = 0 then n * u
    else (n + 1) * u

/-- A finite `double`, held as the rational number it denotes. -/
structure Dbl where
  val : ℚ

/-- The sum of two `double`s: the exact sum, rounded. -/
instance Dbl.instAdd : Add Dbl := ⟨fun x y => ⟨fl (x.val + y.val)⟩⟩

/-- The `double` `0.0`. -/
instance Dbl.instZero : Zero Dbl := ⟨⟨0⟩⟩

/-- The comparison `<=` of two `double`s. -/
instance Dbl.instLE : LE Dbl := ⟨fun x y => x.val ≤ y.val⟩

/-- The comparison `<=` of two `double`s is computed on their values. -/
instance Dbl.decLE : DecidableRel (fun x y : Dbl => x ≤ y) :=
  fun x y => inferInstanceAs (Decidable (x.val ≤ y.val))

/-- The function `test_switch` with the result of every operation on `double`s passed
through `rnd`: for `rnd = fl` this is the arithmetic the program performs, for `rnd = id`
it is `test_switch`.  The conversion of an `int` cell to `double` is exact.  The products
of the expanded `RATIO` macros are evaluated from left to right. -/
def test_switch_rnd (rnd : ℚ → ℚ) (a : Table) (index : Index) (out : Switch) : Switch :=
  let s0 : Switch := { out with switch_ind := 0 }
  let k11 := L index.i1 index.j1
  let k22 := L index.i2 index.j2
  let k12 := L index.i1 index.j2
  let k21 := L index.i2 index.j1
  if index.type ≤ 1 then
    let s1 : Switch :=
      if a k11 > 0 ∧ a k22 > 0 then
        { s0 with
          switch_ind := 1
          switch_type := 0
          p1_rt := rnd (rnd (rnd (rnd ((a k11 : ℚ) / rnd (1 + (a k12 : ℚ))) * (a k22 : ℚ))
                     / rnd (1 + (a k21 : ℚ))) * index.cst) }
      else s0
    if a k12 > 0 ∧ a k21 > 0 then
      { s1 with
        switch_ind := s1.switch_ind + 1
        switch_type := 1
        p2_rt := rnd (rnd (rnd (rnd ((a k12 : ℚ) / rnd (1 + (a k11 : ℚ))) * (a k21 : ℚ))
                   / rnd (1 + (a k22 : ℚ))) / index.cst) }
    else s1
  else
    let s1 : Switch :=
      if a k11 > 0 ∧ a k22 > 0 then
        { s0 with
          switch_ind := 1
          switch_type := 0
          p1_rt := rnd (rnd (rnd (rnd ((a k11 : ℚ) / rnd (1 + rnd ((a k12 : ℚ) + 1)))
                     * (a k22 : ℚ)) / rnd (1 + (a k12 : ℚ))) * index.cst) }
      else s0
    if a k12 > 1 then
      { s1 with
        switch_ind := s1.switch_ind + 1
        switch_type := 1
        p2_rt := rnd (rnd (rnd (rnd ((a k12 : ℚ) / rnd (1 + (a k11 : ℚ)))
                   * (((a k12 - 1 : Int) : ℚ))) / rnd (1 + (a k22 : ℚ))) / index.cst) }
    else s1

/-- The macro `TRANS(x)`, `(MIN(1.0, x))/2.0`, with the quotient passed through `rnd`. -/
def TRANS_rnd (rnd : ℚ → ℚ) (x : ℚ) : ℚ := rnd ((MIN 1 x) / 2)

/-- The function `cal_prob` with the result of every operation on `double`s passed through
`rnd`; the sum `ln_p_old + log (p1_ratio)` is the addition of `R`.  For `rnd = id` it is
`cal_prob`. -/
def cal_prob_rnd {R : Type} [Add R] (rnd : ℚ → ℚ) (log : ℚ → R) (a : Table) (index : Index)
    (ln_p_old : R) (rand_num : ℚ) (locals : Switch) : Step R :=
  let t := test_switch_rnd rnd a index locals
  if t.switch_ind = 0 then
    { a := a, ln_p_new := ln_p_old, actual_switch := 0 }
  else if t.switch_ind = 1 then
    let p1_ratio := if t.switch_type = 1 then t.p2_rt else t.p1_rt
    if rand_num < TRANS_rnd rnd p1_ratio then
      { a := do_switch a index t.switch_type, ln_p_new := ln_p_old + log p1_ratio,
        actual_switch := 1 }
    else
      { a := a, ln_p_new := ln_p_old, actual_switch := 0 }
  else
    if rand_num ≤ TRANS_rnd rnd t.p1_rt then
      { a := do_switch a index 0, ln_p_new := ln_p_old + log t.p1_rt, actual_switch := 2 }
    else if rand_num ≤ rnd (TRANS_rnd rnd t.p1_rt + TRANS_rnd rnd t.p2_rt) then
      { a := do_switch a index 1, ln_p_new := ln_p_old + log t.p2_rt, actual_switch := 2 }
    else
      { a := a, ln_p_new := ln_p_old, actual_switch := 0 }

/-- The statements both loops of `main` share, as in `iteration`, with `cal_prob_rnd`. -/
def iteration_rnd {R : Type} [Add R] (rnd : ℚ → ℚ) (log : ℚ → R) (no_allele : Nat)
    (draws : Nat → Draw) (c : Chain R) : Chain R :=
  let d := draws c.done
  let index := select_index d.u1 d.u2 d.u3 d.u4 no_allele d.work d.work'
  let s := cal_prob_rnd rnd log c.a index c.ln_p_simulated d.rand_num d.locals
  { a := s.a
    ln_p_simulated := s.ln_p_new
    swch_count := Function.update c.swch_count s.actual_switch.toNat
      (c.swch_count s.actual_switch.toNat + 1)
    done := c.done + 1 }

/-- The de-memorization loop, as `dememorize`, with `iteration_rnd`. -/
def dememorize_rnd {R : Type} [Add R] (rnd : ℚ → ℚ) (log : ℚ → R) (no_allele : Nat)
    (draws : Nat → Draw) : Nat → Chain R → Chain R
  | 0, c => c
  | n + 1, c =>
    dememorize_rnd rnd log no_allele draws n (iteration_rnd rnd log no_allele draws c)

/-- The inner sampling loop, as `batch`, with `iteration_rnd`. -/
def batch_rnd {R : Type} [Add R] [LE R] [DecidableRel (fun x y : R => x ≤ y)]
    (rnd : ℚ → ℚ) (log : ℚ → R) (no_allele : Nat) (draws : Nat → Draw) (ln_p_observed : R) :
    Nat → Chain R × Int → Chain R × Int
  | 0, s => s
  | n + 1, s =>
    let c := iteration_rnd rnd log no_allele draws s.1
    batch_rnd rnd log no_allele draws ln_p_observed n
      (c, if c.ln_p_simulated ≤ ln_p_observed then s.2 + 1 else s.2)

/-- The outer sampling loop, as `sampling`, with the quotient `(double) counter /
sample.size`, the product `p_simulated * p_simulated` and the two sums passed through
`rnd`. -/
def sampling_rnd {R : Type} [Add R] [LE R] [DecidableRel (fun x y : R => x ≤ y)]
    (rnd : ℚ → ℚ) (log : ℚ → R) (no_allele : Nat) (draws : Nat → Draw) (ln_p_observed : R)
    (size : Int) : Nat → Chain R × Option ℚ × Option ℚ → Chain R × Option ℚ × Option ℚ
  | 0, s => s
  | n + 1, s =>
    let b := batch_rnd rnd log no_allele draws ln_p_observed size.toNat (s.1, 0)
    let p_simulated := (fdiv (some (b.2 : ℚ)) (some (size : ℚ))).map rnd
    sampling_rnd rnd log no_allele draws ln_p_observed size n
      (b.1, (fadd s.2.1 p_simulated).map rnd,
        (fadd s.2.2 ((fmul p_simulated p_simulated).map rnd)).map rnd)

/-- The last assignments of `main` to `p_mean`, `result.p_value` and `result.se`, up to
the call of `sqrt`, as `p_value_se`, with the result of each of the two quotients of
`p_square`, of the difference `sample.group - 1.0`, of the quotient and the product of
`p_mean` and of the final difference passed through `rnd`. -/
def p_value_se_rnd (rnd : ℚ → ℚ) (group : Int) (p_mean p_square : Option ℚ) :
    Option ℚ × Option ℚ :=
  let p_mean := (fdiv p_mean (some (group : ℚ))).map rnd
  let g1 : Option ℚ := some (rnd ((group : ℚ) - 1))
  (p_mean,
   (fsub ((fdiv ((fdiv p_square (some (group : ℚ))).map rnd) g1).map rnd)
     ((fmul ((fdiv p_mean g1).map rnd) p_mean).map rnd)).map rnd)

/-- The function `main` of `hwe.c`, as `main`, with the loops and the last assignments in
the arithmetic given by `rnd`. -/
def main_rnd {R : Type} [Add R] [Zero R] [LE R] [DecidableRel (fun x y : R => x ≤ y)]
    (rnd : ℚ → ℚ) (log : ℚ → R) (a : Table) (no_allele : Nat) (sample : randomization)
    (draws : Nat → Draw) : Run R :=
  let ln_p_observed : R := 0
  let c0 : Chain R :=
    { a := a, ln_p_simulated := ln_p_observed, swch_count := fun _ => 0, done := 0 }
  let c1 := dememorize_rnd rnd log no_allele draws sample.step.toNat c0
  let s := sampling_rnd rnd log no_allele draws ln_p_observed sample.size sample.group.toNat
    (c1, some 0, some 0)
  let r := p_value_se_rnd rnd sample.group s.2.1 s.2.2
  { a := s.1.a
    ln_p_simulated := s.1.ln_p_simulated
    result := { p_value := r.1, se_radicand := r.2, swch_count := s.1.swch_count }
    total_step := sample.step + sample.group * sample.size }

theorem tri_succ (n : Nat) : (n + 1) * (n + 1 + 1) / 2 = n * (n + 1) / 2 + (n + 1) := by
  have h : (n + 1) * (n + 1 + 1) = n * (n + 1) + 2 * (n + 1) := by ring
  rw [h, Nat.add_mul_div_left _ _ (by decide : 0 < 2)]

theorem tri_mono {m n : Nat} (h : m ≤ n) : m * (m + 1) / 2 ≤ n * (n + 1) / 2 :=
  Nat.div_le_div_right (Nat.mul_le_mul h (by omega))

theorem tri_lt {m n : Nat} (h : m < n) : m * (m + 1) / 2 + m < n * (n + 1) / 2 := by
  have h1 := tri_succ m
  have h2 : (m + 1) * (m + 1 + 1) / 2 ≤ n * (n + 1) / 2 := tri_mono h
  omega

/-- Two calls of `L` address the same cell exactly when the unordered pairs agree. -/
theorem L_eq_iff (a b c d : Nat) :
    L a b = L c d ↔ (a = c ∧ b = d) ∨ (a = d ∧ b = c) := by
  unfold L
  constructor
  · intro h
    split_ifs at h with h1 h2 h2
    · rcases lt_trichotomy b d with hbd | hbd | hbd
      · have := tri_lt hbd; omega
      · subst hbd; omega
      · have := tri_lt hbd; omega
    · rcases lt_trichotomy b c with hbd | hbd | hbd
      · have := tri_lt hbd; omega
      · subst hbd; omega
      · have := tri_lt hbd; omega
    · rcases lt_trichotomy a d with hbd | hbd | hbd
      · have := tri_lt hbd; omega
      · subst hbd; omega
      · have := tri_lt hbd; omega
    · rcases lt_trichotomy a c with hbd | hbd | hbd
      · have := tri_lt hbd; omega
      · subst hbd; omega
      · have := tri_lt hbd; omega
  · rintro (⟨rfl, rfl⟩ | ⟨rfl, rfl⟩)
    · rfl
    · split_ifs with h1 h2 h2
      · omega
      · rfl
      · rfl
      · have : a = b := by omega
        subst this; rfl

theorem L_lt_LENGTH {K i j : Nat} (hK : K ≤ MAX_ALLELE) (hi : i < K) (hj : j < K) :
    L i j < LENGTH := by
  have hL : LENGTH = 19 * (19 + 1) / 2 + 20 := by decide
  have hM : MAX_ALLELE = 20 := rfl
  unfold L
  split_ifs with h
  · have := tri_mono (show j ≤ 19 by omega); omega
  · have := tri_mono (show i ≤ 19 by omega); omega

/-! ## The switch as a pointwise change -/

theorem do_switch_apply (a : Table) (index : Index) (type : Int) (x : Nat) :
    do_switch a index type x =
      a x + sgn type * (cell (L index.i1 index.j1) x + cell (L index.i2 index.j2) x
        - cell (L index.i1 index.j2) x - cell (L index.i2 index.j1) x) := by
  unfold do_switch sgn cell
  generalize L index.i1 index.j1 = k11
  generalize L index.i2 index.j2 = k22
  generalize L index.i1 index.j2 = k12
  generalize L index.i2 index.j1 = k21
  by_cases ht : type = 0
  · simp only [ht, if_true, Function.update_apply]
    split_ifs <;> subst_vars <;> omega
  · simp only [ht, if_false, Function.update_apply]
    split_ifs <;> subst_vars <;> omega

theorem sum_cell {N k : Nat} (hk : k < N) : ∑ x ∈ Finset.range N, cell k x = 1 := by
  unfold cell
  rw [Finset.sum_ite_eq' (Finset.range N) k (fun _ => (1 : Int))]
  simp [hk]

theorem total_do_switch {K : Nat} (hK : K ≤ MAX_ALLELE) (a : Table) (index : Index)
    (h : index.below K) (type : Int) : total (do_switch a index type) = total a := by
  obtain ⟨h1, h2, h3, h4⟩ := h
  unfold total
  simp only [do_switch_apply, Finset.sum_add_distrib, ← Finset.mul_sum, Finset.sum_sub_distrib,
    sum_cell (L_lt_LENGTH hK h1 h3), sum_cell (L_lt_LENGTH hK h2 h4),
    sum_cell (L_lt_LENGTH hK h1 h4), sum_cell (L_lt_LENGTH hK h2 h3)]
  ring

/-- The array after `cal_prob` is the old one or the result of one `do_switch`. -/
theorem cal_prob_table {R : Type} [Add R] (log : ℚ → R) (a : Table) (index : Index)
    (ln_p_old : R) (rand_num : ℚ) (locals : Switch) :
    (cal_prob log a index ln_p_old rand_num locals).a = a ∨
      ∃ type, (cal_prob log a index ln_p_old rand_num locals).a = do_switch a index type := by
  unfold cal_prob
  simp only
  split_ifs <;>
    first
    | exact Or.inl rfl
    | exact Or.inr ⟨0, rfl⟩
    | exact Or.inr ⟨1, rfl⟩
    | exact Or.inr ⟨(test_switch a index locals).switch_type, rfl⟩

theorem total_cal_prob {R : Type} [Add R] (log : ℚ → R) {K : Nat} (hK : K ≤ MAX_ALLELE)
    (a : Table) (index : Index) (h : index.below K) (ln_p_old : R) (rand_num : ℚ)
    (locals : Switch) : total (cal_prob log a index ln_p_old rand_num locals).a = total a := by
  rcases cal_prob_table log a index ln_p_old rand_num locals with h1 | ⟨t, h1⟩
  · rw [h1]
  · rw [h1, total_do_switch hK a index h t]

theorem total_cal_prob_steps {R : Type} [Add R] (log : ℚ → R) {K : Nat} (hK : K ≤ MAX_ALLELE)
    (moves : List Move) : ∀ (a : Table) (ln_p : R), (∀ m ∈ moves, m.index.below K) →
      total (cal_prob_steps log a ln_p moves).1 = total a := by
  induction moves with
  | nil => intro a ln_p _; rfl
  | cons m ms ih =>
    intro a ln_p h
    simp only [cal_prob_steps]
    rw [ih _ _ (fun x hx => h x (List.mem_cons_of_mem _ hx))]
    exact total_cal_prob log hK a m.index (h m (List.mem_cons_self _ _)) ln_p _ _

set_option maxRecDepth 100000 in
theorem total_table3 : total table3 = 19 := by decide

/-! ## Conservation of the total -/

/-- C1: for every table, every window with all four indices below `K <= 20` and either
switch type, `do_switch` leaves the sum of all `LENGTH` entries unchanged; when `C` and `D`
are the same cell (`i1 = j1`, `i2 = j2`, `i1 ≠ i2`) that cell changes by exactly 2; hence
the total is constant along every sequence of `cal_prob` steps, and from the table
`[[5],[2,5],[1,1,5]]` with three alleles it stays 19. -/
theorem total_invariant :
    (∀ (K : Nat), K ≤ MAX_ALLELE → ∀ (a : Table) (index : Index), index.below K →
      ∀ type : Int, total (do_switch a index type) = total a) ∧
    (∀ (a : Table) (index : Index), index.i1 = index.j1 → index.i2 = index.j2 →
      index.i1 ≠ index.i2 →
      L index.i1 index.j2 = L index.i2 index.j1 ∧
      do_switch a index 0 (L index.i1 index.j2) = a (L index.i1 index.j2) + 2 ∧
      ∀ type : Int, type ≠ 0 →
        do_switch a index type (L index.i1 index.j2) = a (L index.i1 index.j2) - 2) ∧
    (∀ (R : Type) (_ : Add R) (log : ℚ → R) (K : Nat), K ≤ MAX_ALLELE →
      ∀ (a : Table) (ln_p : R) (moves : List Move), (∀ m ∈ moves, m.index.below K) →
        total (cal_prob_steps log a ln_p moves).1 = total a) ∧
    (∀ (R : Type) (_ : Add R) (log : ℚ → R) (ln_p : R) (moves : List Move),
      (∀ m ∈ moves, m.index.below 3) →
        total (cal_prob_steps log table3 ln_p moves).1 = 19) := by
  refine ⟨fun K hK a index h type => total_do_switch hK a index h type, ?_, ?_, ?_⟩
  · intro a index h1 h2 hne
    have hCD : L index.i1 index.j2 = L index.i2 index.j1 :=
      (L_eq_iff _ _ _ _).2 (Or.inr ⟨h1, h2.symm⟩)
    have hA : L index.i1 index.j1 ≠ L index.i1 index.j2 := by
      rw [Ne, L_eq_iff]; omega
    have hB : L index.i2 index.j2 ≠ L index.i1 index.j2 := by
      rw [Ne, L_eq_iff]; omega
    refine ⟨hCD, ?_, ?_⟩
    · rw [do_switch_apply, ← hCD]
      simp [cell, sgn, hA.symm, hB.symm]
    · intro type ht
      rw [do_switch_apply, ← hCD]
      simp [cell, sgn, hA.symm, hB.symm, ht]
      ring
  · intro R _ log K hK a ln_p moves h
    exact total_cal_prob_steps log hK moves a ln_p h
  · intro R _ log ln_p moves h
    rw [total_cal_prob_steps log (by decide : 3 ≤ MAX_ALLELE) moves table3 ln_p h]
    exact total_table3

/-- The window `i1 = j1 = 0`, `i2 = j2 = 1` on the three-allele table: a D-switch keeps
the total. -/
theorem total_invariant_witness :
    (3 ≤ MAX_ALLELE) ∧ (Index.below ⟨0, 1, 0, 1, 2, 4⟩ 3) ∧
      total (do_switch table3 ⟨0, 1, 0, 1, 2, 4⟩ 0) = total table3 :=
  ⟨by decide, by decide,
    total_invariant.1 3 (by decide) table3 ⟨0, 1, 0, 1, 2, 4⟩ (by decide) 0⟩

/-! ## Conservation of the allele counts -/

theorem foldl_add_eq_sum (f : Nat → Int) (init : Int) (K : Nat) :
    (List.range K).foldl (fun acc j => acc + f j) init = init + ∑ j ∈ Finset.range K, f j := by
  induction K with
  | zero => simp
  | succ K ih =>
    rw [List.range_succ, List.foldl_append, ih, Finset.sum_range_succ]
    simp only [List.foldl_cons, List.foldl_nil]
    ring

theorem cal_n_row_eq (K : Nat) (a : Table) (i : Nat) :
    cal_n_row K a i = a (LL i i) + ∑ j ∈ Finset.range K, a (L i j) :=
  foldl_add_eq_sum (fun j => a (L i j)) (a (LL i i)) K

theorem foldl_update_apply (f : Nat → Int) (n : Nat → Int) (K x : Nat) :
    (List.range K).foldl (fun m i => Function.update m i (f i)) n x =
      if x < K then f x else n x := by
  induction K with
  | zero => simp
  | succ K ih =>
    rw [List.range_succ, List.foldl_append]
    simp only [List.foldl_cons, List.foldl_nil, Function.update_apply, ih]
    split_ifs <;> first | rfl | omega | (subst_vars; rfl)

theorem cal_n_apply (K : Nat) (a : Table) (n : Nat → Int) (x : Nat) :
    cal_n K a n x = if x < K then cal_n_row K a x else n x :=
  foldl_update_apply (cal_n_row K a) n K x

theorem LL_self (i : Nat) : LL i i = L i i := by
  unfold LL L; simp

/-- How often the cell of the pair `(p, q)` is read while `cal_n` computes `n[i]`. -/
theorem row_cell {K : Nat} (i p q : Nat) (hp : p < K) (hq : q < K) :
    cell (L p q) (LL i i) + ∑ j ∈ Finset.range K, cell (L p q) (L i j) =
      (if i = p then 1 else 0) + (if i = q then 1 else 0) := by
  unfold cell
  simp only [LL_self, L_eq_iff]
  by_cases h1 : i = p
  · by_cases h2 : i = q
    · subst h1; subst h2
      simp only [and_self, or_self, if_true, true_and]
      rw [Finset.sum_ite_eq' (Finset.range K) i (fun _ => (1 : Int))]
      simp [hp]
    · subst h1
      simp only [h2, and_false, false_and, or_self, or_false, false_or, true_and, if_false,
        if_true, zero_add, add_zero]
      rw [Finset.sum_ite_eq' (Finset.range K) q (fun _ => (1 : Int))]
      simp [hq]
  · by_cases h2 : i = q
    · subst h2
      simp only [h1, and_false, false_and, or_self, or_false, false_or, true_and, if_false,
        if_true, zero_add, add_zero]
      rw [Finset.sum_ite_eq' (Finset.range K) p (fun _ => (1 : Int))]
      simp [hp]
    · simp [h1, h2]

theorem cal_n_row_do_switch {K : Nat} (a : Table) (index : Index) (h : index.below K)
    (type : Int) (i : Nat) : cal_n_row K (do_switch a index type) i = cal_n_row K a i := by
  obtain ⟨h1, h2, h3, h4⟩ := h
  have e11 := row_cell i index.i1 index.j1 h1 h3
  have e22 := row_cell i index.i2 index.j2 h2 h4
  have e12 := row_cell i index.i1 index.j2 h1 h4
  have e21 := row_cell i index.i2 index.j1 h2 h3
  simp only [cal_n_row_eq, do_switch_apply, Finset.sum_add_distrib, ← Finset.mul_sum,
    Finset.sum_sub_distrib]
  have key : (if i = index.i1 then (1 : Int) else 0) + (if i = index.j1 then 1 else 0)
      + ((if i = index.i2 then 1 else 0) + (if i = index.j2 then 1 else 0))
      - ((if i = index.i1 then 1 else 0) + (if i = index.j2 then 1 else 0))
      - ((if i = index.i2 then 1 else 0) + (if i = index.j1 then 1 else 0)) = 0 := by ring
  linear_combination sgn type * (e11 + e22 - e12 - e21 + key)

/-- C2: for every table, every window with all four indices below `K` and either switch
type, `cal_n` computes the same allele counts before and after `do_switch`; and the count
it computes for allele `i < K` is `2 * a(i,i)` plus the sum of `a(i,j)` over `j ≠ i`. -/
theorem margins_invariant (K : Nat) (a : Table) (index : Index) (h : index.below K)
    (type : Int) (n : Nat → Int) :
    cal_n K (do_switch a index type) n = cal_n K a n ∧
    ∀ i, i < K →
      cal_n K a n i = 2 * a (LL i i) + ∑ j ∈ (Finset.range K).erase i, a (L i j) := by
  constructor
  · funext x
    rw [cal_n_apply, cal_n_apply, cal_n_row_do_switch a index h type x]
  · intro i hi
    rw [cal_n_apply, if_pos hi, cal_n_row_eq,
      ← Finset.add_sum_erase (Finset.range K) (fun j => a (L i j)) (Finset.mem_range.2 hi),
      ← LL_self]
    ring

/-- The allele counts of the three-allele table survive a D-switch on the window
`i1 = j1 = 0`, `i2 = j2 = 1`. -/
theorem margins_invariant_witness :
    Index.below ⟨0, 1, 0, 1, 2, 4⟩ 3 ∧
      cal_n 3 (do_switch table3 ⟨0, 1, 0, 1, 2, 4⟩ 0) (fun _ => 0) = cal_n 3 table3 (fun _ => 0) :=
  ⟨by decide, (margins_invariant 3 table3 ⟨0, 1, 0, 1, 2, 4⟩ (by decide) 0 (fun _ => 0)).1⟩

/-! ## Legal directions -/

theorem test_switch_ind (a : Table) (index : Index) (out : Switch) :
    (test_switch a index out).switch_ind =
      (if legalD a index then 1 else 0) + (if legalR a index then 1 else 0) := by
  unfold test_switch legalD legalR
  simp only
  split_ifs <;> simp

theorem test_switch_type (a : Table) (index : Index) (out : Switch) :
    (test_switch a index out).switch_type =
      if legalR a index then 1 else if legalD a index then 0 else out.switch_type := by
  unfold test_switch legalD legalR
  simp only
  split_ifs <;> simp

theorem test_switch_p1 (a : Table) (index : Index) (out : Switch) :
    (test_switch a index out).p1_rt =
      if legalD a index then
        if index.type ≤ 1 then
          (a (L index.i1 index.j1) : ℚ) / (1 + (a (L index.i1 index.j2) : ℚ))
            * (a (L index.i2 index.j2) : ℚ) / (1 + (a (L index.i2 index.j1) : ℚ)) * index.cst
        else
          (a (L index.i1 index.j1) : ℚ) / (1 + ((a (L index.i1 index.j2) : ℚ) + 1))
            * (a (L index.i2 index.j2) : ℚ) / (1 + (a (L index.i1 index.j2) : ℚ)) * index.cst
      else out.p1_rt := by
  unfold test_switch legalD
  simp only
  split_ifs <;> rfl

theorem test_switch_p2 (a : Table) (index : Index) (out : Switch) :
    (test_switch a index out).p2_rt =
      if legalR a index then
        if index.type ≤ 1 then
          (a (L index.i1 index.j2) : ℚ) / (1 + (a (L index.i1 index.j1) : ℚ))
            * (a (L index.i2 index.j1) : ℚ) / (1 + (a (L index.i2 index.j2) : ℚ)) / index.cst
        else
          (a (L index.i1 index.j2) : ℚ) / (1 + (a (L index.i1 index.j1) : ℚ))
            * ((a (L index.i1 index.j2) - 1 : Int) : ℚ) / (1 + (a (L index.i2 index.j2) : ℚ))
            / index.cst
      else out.p2_rt := by
  unfold test_switch legalR
  simp only
  split_ifs <;> rfl

/-- The array after `cal_prob` is the old one, or the result of a switch in a direction
that `test_switch` found legal. -/
theorem cal_prob_table_legal {R : Type} [Add R] (log : ℚ → R) (a : Table) (index : Index)
    (ln_p_old : R) (rand_num : ℚ) (locals : Switch) :
    (cal_prob log a index ln_p_old rand_num locals).a = a ∨
      (legalD a index ∧ (cal_prob log a index ln_p_old rand_num locals).a = do_switch a index 0) ∨
      (legalR a index ∧ (cal_prob log a index ln_p_old rand_num locals).a = do_switch a index 1) := by
  have hi := test_switch_ind a index locals
  have ht := test_switch_type a index locals
  unfold cal_prob
  simp only
  by_cases hD : legalD a index <;> by_cases hR : legalR a index <;>
    simp only [hD, hR, if_true, if_false] at hi ht <;>
    simp [hi, ht, hD, hR] <;>
    split_ifs <;> simp

/-! ## Windows drawn by select_index -/

theorem select_index_of_fields (i1 i2 j1 j2 : Nat) :
    (select_index_of i1 i2 j1 j2).i1 = i1 ∧ (select_index_of i1 i2 j1 j2).i2 = i2 ∧
      (select_index_of i1 i2 j1 j2).j1 = j1 ∧ (select_index_of i1 i2 j1 j2).j2 = j2 :=
  ⟨rfl, rfl, rfl, rfl⟩

/-- For an ordered window the count of coincidences reaches 2 only when `i1 = j1` and
`i2 = j2`. -/
theorem select_index_of_type_le_one {i1 i2 j1 j2 : Nat} (hi : i1 < i2) (hj : j1 < j2) :
    (select_index_of i1 i2 j1 j2).type ≤ 1 ↔ ¬(i1 = j1 ∧ i2 = j2) := by
  unfold select_index_of
  simp only
  split_ifs <;> simp <;> omega

theorem window_A_ne_B {i1 i2 j1 j2 : Nat} (hi : i1 < i2) (hj : j1 < j2) :
    L i1 j1 ≠ L i2 j2 := by
  rw [Ne, L_eq_iff]; omega

theorem window_A_ne_C {i1 j1 j2 : Nat} (hj : j1 < j2) : L i1 j1 ≠ L i1 j2 := by
  rw [Ne, L_eq_iff]; omega

theorem window_A_ne_D {i1 i2 j1 : Nat} (hi : i1 < i2) : L i1 j1 ≠ L i2 j1 := by
  rw [Ne, L_eq_iff]; omega

theorem window_B_ne_C {i1 i2 j2 : Nat} (hi : i1 < i2) : L i2 j2 ≠ L i1 j2 := by
  rw [Ne, L_eq_iff]; omega

theorem window_B_ne_D {i2 j1 j2 : Nat} (hj : j1 < j2) : L i2 j2 ≠ L i2 j1 := by
  rw [Ne, L_eq_iff]; omega

theorem window_C_eq_D_iff {i1 i2 j1 j2 : Nat} (hi : i1 < i2) (_hj : j1 < j2) :
    L i1 j2 = L i2 j1 ↔ (i1 = j1 ∧ i2 = j2) := by
  rw [L_eq_iff]; omega

/-! ## Non-negativity -/

theorem do_switch_D_nonneg (a : Table) (index : Index) (ha : ∀ k, 0 ≤ a k)
    (hne : L index.i1 index.j1 ≠ L index.i2 index.j2) (hD : legalD a index) (x : Nat) :
    0 ≤ do_switch a index 0 x := by
  obtain ⟨hA, hB⟩ := hD
  have hx := ha x
  rw [do_switch_apply]
  simp only [cell, sgn, if_true]
  split_ifs <;> subst_vars <;> omega

theorem do_switch_R_nonneg (a : Table) (index : Index) (ha : ∀ k, 0 ≤ a k)
    (hR : (L index.i1 index.j2 ≠ L index.i2 index.j1 ∧
            a (L index.i1 index.j2) > 0 ∧ a (L index.i2 index.j1) > 0) ∨
          (L index.i1 index.j2 = L index.i2 index.j1 ∧ a (L index.i1 index.j2) > 1))
    (x : Nat) : 0 ≤ do_switch a index 1 x := by
  have hx := ha x
  rw [do_switch_apply]
  simp only [cell, sgn, one_ne_zero, if_false]
  revert hR
  generalize L index.i1 index.j1 = k11
  generalize L index.i2 index.j2 = k22
  generalize L index.i1 index.j2 = k12
  generalize L index.i2 index.j1 = k21
  rintro (⟨hne, hC, hD⟩ | ⟨heq, hE⟩)
  · split_ifs <;> subst_vars <;> omega
  · subst heq
    split_ifs <;> subst_vars <;> omega

/-- C3: for every table with all entries `>= 0`, every ordered window (`i1 < i2`,
`j1 < j2`) classified by `select_index` and every value of the uniform draw, every entry
of the table left by `cal_prob` is `>= 0`. -/
theorem cal_prob_nonneg (R : Type) [Add R] (log : ℚ → R) (a : Table) (ha : ∀ k, 0 ≤ a k)
    (i1 i2 j1 j2 : Nat) (hi : i1 < i2) (hj : j1 < j2) (ln_p_old : R) (rand_num : ℚ)
    (locals : Switch) (k : Nat) :
    0 ≤ (cal_prob log a (select_index_of i1 i2 j1 j2) ln_p_old rand_num locals).a k := by
  rcases cal_prob_table_legal log a (select_index_of i1 i2 j1 j2) ln_p_old rand_num locals
    with h | ⟨hD, h⟩ | ⟨hR, h⟩
  · rw [h]; exact ha k
  · rw [h]
    exact do_switch_D_nonneg a _ ha (window_A_ne_B hi hj) hD k
  · rw [h]
    refine do_switch_R_nonneg a _ ha ?_ k
    unfold legalR at hR
    by_cases ht : (select_index_of i1 i2 j1 j2).type ≤ 1
    · rw [if_pos ht] at hR
      refine Or.inl ⟨?_, hR⟩
      intro hCD
      exact (select_index_of_type_le_one hi hj).1 ht ((window_C_eq_D_iff hi hj).1 hCD)
    · rw [if_neg ht] at hR
      refine Or.inr ⟨?_, hR⟩
      have : i1 = j1 ∧ i2 = j2 := by
        by_contra hc
        exact ht ((select_index_of_type_le_one hi hj).2 hc)
      exact (window_C_eq_D_iff hi hj).2 this

theorem table3_nonneg : ∀ k, 0 ≤ table3 k := by
  intro k
  unfold table3
  rcases k with _ | _ | _ | _ | _ | _ | _ <;> simp

/-- On the three-allele table with the window `i1 = j1 = 0`, `i2 = j2 = 1` and the draw
`1/10` the D-switch is executed and the merged cell goes from 2 to 4. -/
theorem cal_prob_nonneg_witness :
    (∀ k, 0 ≤ table3 k) ∧ (0 < 1) ∧
      0 ≤ (cal_prob (fun _ => (0 : ℚ)) table3 (select_index_of 0 1 0 1) 0 (1 / 10)
        ⟨0, 0, 0, 0⟩).a 1 :=
  ⟨table3_nonneg, by decide,
    cal_prob_nonneg ℚ (fun _ => 0) table3 table3_nonneg 0 1 0 1 (by decide) (by decide) 0
      (1 / 10) ⟨0, 0, 0, 0⟩ 1⟩

/-! ## Round trip -/

/-- C4: on every table and every window the R-switch undoes the D-switch and the D-switch
undoes the R-switch, cell for cell, whatever cells of the window coincide. -/
theorem do_switch_round_trip (a : Table) (index : Index) :
    do_switch (do_switch a index 0) index 1 = a ∧
      do_switch (do_switch a index 1) index 0 = a := by
  constructor <;>
  · funext x
    rw [do_switch_apply, do_switch_apply]
    simp only [sgn, if_true, one_ne_zero, if_false]
    ring

/-! ## What test_switch reports -/

/-- C6: `test_switch` sets `switch_ind` to the number of legal directions, where the
D-switch is legal iff `A > 0` and `B > 0`, and the R-switch is legal iff `C > 0` and
`D > 0` when `type <= 1` and iff the merged cell `E = a[k12]` exceeds 1 when `type = 2`
(the `else` branch).  `switch_ind` is 0 if neither is legal, 1 if exactly one is, with
`switch_type` 0 for D and 1 for R, and 2 if both are. -/
theorem test_switch_counts_legal (a : Table) (index : Index) (out : Switch) :
    (legalD a index ↔ a (L index.i1 index.j1) > 0 ∧ a (L index.i2 index.j2) > 0) ∧
    (index.type ≤ 1 →
      (legalR a index ↔ a (L index.i1 index.j2) > 0 ∧ a (L index.i2 index.j1) > 0)) ∧
    (2 ≤ index.type → (legalR a index ↔ a (L index.i1 index.j2) > 1)) ∧
    (test_switch a index out).switch_ind =
      (if legalD a index then 1 else 0) + (if legalR a index then 1 else 0) ∧
    (¬legalD a index → ¬legalR a index → (test_switch a index out).switch_ind = 0) ∧
    (legalD a index → ¬legalR a index →
      (test_switch a index out).switch_ind = 1 ∧ (test_switch a index out).switch_type = 0) ∧
    (¬legalD a index → legalR a index →
      (test_switch a index out).switch_ind = 1 ∧ (test_switch a index out).switch_type = 1) ∧
    (legalD a index → legalR a index → (test_switch a index out).switch_ind = 2) := by
  have hi := test_switch_ind a index out
  have ht := test_switch_type a index out
  refine ⟨Iff.rfl, ?_, ?_, hi, ?_, ?_, ?_, ?_⟩
  · intro h; unfold legalR; rw [if_pos h]
  · intro h; unfold legalR; rw [if_neg (by omega)]
  · intro hD hR; rw [hi, if_neg hD, if_neg hR]; rfl
  · intro hD hR; rw [hi, ht, if_pos hD, if_neg hR, if_neg hR, if_pos hD]; exact ⟨rfl, rfl⟩
  · intro hD hR; rw [hi, ht, if_neg hD, if_pos hR, if_pos hR]; exact ⟨rfl, rfl⟩
  · intro hD hR; rw [hi, if_pos hD, if_pos hR]; rfl

/-- On the three-allele table the window `i1 = j1 = 0`, `i2 = j2 = 1` is fully
switchable, and the window `0 1 / 0 2` of coincidence 1 as well. -/
theorem test_switch_counts_legal_witness :
    legalD table3 (select_index_of 0 1 0 1) ∧ legalR table3 (select_index_of 0 1 0 1) ∧
      (test_switch table3 (select_index_of 0 1 0 1) ⟨7, 7, 0, 0⟩).switch_ind = 2 :=
  ⟨by decide, by decide,
    (test_switch_counts_legal table3 (select_index_of 0 1 0 1) ⟨7, 7, 0, 0⟩).2.2.2.2.2.2.2
      (by decide) (by decide)⟩

/-! ## The probability ratios -/

/-- C7: for every window with `type <= 1` and every table, when the D-switch is legal
`test_switch` returns `p1_rt = (A/(1+C)) * (B/(1+D)) * cst`, and when the R-switch is legal
it returns `p2_rt = (C/(1+A)) * (D/(1+B)) / cst`, as exact rationals. -/
theorem ratios_generic (a : Table) (index : Index) (out : Switch) (ht : index.type ≤ 1) :
    (legalD a index →
      (test_switch a index out).p1_rt =
        ((a (L index.i1 index.j1) : ℚ) / (1 + (a (L index.i1 index.j2) : ℚ))) *
        ((a (L index.i2 index.j2) : ℚ) / (1 + (a (L index.i2 index.j1) : ℚ))) * index.cst) ∧
    (legalR a index →
      (test_switch a index out).p2_rt =
        ((a (L index.i1 index.j2) : ℚ) / (1 + (a (L index.i1 index.j1) : ℚ))) *
        ((a (L index.i2 index.j1) : ℚ) / (1 + (a (L index.i2 index.j2) : ℚ))) / index.cst) := by
  constructor
  · intro hD
    rw [test_switch_p1, if_pos hD, if_pos ht]
    ring
  · intro hR
    rw [test_switch_p2, if_pos hR, if_pos ht]
    ring

/-- The window `0 1 / 0 2` (coincidence 1, `cst = 2`) on the three-allele table:
`A = 5`, `B = 1`, `C = 1`, `D = 2`. -/
theorem ratios_generic_witness :
    (select_index_of 0 1 0 2).type ≤ 1 ∧ legalD table3 (select_index_of 0 1 0 2) ∧
      (test_switch table3 (select_index_of 0 1 0 2) ⟨0, 0, 0, 0⟩).p1_rt =
        ((table3 (L 0 0) : ℚ) / (1 + (table3 (L 0 2) : ℚ))) *
        ((table3 (L 1 2) : ℚ) / (1 + (table3 (L 1 0) : ℚ))) * (select_index_of 0 1 0 2).cst :=
  ⟨by decide, by decide,
    (ratios_generic table3 (select_index_of 0 1 0 2) ⟨0, 0, 0, 0⟩ (by decide)).1 (by decide)⟩

/-- C8 as stated fails: on the three-allele table with the window `i1 = j1 = 0`,
`i2 = j2 = 1` (`A = 5`, `B = 5`, `E = 2`, `cst = 4`) the D-switch is legal and
`test_switch` returns `25/3`, not `(A/(1+E)) * (B/E) * cst = 50/3`. -/
theorem ratio_D_merged_counterexample :
    (select_index_of 0 1 0 1).type = 2 ∧ legalD table3 (select_index_of 0 1 0 1) ∧
      (test_switch table3 (select_index_of 0 1 0 1) ⟨0, 0, 0, 0⟩).p1_rt = 25 / 3 ∧
      (test_switch table3 (select_index_of 0 1 0 1) ⟨0, 0, 0, 0⟩).p1_rt ≠
        ((table3 (L 0 0) : ℚ) / (1 + (table3 (L 0 1) : ℚ))) *
        ((table3 (L 1 1) : ℚ) / (table3 (L 0 1) : ℚ)) * (select_index_of 0 1 0 1).cst := by
  refine ⟨by decide, by decide, ?_, ?_⟩
  · rw [test_switch_p1, if_pos (by decide), if_neg (by decide)]
    norm_num [select_index_of, table3, L]
  · rw [test_switch_p1, if_pos (by decide), if_neg (by decide)]
    norm_num [select_index_of, table3, L]

/-- C8, amended: for every window with `type = 2` and every table with `A > 0` and
`B > 0`, the D-switch ratio returned by `test_switch` is
`(A/(2+E)) * (B/(1+E)) * cst`, where `E = a[k12]` is the merged cell. -/
theorem ratio_D_merged (a : Table) (index : Index) (out : Switch) (ht : index.type = 2)
    (hA : a (L index.i1 index.j1) > 0) (hB : a (L index.i2 index.j2) > 0) :
    (test_switch a index out).p1_rt =
      ((a (L index.i1 index.j1) : ℚ) / (2 + (a (L index.i1 index.j2) : ℚ))) *
      ((a (L index.i2 index.j2) : ℚ) / (1 + (a (L index.i1 index.j2) : ℚ))) * index.cst := by
  rw [test_switch_p1, if_pos ⟨hA, hB⟩, if_neg (by omega)]
  ring

/-- The merged window on the three-allele table. -/
theorem ratio_D_merged_witness :
    (select_index_of 0 1 0 1).type = 2 ∧ table3 (L 0 0) > 0 ∧ table3 (L 1 1) > 0 ∧
      (test_switch table3 (select_index_of 0 1 0 1) ⟨0, 0, 0, 0⟩).p1_rt =
        ((table3 (L 0 0) : ℚ) / (2 + (table3 (L 0 1) : ℚ))) *
        ((table3 (L 1 1) : ℚ) / (1 + (table3 (L 0 1) : ℚ))) * (select_index_of 0 1 0 1).cst :=
  ⟨by decide, by decide, by decide,
    ratio_D_merged table3 (select_index_of 0 1 0 1) ⟨0, 0, 0, 0⟩ (by decide) (by decide)
      (by decide)⟩

/-- C9 as stated fails: on the three-allele table with the window `i1 = j1 = 0`,
`i2 = j2 = 1` (`A = 5`, `B = 5`, `E = 2`, `cst = 4`) the R-switch is legal and
`test_switch` returns `1/72`, not `(E/A) * ((E-1)/B) / cst = 1/50`. -/
theorem ratio_R_merged_counterexample :
    (select_index_of 0 1 0 1).type = 2 ∧ table3 (L 0 1) > 1 ∧
      (test_switch table3 (select_index_of 0 1 0 1) ⟨0, 0, 0, 0⟩).p2_rt = 1 / 72 ∧
      (test_switch table3 (select_index_of 0 1 0 1) ⟨0, 0, 0, 0⟩).p2_rt ≠
        ((table3 (L 0 1) : ℚ) / (table3 (L 0 0) : ℚ)) *
        (((table3 (L 0 1) : ℚ) - 1) / (table3 (L 1 1) : ℚ)) / (select_index_of 0 1 0 1).cst := by
  refine ⟨by decide, by decide, ?_, ?_⟩
  · rw [test_switch_p2, if_pos (by decide), if_neg (by decide)]
    norm_num [select_index_of, table3, L]
  · rw [test_switch_p2, if_pos (by decide), if_neg (by decide)]
    norm_num [select_index_of, table3, L]

/-- C9, amended: for every window with `type = 2` and every table whose merged cell
`E = a[k12]` exceeds 1, the R-switch ratio returned by `test_switch` is
`(E/(1+A)) * ((E-1)/(1+B)) / cst`. -/
theorem ratio_R_merged (a : Table) (index : Index) (out : Switch) (ht : index.type = 2)
    (hE : a (L index.i1 index.j2) > 1) :
    (test_switch a index out).p2_rt =
      ((a (L index.i1 index.j2) : ℚ) / (1 + (a (L index.i1 index.j1) : ℚ))) *
      (((a (L index.i1 index.j2) : ℚ) - 1) / (1 + (a (L index.i2 index.j2) : ℚ)))
        / index.cst := by
  have hR : legalR a index := by
    unfold legalR; rw [if_neg (by omega)]; exact hE
  rw [test_switch_p2, if_pos hR, if_neg (by omega)]
  push_cast
  ring

/-- The merged window on the three-allele table. -/
theorem ratio_R_merged_witness :
    (select_index_of 0 1 0 1).type = 2 ∧ table3 (L 0 1) > 1 ∧
      (test_switch table3 (select_index_of 0 1 0 1) ⟨0, 0, 0, 0⟩).p2_rt =
        ((table3 (L 0 1) : ℚ) / (1 + (table3 (L 0 0) : ℚ))) *
        (((table3 (L 0 1) : ℚ) - 1) / (1 + (table3 (L 1 1) : ℚ)))
          / (select_index_of 0 1 0 1).cst :=
  ⟨by decide, by decide,
    ratio_R_merged table3 (select_index_of 0 1 0 1) ⟨0, 0, 0, 0⟩ (by decide) (by decide)⟩

/-! ## The scale constant -/

/-- C10 as stated fails: for the window `i1 = j1 = 0`, `i2 = j2 = 1` both equalities hold,
the coincidence count is 2 and `select_index` sets `cst = 4 = 2^2`, not `2^(-2) = 1/4`. -/
theorem cst_counterexample :
    ((0 : Nat) < 1) ∧ (select_index_of 0 1 0 1).type = 2 ∧
      (select_index_of 0 1 0 1).cst = 4 ∧ (select_index_of 0 1 0 1).cst ≠ 1 / 4 := by
  refine ⟨by decide, by decide, ?_, ?_⟩ <;> norm_num [select_index_of]

/-- C10, amended: for every window with `i1 < i2` and `j1 < j2`, `select_index` sets
`cst = 2^type` if at least one of `i1 = j1`, `i2 = j2` holds and `cst = 2^(-type)`
otherwise, where `type` is the coincidence count; so `cst = 1` when the count is 0 and
`cst = 4` when both equalities hold. -/
theorem cst_value (i1 i2 j1 j2 : Nat) (hi : i1 < i2) (hj : j1 < j2) :
    ((i1 = j1 ∨ i2 = j2) →
      (select_index_of i1 i2 j1 j2).cst = (2 : ℚ) ^ (select_index_of i1 i2 j1 j2).type) ∧
    (¬(i1 = j1 ∨ i2 = j2) →
      (select_index_of i1 i2 j1 j2).cst = (2 : ℚ) ^ (-(select_index_of i1 i2 j1 j2).type)) ∧
    ((select_index_of i1 i2 j1 j2).type = 0 → (select_index_of i1 i2 j1 j2).cst = 1) ∧
    (i1 = j1 ∧ i2 = j2 → (select_index_of i1 i2 j1 j2).cst = 4) := by
  have e1 : (select_index_of i1 i2 j1 j2).cst =
      if i1 = j1 ∨ i2 = j2 then
        (2 : ℚ) ^ ((select_index_of i1 i2 j1 j2).type.toNat)
      else ((2 : ℚ) ^ ((select_index_of i1 i2 j1 j2).type.toNat))⁻¹ := by
    unfold select_index_of
    simp only [Int.toNat_ofNat]
    split_ifs <;> simp_all
  have e2 : 0 ≤ (select_index_of i1 i2 j1 j2).type := by
    unfold select_index_of; simp only; positivity
  have e3 : ((select_index_of i1 i2 j1 j2).type.toNat : Int) = (select_index_of i1 i2 j1 j2).type :=
    Int.toNat_of_nonneg e2
  refine ⟨?_, ?_, ?_, ?_⟩
  · intro h
    rw [e1, if_pos h, ← zpow_natCast, e3]
  · intro h
    rw [e1, if_neg h, zpow_neg, ← zpow_natCast, e3]
  · intro h
    rw [e1, h]
    split_ifs <;> simp
  · rintro ⟨rfl, rfl⟩
    unfold select_index_of
    have h1 : ¬ i1 = i2 := by omega
    have h2 : ¬ i2 = i1 := by omega
    simp only [h1, h2, if_true, if_false, true_or]
    norm_num

/-- The window `0 1 / 0 1`, where both equalities hold. -/
theorem cst_value_witness :
    ((0 : Nat) < 1) ∧ ((0 : Nat) = 0 ∧ (1 : Nat) = 1) ∧ (select_index_of 0 1 0 1).cst = 4 :=
  ⟨by decide, by decide, (cst_value 0 1 0 1 (by decide) (by decide)).2.2.2 (by decide)⟩

/-! ## The ratios are relative probabilities -/

theorem fq_pos (z : Int) : 0 < fq z := by
  unfold fq
  exact_mod_cast Nat.factorial_pos _

theorem fq_succ {z : Int} (hz : 0 ≤ z) : fq (z + 1) = ((z : ℚ) + 1) * fq z := by
  unfold fq
  obtain ⟨n, rfl⟩ := Int.eq_ofNat_of_zero_le hz
  have h : ((n : Int) + 1).toNat = n + 1 := by omega
  rw [h, Int.toNat_ofNat, Nat.factorial_succ]
  push_cast
  ring

theorem fq_pred {z : Int} (hz : 0 < z) : fq z = (z : ℚ) * fq (z - 1) := by
  have h := fq_succ (show 0 ≤ z - 1 by omega)
  rw [sub_add_cancel] at h
  rw [h]; push_cast; ring

theorem flat_prod (g : Nat → ℚ) (K : Nat) :
    ∏ i ∈ Finset.range K, ∏ j ∈ Finset.range (i + 1), g (LL i j) =
      ∏ k ∈ Finset.range (K * (K + 1) / 2), g k := by
  induction K with
  | zero => simp
  | succ K ih =>
    rw [Finset.prod_range_succ, ih, tri_succ, Finset.prod_range_add g (K * (K + 1) / 2) (K + 1)]
    rfl

theorem flat_sum (g : Nat → Int) (K : Nat) :
    ∑ i ∈ Finset.range K, ∑ j ∈ Finset.range (i + 1), g (LL i j) =
      ∑ k ∈ Finset.range (K * (K + 1) / 2), g k := by
  induction K with
  | zero => simp
  | succ K ih =>
    rw [Finset.sum_range_succ, ih, tri_succ, Finset.sum_range_add g (K * (K + 1) / 2) (K + 1)]
    rfl

theorem offDiag_eq (K : Nat) (a : Table) :
    offDiag K a =
      ∑ k ∈ Finset.range (K * (K + 1) / 2), a k - ∑ i ∈ Finset.range K, a (LL i i) := by
  rw [← flat_sum]
  unfold offDiag
  simp only [Finset.sum_range_succ, Finset.sum_add_distrib]
  ring

theorem L_lt_tri {K i j : Nat} (hi : i < K) (hj : j < K) : L i j < K * (K + 1) / 2 := by
  unfold L
  split_ifs with h
  · have := tri_lt (show j < K from hj); omega
  · have := tri_lt (show i < K from hi); omega

/-- How often the cell of the pair `(p, q)` lies on the diagonal. -/
theorem diag_cell {K : Nat} (p q : Nat) (hp : p < K) :
    ∑ i ∈ Finset.range K, cell (L p q) (LL i i) = if p = q then 1 else 0 := by
  unfold cell
  simp only [LL_self, L_eq_iff]
  by_cases h : p = q
  · subst h
    simp only [and_self, or_self, if_true]
    rw [Finset.sum_ite_eq' (Finset.range K) p (fun _ => (1 : Int))]
    simp [hp]
  · rw [if_neg h]
    apply Finset.sum_eq_zero
    intro i _
    rw [if_neg]
    omega

theorem offDiag_do_switch {K : Nat} (a : Table) (index : Index) (h : index.below K)
    (type : Int) :
    offDiag K (do_switch a index type) =
      offDiag K a - sgn type * expo index.i1 index.i2 index.j1 index.j2 := by
  obtain ⟨h1, h2, h3, h4⟩ := h
  rw [offDiag_eq, offDiag_eq]
  simp only [do_switch_apply, Finset.sum_add_distrib, ← Finset.mul_sum, Finset.sum_sub_distrib,
    sum_cell (L_lt_tri h1 h3), sum_cell (L_lt_tri h2 h4),
    sum_cell (L_lt_tri h1 h4), sum_cell (L_lt_tri h2 h3),
    diag_cell _ _ h1, diag_cell _ _ h2, expo]
  ring

theorem cst_eq_zpow {i1 i2 j1 j2 : Nat} (hi : i1 < i2) (hj : j1 < j2) :
    (select_index_of i1 i2 j1 j2).cst = (2 : ℚ) ^ (expo i1 i2 j1 j2) := by
  unfold select_index_of expo
  simp only
  split_ifs <;> first | contradiction | omega | norm_num

theorem W_eq (K : Nat) (a : Table) :
    W K a = (2 : ℚ) ^ (offDiag K a) / ∏ k ∈ Finset.range (K * (K + 1) / 2), fq (a k) := by
  have h := flat_prod (fun k => fq (a k)) K
  simp only at h
  unfold W
  rw [h]

theorem prod_fq_pos (N : Nat) (a : Table) : 0 < ∏ k ∈ Finset.range N, fq (a k) :=
  Finset.prod_pos (fun k _ => fq_pos (a k))

/-- The product of the factorials after a change of the table confined to the cells `S`. -/
theorem prod_fq_change (N : Nat) (a b : Table) (S : Finset Nat) (hS : S ⊆ Finset.range N)
    (hout : ∀ k, k ∉ S → b k = a k) :
    ∏ k ∈ Finset.range N, fq (b k) =
      (∏ k ∈ Finset.range N, fq (a k)) * ∏ k ∈ S, (fq (b k) / fq (a k)) := by
  have h1 : ∏ k ∈ S, (fq (b k) / fq (a k)) = ∏ k ∈ Finset.range N, (fq (b k) / fq (a k)) := by
    apply Finset.prod_subset hS
    intro k _ hk
    rw [hout k hk]
    exact div_self (ne_of_gt (fq_pos (a k)))
  rw [h1, ← Finset.prod_mul_distrib]
  apply Finset.prod_congr rfl
  intro k _
  have := ne_of_gt (fq_pos (a k))
  field_simp

/-- The factor `W` after a change of the table confined to the cells `S` that moves the
off-diagonal sum by `d`. -/
theorem W_change (K : Nat) (a b : Table) (S : Finset Nat)
    (hS : S ⊆ Finset.range (K * (K + 1) / 2)) (hout : ∀ k, k ∉ S → b k = a k) (d : Int)
    (hoff : offDiag K b = offDiag K a + d) :
    W K b = W K a * (2 : ℚ) ^ d / ∏ k ∈ S, (fq (b k) / fq (a k)) := by
  have hP := ne_of_gt (prod_fq_pos (K * (K + 1) / 2) a)
  have hQ : (∏ k ∈ S, (fq (b k) / fq (a k))) ≠ 0 :=
    ne_of_gt (Finset.prod_pos (fun k _ => div_pos (fq_pos (b k)) (fq_pos (a k))))
  rw [W_eq, W_eq, prod_fq_change _ a b S hS hout, hoff, zpow_add₀ (by norm_num : (2 : ℚ) ≠ 0)]
  field_simp

/-- Outside the four cells of the window `do_switch` changes nothing. -/
theorem do_switch_outside (a : Table) (index : Index) (type : Int) (x : Nat)
    (h11 : x ≠ L index.i1 index.j1) (h22 : x ≠ L index.i2 index.j2)
    (h12 : x ≠ L index.i1 index.j2) (h21 : x ≠ L index.i2 index.j1) :
    do_switch a index type x = a x := by
  rw [do_switch_apply]
  simp [cell, h11, h22, h12, h21]

/-- What `test_switch` reports when the D-switch is legal. -/
theorem reports_D_iff (a : Table) (index : Index) (out : Switch) :
    ((test_switch a index out).switch_ind = 2 ∨
      ((test_switch a index out).switch_ind = 1 ∧ (test_switch a index out).switch_type = 0))
      ↔ legalD a index := by
  rw [test_switch_ind, test_switch_type]
  by_cases hD : legalD a index <;> by_cases hR : legalR a index <;> simp [hD, hR]

/-- What `test_switch` reports when the R-switch is legal. -/
theorem reports_R_iff (a : Table) (index : Index) (out : Switch) :
    ((test_switch a index out).switch_ind = 2 ∨
      ((test_switch a index out).switch_ind = 1 ∧ (test_switch a index out).switch_type = 1))
      ↔ legalR a index := by
  rw [test_switch_ind, test_switch_type]
  by_cases hD : legalD a index <;> by_cases hR : legalR a index <;> simp [hD, hR]

theorem W_do_switch_four {K : Nat} (a : Table) (index : Index)
    (hb : index.below K) (type : Int)
    (hAB : L index.i1 index.j1 ≠ L index.i2 index.j2)
    (hAC : L index.i1 index.j1 ≠ L index.i1 index.j2)
    (hAD : L index.i1 index.j1 ≠ L index.i2 index.j1)
    (hBC : L index.i2 index.j2 ≠ L index.i1 index.j2)
    (hBD : L index.i2 index.j2 ≠ L index.i2 index.j1)
    (hCD : L index.i1 index.j2 ≠ L index.i2 index.j1) :
    W K (do_switch a index type) =
      W K a * (2 : ℚ) ^ (-(sgn type * expo index.i1 index.i2 index.j1 index.j2)) /
        ((fq (a (L index.i1 index.j1) + sgn type) / fq (a (L index.i1 index.j1))) *
         (fq (a (L index.i2 index.j2) + sgn type) / fq (a (L index.i2 index.j2))) *
         (fq (a (L index.i1 index.j2) - sgn type) / fq (a (L index.i1 index.j2))) *
         (fq (a (L index.i2 index.j1) - sgn type) / fq (a (L index.i2 index.j1)))) := by
  obtain ⟨h1, h2, h3, h4⟩ := hb
  have hS : ({L index.i1 index.j1, L index.i2 index.j2, L index.i1 index.j2,
      L index.i2 index.j1} : Finset Nat) ⊆ Finset.range (K * (K + 1) / 2) := by
    intro x hx
    simp only [Finset.mem_insert, Finset.mem_singleton] at hx
    rw [Finset.mem_range]
    rcases hx with rfl | rfl | rfl | rfl
    · exact L_lt_tri h1 h3
    · exact L_lt_tri h2 h4
    · exact L_lt_tri h1 h4
    · exact L_lt_tri h2 h3
  have hout : ∀ x, x ∉ ({L index.i1 index.j1, L index.i2 index.j2, L index.i1 index.j2,
      L index.i2 index.j1} : Finset Nat) → do_switch a index type x = a x := by
    intro x hx
    simp only [Finset.mem_insert, Finset.mem_singleton, not_or] at hx
    exact do_switch_outside a index type x hx.1 hx.2.1 hx.2.2.1 hx.2.2.2
  have hoff : offDiag K (do_switch a index type) =
      offDiag K a + -(sgn type * expo index.i1 index.i2 index.j1 index.j2) := by
    rw [offDiag_do_switch a index ⟨h1, h2, h3, h4⟩ type]; ring
  rw [W_change K a (do_switch a index type) _ hS hout _ hoff]
  have e11 : do_switch a index type (L index.i1 index.j1) =
      a (L index.i1 index.j1) + sgn type := by
    rw [do_switch_apply]; simp [cell, hAB, hAC, hAD]
  have e22 : do_switch a index type (L index.i2 index.j2) =
      a (L index.i2 index.j2) + sgn type := by
    rw [do_switch_apply]; simp [cell, hAB.symm, hBC, hBD]
  have e12 : do_switch a index type (L index.i1 index.j2) =
      a (L index.i1 index.j2) - sgn type := by
    rw [do_switch_apply]; simp [cell, hAC.symm, hBC.symm, hCD]; ring
  have e21 : do_switch a index type (L index.i2 index.j1) =
      a (L index.i2 index.j1) - sgn type := by
    rw [do_switch_apply]; simp [cell, hAD.symm, hBD.symm, hCD.symm]; ring
  rw [Finset.prod_insert (by simp [hAB, hAC, hAD]), Finset.prod_insert (by simp [hBC, hBD]),
    Finset.prod_insert (by simp [hCD]), Finset.prod_singleton, e11, e22, e12, e21]
  ring

theorem W_do_switch_three {K : Nat} (a : Table) (index : Index)
    (hb : index.below K) (type : Int)
    (hAB : L index.i1 index.j1 ≠ L index.i2 index.j2)
    (hAC : L index.i1 index.j1 ≠ L index.i1 index.j2)
    (hBC : L index.i2 index.j2 ≠ L index.i1 index.j2)
    (hCD : L index.i1 index.j2 = L index.i2 index.j1) :
    W K (do_switch a index type) =
      W K a * (2 : ℚ) ^ (-(sgn type * expo index.i1 index.i2 index.j1 index.j2)) /
        ((fq (a (L index.i1 index.j1) + sgn type) / fq (a (L index.i1 index.j1))) *
         (fq (a (L index.i2 index.j2) + sgn type) / fq (a (L index.i2 index.j2))) *
         (fq (a (L index.i1 index.j2) - 2 * sgn type) / fq (a (L index.i1 index.j2)))) := by
  obtain ⟨h1, h2, h3, h4⟩ := hb
  have hS : ({L index.i1 index.j1, L index.i2 index.j2, L index.i1 index.j2} : Finset Nat) ⊆
      Finset.range (K * (K + 1) / 2) := by
    intro x hx
    simp only [Finset.mem_insert, Finset.mem_singleton] at hx
    rw [Finset.mem_range]
    rcases hx with rfl | rfl | rfl
    · exact L_lt_tri h1 h3
    · exact L_lt_tri h2 h4
    · exact L_lt_tri h1 h4
  have hout : ∀ x, x ∉ ({L index.i1 index.j1, L index.i2 index.j2, L index.i1 index.j2} :
      Finset Nat) → do_switch a index type x = a x := by
    intro x hx
    simp only [Finset.mem_insert, Finset.mem_singleton, not_or] at hx
    exact do_switch_outside a index type x hx.1 hx.2.1 hx.2.2 (hCD ▸ hx.2.2)
  have hoff : offDiag K (do_switch a index type) =
      offDiag K a + -(sgn type * expo index.i1 index.i2 index.j1 index.j2) := by
    rw [offDiag_do_switch a index ⟨h1, h2, h3, h4⟩ type]; ring
  rw [W_change K a (do_switch a index type) _ hS hout _ hoff]
  have e11 : do_switch a index type (L index.i1 index.j1) =
      a (L index.i1 index.j1) + sgn type := by
    rw [do_switch_apply, ← hCD]; simp [cell, hAB, hAC]
  have e22 : do_switch a index type (L index.i2 index.j2) =
      a (L index.i2 index.j2) + sgn type := by
    rw [do_switch_apply, ← hCD]; simp [cell, hAB.symm, hBC]
  have e12 : do_switch a index type (L index.i1 index.j2) =
      a (L index.i1 index.j2) - 2 * sgn type := by
    rw [do_switch_apply, ← hCD]; simp [cell, hAC.symm, hBC.symm]; ring
  rw [Finset.prod_insert (by simp [hAB, hAC]), Finset.prod_insert (by simp [hBC]),
    Finset.prod_singleton, e11, e22, e12]
  ring

theorem algebra_D_four (A B C D x y z w T V : ℚ) (hA : A ≠ 0) (hB : B ≠ 0)
    (hC : 1 + C ≠ 0) (hD : 1 + D ≠ 0) (hx : x ≠ 0) (hy : y ≠ 0) (hz : z ≠ 0) (hw : w ≠ 0) :
    A / (1 + C) * B / (1 + D) * T * V =
      V * T / ((x / (A * x)) * (y / (B * y)) * ((C + 1) * z / z) * ((D + 1) * w / w)) := by
  have r1 : x / (A * x) = 1 / A := by field_simp; ring
  have r2 : y / (B * y) = 1 / B := by field_simp; ring
  have r3 : (C + 1) * z / z = 1 + C := by field_simp; ring
  have r4 : (D + 1) * w / w = 1 + D := by field_simp; ring
  rw [r1, r2, r3, r4]
  field_simp
  ring

theorem algebra_R_four (A B C D x y z w T V : ℚ) (hA : 1 + A ≠ 0) (hB : 1 + B ≠ 0)
    (hC : C ≠ 0) (hD : D ≠ 0) (hx : x ≠ 0) (hy : y ≠ 0) (hz : z ≠ 0) (hw : w ≠ 0)
    (hT : T ≠ 0) :
    C / (1 + A) * D / (1 + B) / T * V =
      V * T⁻¹ / (((A + 1) * x / x) * ((B + 1) * y / y) * (z / (C * z)) * (w / (D * w))) := by
  have r1 : (A + 1) * x / x = 1 + A := by field_simp; ring
  have r2 : (B + 1) * y / y = 1 + B := by field_simp; ring
  have r3 : z / (C * z) = 1 / C := by field_simp; ring
  have r4 : w / (D * w) = 1 / D := by field_simp; ring
  rw [r1, r2, r3, r4]
  field_simp
  ring

theorem algebra_D_three (A B E x y z T V : ℚ) (hA : A ≠ 0) (hB : B ≠ 0)
    (hE1 : 1 + E ≠ 0) (hE2 : 1 + (E + 1) ≠ 0) (hx : x ≠ 0) (hy : y ≠ 0) (hz : z ≠ 0) :
    A / (1 + (E + 1)) * B / (1 + E) * T * V =
      V * T / ((x / (A * x)) * (y / (B * y)) * ((E + 1 + 1) * ((E + 1) * z) / z)) := by
  have r1 : x / (A * x) = 1 / A := by field_simp; ring
  have r2 : y / (B * y) = 1 / B := by field_simp; ring
  have r3 : (E + 1 + 1) * ((E + 1) * z) / z = (1 + (E + 1)) * (1 + E) := by field_simp; ring
  rw [r1, r2, r3]
  field_simp
  ring

theorem algebra_R_three (A B E x y z T V : ℚ) (hA : 1 + A ≠ 0) (hB : 1 + B ≠ 0)
    (hE : E ≠ 0) (hE1 : E - 1 ≠ 0) (hx : x ≠ 0) (hy : y ≠ 0) (hz : z ≠ 0) (hT : T ≠ 0) :
    E / (1 + A) * (E - 1) / (1 + B) / T * V =
      V * T⁻¹ / (((A + 1) * x / x) * ((B + 1) * y / y) * (z / (E * ((E - 1) * z)))) := by
  have r1 : (A + 1) * x / x = 1 + A := by field_simp; ring
  have r2 : (B + 1) * y / y = 1 + B := by field_simp; ring
  have r3 : z / (E * ((E - 1) * z)) = 1 / (E * (E - 1)) := by field_simp; ring
  rw [r1, r2, r3]
  field_simp
  ring

theorem cast_one_add_ne_zero {z : Int} (hz : 0 ≤ z) : (1 + (z : ℚ)) ≠ 0 := by
  have : (0 : ℚ) ≤ z := by exact_mod_cast hz
  linarith

theorem cast_ne_zero_of_pos {z : Int} (hz : 0 < z) : (z : ℚ) ≠ 0 := by
  exact_mod_cast ne_of_gt hz

theorem ratio_D_four {K : Nat} (a : Table) (ha : ∀ k, 0 ≤ a k) (i1 i2 j1 j2 : Nat)
    (hi : i1 < i2) (hj : j1 < j2) (hiK : i2 < K) (hjK : j2 < K)
    (hCD : L i1 j2 ≠ L i2 j1) (hA : a (L i1 j1) > 0) (hB : a (L i2 j2) > 0) :
    (a (L i1 j1) : ℚ) / (1 + (a (L i1 j2) : ℚ)) * (a (L i2 j2) : ℚ) / (1 + (a (L i2 j1) : ℚ))
      * (select_index_of i1 i2 j1 j2).cst * W K a =
      W K (do_switch a (select_index_of i1 i2 j1 j2) 0) := by
  have hb : (select_index_of i1 i2 j1 j2).below K :=
    ⟨show i1 < K by omega, hiK, show j1 < K by omega, hjK⟩
  have hW := W_do_switch_four a (select_index_of i1 i2 j1 j2) hb 0 (window_A_ne_B hi hj)
    (window_A_ne_C hj) (window_A_ne_D hi) (window_B_ne_C hi) (window_B_ne_D hj) hCD
  have e : ∀ z : Int, z + sgn 0 = z - 1 ∧ z - sgn 0 = z + 1 := by
    intro z; unfold sgn; constructor <;> simp only [if_true] <;> ring
  have e2 : -(sgn 0 * expo i1 i2 j1 j2) = expo i1 i2 j1 j2 := by unfold sgn; simp
  have f1 : (select_index_of i1 i2 j1 j2).i1 = i1 := rfl
  have f2 : (select_index_of i1 i2 j1 j2).i2 = i2 := rfl
  have f3 : (select_index_of i1 i2 j1 j2).j1 = j1 := rfl
  have f4 : (select_index_of i1 i2 j1 j2).j2 = j2 := rfl
  rw [f1, f2, f3, f4, (e _).1, (e _).1, (e _).2, (e _).2, e2, fq_pred hA, fq_pred hB,
    fq_succ (ha _), fq_succ (ha _)] at hW
  rw [hW, cst_eq_zpow hi hj]
  exact algebra_D_four _ _ _ _ _ _ _ _ _ _ (cast_ne_zero_of_pos hA) (cast_ne_zero_of_pos hB)
    (cast_one_add_ne_zero (ha _)) (cast_one_add_ne_zero (ha _)) (ne_of_gt (fq_pos _))
    (ne_of_gt (fq_pos _)) (ne_of_gt (fq_pos _)) (ne_of_gt (fq_pos _))

theorem ratio_R_four {K : Nat} (a : Table) (ha : ∀ k, 0 ≤ a k) (i1 i2 j1 j2 : Nat)
    (hi : i1 < i2) (hj : j1 < j2) (hiK : i2 < K) (hjK : j2 < K)
    (hCD : L i1 j2 ≠ L i2 j1) (hC : a (L i1 j2) > 0) (hD : a (L i2 j1) > 0) :
    (a (L i1 j2) : ℚ) / (1 + (a (L i1 j1) : ℚ)) * (a (L i2 j1) : ℚ) / (1 + (a (L i2 j2) : ℚ))
      / (select_index_of i1 i2 j1 j2).cst * W K a =
      W K (do_switch a (select_index_of i1 i2 j1 j2) 1) := by
  have hb : (select_index_of i1 i2 j1 j2).below K :=
    ⟨show i1 < K by omega, hiK, show j1 < K by omega, hjK⟩
  have hW := W_do_switch_four a (select_index_of i1 i2 j1 j2) hb 1 (window_A_ne_B hi hj)
    (window_A_ne_C hj) (window_A_ne_D hi) (window_B_ne_C hi) (window_B_ne_D hj) hCD
  have e : sgn 1 = 1 := rfl
  have e2 : -(1 * expo i1 i2 j1 j2) = -expo i1 i2 j1 j2 := by ring
  have f1 : (select_index_of i1 i2 j1 j2).i1 = i1 := rfl
  have f2 : (select_index_of i1 i2 j1 j2).i2 = i2 := rfl
  have f3 : (select_index_of i1 i2 j1 j2).j1 = j1 := rfl
  have f4 : (select_index_of i1 i2 j1 j2).j2 = j2 := rfl
  rw [f1, f2, f3, f4, e, e2, zpow_neg, fq_succ (ha (L i1 j1)), fq_succ (ha (L i2 j2)),
    fq_pred hC, fq_pred hD] at hW
  rw [hW, cst_eq_zpow hi hj]
  exact algebra_R_four _ _ _ _ _ _ _ _ _ _ (cast_one_add_ne_zero (ha _))
    (cast_one_add_ne_zero (ha _)) (cast_ne_zero_of_pos hC) (cast_ne_zero_of_pos hD)
    (ne_of_gt (fq_pos _)) (ne_of_gt (fq_pos _)) (ne_of_gt (fq_pos _)) (ne_of_gt (fq_pos _))
    (zpow_ne_zero _ (by norm_num))

theorem ratio_D_three {K : Nat} (a : Table) (ha : ∀ k, 0 ≤ a k) (i1 i2 j1 j2 : Nat)
    (hi : i1 < i2) (hj : j1 < j2) (hiK : i2 < K) (hjK : j2 < K)
    (hCD : L i1 j2 = L i2 j1) (hA : a (L i1 j1) > 0) (hB : a (L i2 j2) > 0) :
    (a (L i1 j1) : ℚ) / (1 + ((a (L i1 j2) : ℚ) + 1)) * (a (L i2 j2) : ℚ)
      / (1 + (a (L i1 j2) : ℚ)) * (select_index_of i1 i2 j1 j2).cst * W K a =
      W K (do_switch a (select_index_of i1 i2 j1 j2) 0) := by
  have hb : (select_index_of i1 i2 j1 j2).below K :=
    ⟨show i1 < K by omega, hiK, show j1 < K by omega, hjK⟩
  have hW := W_do_switch_three a (select_index_of i1 i2 j1 j2) hb 0 (window_A_ne_B hi hj)
    (window_A_ne_C hj) (window_B_ne_C hi) hCD
  have e : ∀ z : Int, z + sgn 0 = z - 1 ∧ z - 2 * sgn 0 = z + 1 + 1 := by
    intro z; unfold sgn; constructor <;> simp only [if_true] <;> ring
  have e2 : -(sgn 0 * expo i1 i2 j1 j2) = expo i1 i2 j1 j2 := by unfold sgn; simp
  have f1 : (select_index_of i1 i2 j1 j2).i1 = i1 := rfl
  have f2 : (select_index_of i1 i2 j1 j2).i2 = i2 := rfl
  have f3 : (select_index_of i1 i2 j1 j2).j1 = j1 := rfl
  have f4 : (select_index_of i1 i2 j1 j2).j2 = j2 := rfl
  have hE1 : 0 ≤ a (L i1 j2) + 1 := by have := ha (L i1 j2); omega
  rw [f1, f2, f3, f4, (e _).1, (e _).1, (e _).2, e2, fq_pred hA, fq_pred hB,
    fq_succ hE1, fq_succ (ha _)] at hW
  rw [hW, cst_eq_zpow hi hj]
  push_cast
  exact algebra_D_three _ _ _ _ _ _ _ _ (cast_ne_zero_of_pos hA) (cast_ne_zero_of_pos hB)
    (cast_one_add_ne_zero (ha _)) (by have := cast_one_add_ne_zero hE1; push_cast at this; exact this)
    (ne_of_gt (fq_pos _)) (ne_of_gt (fq_pos _)) (ne_of_gt (fq_pos _))

theorem ratio_R_three {K : Nat} (a : Table) (ha : ∀ k, 0 ≤ a k) (i1 i2 j1 j2 : Nat)
    (hi : i1 < i2) (hj : j1 < j2) (hiK : i2 < K) (hjK : j2 < K)
    (hCD : L i1 j2 = L i2 j1) (hE : a (L i1 j2) > 1) :
    (a (L i1 j2) : ℚ) / (1 + (a (L i1 j1) : ℚ)) * ((a (L i1 j2) - 1 : Int) : ℚ)
      / (1 + (a (L i2 j2) : ℚ)) / (select_index_of i1 i2 j1 j2).cst * W K a =
      W K (do_switch a (select_index_of i1 i2 j1 j2) 1) := by
  have hb : (select_index_of i1 i2 j1 j2).below K :=
    ⟨show i1 < K by omega, hiK, show j1 < K by omega, hjK⟩
  have hW := W_do_switch_three a (select_index_of i1 i2 j1 j2) hb 1 (window_A_ne_B hi hj)
    (window_A_ne_C hj) (window_B_ne_C hi) hCD
  have e : sgn 1 = 1 := rfl
  have e2 : -(1 * expo i1 i2 j1 j2) = -expo i1 i2 j1 j2 := by ring
  have e3 : a (L i1 j2) - 2 * 1 = a (L i1 j2) - 1 - 1 := by ring
  have f1 : (select_index_of i1 i2 j1 j2).i1 = i1 := rfl
  have f2 : (select_index_of i1 i2 j1 j2).i2 = i2 := rfl
  have f3 : (select_index_of i1 i2 j1 j2).j1 = j1 := rfl
  have f4 : (select_index_of i1 i2 j1 j2).j2 = j2 := rfl
  have hE0 : 0 < a (L i1 j2) := by omega
  have hE1 : 0 < a (L i1 j2) - 1 := by omega
  have eE : fq (a (L i1 j2)) =
      (a (L i1 j2) : ℚ) * ((((a (L i1 j2) - 1 : Int)) : ℚ) * fq (a (L i1 j2) - 1 - 1)) := by
    rw [fq_pred hE0, fq_pred hE1]
  rw [f1, f2, f3, f4, e, e2, e3, zpow_neg, fq_succ (ha (L i1 j1)), fq_succ (ha (L i2 j2)),
    eE] at hW
  rw [hW, cst_eq_zpow hi hj]
  push_cast
  exact algebra_R_three _ _ _ _ _ _ _ _ (cast_one_add_ne_zero (ha _))
    (cast_one_add_ne_zero (ha _)) (cast_ne_zero_of_pos hE0)
    (by have := cast_ne_zero_of_pos hE1; push_cast at this; exact this)
    (ne_of_gt (fq_pos _)) (ne_of_gt (fq_pos _)) (ne_of_gt (fq_pos _))
    (zpow_ne_zero _ (by norm_num))

/-- C5: with `W(a) = 2^(sum of the off-diagonal entries) / (product of a(i,j)!)` over the
cells of `K` alleles, for every table with entries `>= 0` and every ordered window below
`K` classified by `select_index` (coincidence 0, 1 or 2, with its `cst`): whenever
`test_switch` reports the D-switch legal, `p1_rt * W(a) = W(do_switch(a, idx, 0))`, and
whenever it reports the R-switch legal, `p2_rt * W(a) = W(do_switch(a, idx, 1))`, in exact
rational arithmetic. -/
theorem ratio_is_relative_probability (K : Nat) (a : Table) (ha : ∀ k, 0 ≤ a k)
    (i1 i2 j1 j2 : Nat) (hi : i1 < i2) (hj : j1 < j2) (hiK : i2 < K) (hjK : j2 < K)
    (out : Switch) :
    (((test_switch a (select_index_of i1 i2 j1 j2) out).switch_ind = 2 ∨
      ((test_switch a (select_index_of i1 i2 j1 j2) out).switch_ind = 1 ∧
        (test_switch a (select_index_of i1 i2 j1 j2) out).switch_type = 0)) →
      (test_switch a (select_index_of i1 i2 j1 j2) out).p1_rt * W K a =
        W K (do_switch a (select_index_of i1 i2 j1 j2) 0)) ∧
    (((test_switch a (select_index_of i1 i2 j1 j2) out).switch_ind = 2 ∨
      ((test_switch a (select_index_of i1 i2 j1 j2) out).switch_ind = 1 ∧
        (test_switch a (select_index_of i1 i2 j1 j2) out).switch_type = 1)) →
      (test_switch a (select_index_of i1 i2 j1 j2) out).p2_rt * W K a =
        W K (do_switch a (select_index_of i1 i2 j1 j2) 1)) := by
  by_cases ht : (select_index_of i1 i2 j1 j2).type ≤ 1
  · have hCD : L i1 j2 ≠ L i2 j1 := fun h =>
      (select_index_of_type_le_one hi hj).1 ht ((window_C_eq_D_iff hi hj).1 h)
    constructor
    · intro hrep
      have hD := (reports_D_iff a _ out).1 hrep
      rw [test_switch_p1, if_pos hD, if_pos ht]
      exact ratio_D_four a ha i1 i2 j1 j2 hi hj hiK hjK hCD hD.1 hD.2
    · intro hrep
      have hR := (reports_R_iff a _ out).1 hrep
      rw [test_switch_p2, if_pos hR, if_pos ht]
      unfold legalR at hR
      rw [if_pos ht] at hR
      exact ratio_R_four a ha i1 i2 j1 j2 hi hj hiK hjK hCD hR.1 hR.2
  · have hCD : L i1 j2 = L i2 j1 := by
      apply (window_C_eq_D_iff hi hj).2
      by_contra hc
      exact ht ((select_index_of_type_le_one hi hj).2 hc)
    constructor
    · intro hrep
      have hD := (reports_D_iff a _ out).1 hrep
      rw [test_switch_p1, if_pos hD, if_neg ht]
      exact ratio_D_three a ha i1 i2 j1 j2 hi hj hiK hjK hCD hD.1 hD.2
    · intro hrep
      have hR := (reports_R_iff a _ out).1 hrep
      rw [test_switch_p2, if_pos hR, if_neg ht]
      unfold legalR at hR
      rw [if_neg ht] at hR
      exact ratio_R_three a ha i1 i2 j1 j2 hi hj hiK hjK hCD hR

/-- The merged window `0 1 / 0 1` on the three-allele table, where `test_switch` reports
both directions legal: the D-switch ratio `25/3` is `W` after over `W` before. -/
theorem ratio_is_relative_probability_witness :
    (∀ k, 0 ≤ table3 k) ∧ ((0 : Nat) < 1) ∧ ((1 : Nat) < 3) ∧
      (test_switch table3 (select_index_of 0 1 0 1) ⟨0, 0, 0, 0⟩).switch_ind = 2 ∧
      (test_switch table3 (select_index_of 0 1 0 1) ⟨0, 0, 0, 0⟩).p1_rt * W 3 table3 =
        W 3 (do_switch table3 (select_index_of 0 1 0 1) 0) :=
  ⟨table3_nonneg, by decide, by decide, by decide,
    (ratio_is_relative_probability 3 table3 table3_nonneg 0 1 0 1 (by decide) (by decide)
      (by decide) (by decide) ⟨0, 0, 0, 0⟩).1 (Or.inl (by decide))⟩

/-! ## The coincidence count -/

/-- C11: for every `i1 < i2` and `j1 < j2` the value `index.type` computed by
`select_index`, the count of the four equalities, is the number of elements shared by
`{i1, i2}` and `{j1, j2}`, and so is 0, 1 or 2. -/
theorem type_counts_shared (i1 i2 j1 j2 : Nat) (hi : i1 < i2) (hj : j1 < j2) :
    (select_index_of i1 i2 j1 j2).type =
        ((({i1, i2} : Finset Nat) ∩ ({j1, j2} : Finset Nat)).card : Int) ∧
      ((select_index_of i1 i2 j1 j2).type = 0 ∨ (select_index_of i1 i2 j1 j2).type = 1 ∨
        (select_index_of i1 i2 j1 j2).type = 2) := by
  have hne : i1 ≠ i2 := by omega
  have hc : (({i1, i2} : Finset Nat) ∩ ({j1, j2} : Finset Nat)).card =
      (if i1 = j1 ∨ i1 = j2 then 1 else 0) + (if i2 = j1 ∨ i2 = j2 then 1 else 0) := by
    by_cases h1 : i1 = j1 ∨ i1 = j2 <;> by_cases h2 : i2 = j1 ∨ i2 = j2
    · have m1 : i1 ∈ ({j1, j2} : Finset Nat) := by simpa using h1
      have m2 : i2 ∈ ({j1, j2} : Finset Nat) := by simpa using h2
      rw [Finset.insert_inter_of_mem m1, Finset.singleton_inter_of_mem m2, if_pos h1, if_pos h2,
        Finset.card_pair hne]
    · have m1 : i1 ∈ ({j1, j2} : Finset Nat) := by simpa using h1
      have m2 : i2 ∉ ({j1, j2} : Finset Nat) := by simpa using h2
      rw [Finset.insert_inter_of_mem m1, Finset.singleton_inter_of_not_mem m2, if_pos h1,
        if_neg h2]
      simp
    · have m1 : i1 ∉ ({j1, j2} : Finset Nat) := by simpa using h1
      have m2 : i2 ∈ ({j1, j2} : Finset Nat) := by simpa using h2
      rw [Finset.insert_inter_of_not_mem m1, Finset.singleton_inter_of_mem m2, if_neg h1,
        if_pos h2]
      simp
    · have m1 : i1 ∉ ({j1, j2} : Finset Nat) := by simpa using h1
      have m2 : i2 ∉ ({j1, j2} : Finset Nat) := by simpa using h2
      rw [Finset.insert_inter_of_not_mem m1, Finset.singleton_inter_of_not_mem m2, if_neg h1,
        if_neg h2]
      simp
  rw [hc]
  unfold select_index_of
  simp only
  constructor
  · split_ifs <;> omega
  · split_ifs <;> omega

/-- The windows `0 1 / 0 1`, `0 1 / 0 2` and `0 1 / 2 3` share 2, 1 and 0 elements. -/
theorem type_counts_shared_witness :
    ((0 : Nat) < 1) ∧ ((2 : Nat) < 3) ∧
      (select_index_of 0 1 2 3).type =
        ((({0, 1} : Finset Nat) ∩ ({2, 3} : Finset Nat)).card : Int) ∧
      (select_index_of 0 1 0 1).type = 2 ∧ (select_index_of 0 1 0 2).type = 1 ∧
      (select_index_of 0 1 2 3).type = 0 :=
  ⟨by decide, by decide, (type_counts_shared 0 1 2 3 (by decide) (by decide)).1, by decide,
    by decide, by decide⟩

/-! ## The cells of a window -/

/-- C12: for every window with `i1 < i2` and `j1 < j2`, the cells `C = L(i1,j2)` and
`D = L(i2,j1)` are the same array index iff `i1 = j1` and `i2 = j2`, which is the case
`type = 2`; `A = L(i1,j1)` and `B = L(i2,j2)` are distinct from each other and from `C`
and `D`.  So the window addresses four distinct cells when `type <= 1` and exactly three
when `type = 2`. -/
theorem window_cells (i1 i2 j1 j2 : Nat) (hi : i1 < i2) (hj : j1 < j2) :
    (L i1 j2 = L i2 j1 ↔ (i1 = j1 ∧ i2 = j2)) ∧
    ((i1 = j1 ∧ i2 = j2) ↔ (select_index_of i1 i2 j1 j2).type = 2) ∧
    L i1 j1 ≠ L i2 j2 ∧ L i1 j1 ≠ L i1 j2 ∧ L i1 j1 ≠ L i2 j1 ∧
    L i2 j2 ≠ L i1 j2 ∧ L i2 j2 ≠ L i2 j1 ∧
    ((select_index_of i1 i2 j1 j2).type ≤ 1 →
      ({L i1 j1, L i2 j2, L i1 j2, L i2 j1} : Finset Nat).card = 4) ∧
    ((select_index_of i1 i2 j1 j2).type = 2 →
      ({L i1 j1, L i2 j2, L i1 j2, L i2 j1} : Finset Nat).card = 3) := by
  have hAB := window_A_ne_B hi hj
  have hAC := @window_A_ne_C i1 j1 j2 hj
  have hAD := @window_A_ne_D i1 i2 j1 hi
  have hBC := @window_B_ne_C i1 i2 j2 hi
  have hBD := @window_B_ne_D i2 j1 j2 hj
  have hCD := window_C_eq_D_iff hi hj
  have ht := select_index_of_type_le_one hi hj
  have h2 : (i1 = j1 ∧ i2 = j2) ↔ (select_index_of i1 i2 j1 j2).type = 2 := by
    constructor
    · rintro ⟨rfl, rfl⟩
      unfold select_index_of
      simp only
      split_ifs <;> omega
    · intro h
      by_contra hc
      have := ht.2 hc
      omega
  refine ⟨hCD, h2, hAB, hAC, hAD, hBC, hBD, ?_, ?_⟩
  · intro h
    have hne : L i1 j2 ≠ L i2 j1 := fun e => ht.1 h (hCD.1 e)
    rw [Finset.card_insert_of_not_mem (by simp [hAB, hAC, hAD]),
      Finset.card_insert_of_not_mem (by simp [hBC, hBD]), Finset.card_pair hne]
  · intro h
    have he : L i1 j2 = L i2 j1 := hCD.2 (h2.2 h)
    rw [← he, Finset.pair_eq_singleton,
      Finset.card_insert_of_not_mem (by simp [hAB, hAC]), Finset.card_pair hBC]

/-- The merged window `0 1 / 0 1` addresses the three cells 0, 2 and 1. -/
theorem window_cells_witness :
    ((0 : Nat) < 1) ∧ (select_index_of 0 1 0 1).type = 2 ∧
      ({L 0 0, L 1 1, L 0 1, L 1 0} : Finset Nat).card = 3 :=
  ⟨by decide, by decide,
    (window_cells 0 1 0 1 (by decide) (by decide)).2.2.2.2.2.2.2.2 (by decide)⟩

/-! ## random_choose -/

theorem foldl_update_mem (f : Nat → Nat) (l : List Nat) :
    ∀ (w : Nat → Nat) (x : Nat),
      (l.foldl (fun w i => Function.update w i (f i)) w) x = if x ∈ l then f x else w x := by
  induction l with
  | nil => intro w x; simp
  | cons b t ih =>
    intro w x
    rw [List.foldl_cons, ih]
    by_cases h1 : x ∈ t
    · simp [h1]
    · by_cases h2 : x = b
      · subst h2; simp [h1]
      · simp [h1, h2, Function.update_noteq h2]

/-- The pair `random_choose` returns, in terms of the two integer draws. -/
theorem random_choose_of_eq (r1 r2 k : Nat) (work : Nat → Nat) (h2 : r2 < k - 1) :
    random_choose_of r1 r2 k work =
      if r1 > (if r1 ≤ r2 then r2 + 1 else r2) then ((if r1 ≤ r2 then r2 + 1 else r2), r1)
      else (r1, (if r1 ≤ r2 then r2 + 1 else r2)) := by
  have hw : ((List.range (k - 1)).filter (fun i => r1 ≤ i)).foldl
      (fun w i => Function.update w i (i + 1))
      ((List.range k).foldl (fun w i => Function.update w i i) work) r2 =
      if r1 ≤ r2 then r2 + 1 else r2 := by
    rw [foldl_update_mem (fun i => i + 1), foldl_update_mem (fun i => i)]
    have hk : r2 < k := by omega
    by_cases h : r1 ≤ r2
    · simp [h, h2]
    · simp [h, hk]
  unfold random_choose_of
  simp only [hw]

theorem random_choose_eq_of (u1 u2 : ℚ) (k : Nat) (work : Nat → Nat) :
    random_choose u1 u2 k work =
      random_choose_of (Nat.floor (u1 * (k : ℚ))) (Nat.floor (u2 * ((k - 1 : Nat) : ℚ))) k work :=
  rfl

theorem floor_draw_lt {u : ℚ} {n : Nat} (h0 : 0 ≤ u) (h1 : u < 1) (hn : 0 < n) :
    Nat.floor (u * (n : ℚ)) < n := by
  have hn' : (0 : ℚ) < n := by exact_mod_cast hn
  rw [Nat.floor_lt (mul_nonneg h0 (le_of_lt hn'))]
  calc u * (n : ℚ) < 1 * (n : ℚ) := by
        exact mul_lt_mul_of_pos_right h1 hn'
    _ = n := one_mul _

/-- The pair `random_choose` returns is ordered and below `k`. -/
theorem random_choose_ordered {k : Nat} (hk : 2 ≤ k) {u1 u2 : ℚ} (h1 : 0 ≤ u1 ∧ u1 < 1)
    (h2 : 0 ≤ u2 ∧ u2 < 1) (work : Nat → Nat) :
    (random_choose u1 u2 k work).1 < (random_choose u1 u2 k work).2 ∧
      (random_choose u1 u2 k work).2 < k := by
  have b1 := floor_draw_lt h1.1 h1.2 (show 0 < k by omega)
  have b2 := floor_draw_lt h2.1 h2.2 (show 0 < k - 1 by omega)
  rw [random_choose_eq_of, random_choose_of_eq _ _ _ _ b2]
  generalize Nat.floor (u1 * (k : ℚ)) = r1 at b1
  generalize Nat.floor (u2 * ((k - 1 : Nat) : ℚ)) = r2 at b2
  split_ifs <;> simp only <;> omega

/-- C13: for every `k >= 2` (in particular `2 <= k <= MAX_ALLELE`) and every two draws
`u1`, `u2` in `[0,1)`, `random_choose` returns `k1`, `k2` with `0 <= k1 < k2 < k`. -/
theorem random_choose_distinct_ordered (k : Nat) (hk : 2 ≤ k) (u1 u2 : ℚ)
    (h1 : 0 ≤ u1 ∧ u1 < 1) (h2 : 0 ≤ u2 ∧ u2 < 1) (work : Nat → Nat) :
    0 ≤ (random_choose u1 u2 k work).1 ∧
      (random_choose u1 u2 k work).1 < (random_choose u1 u2 k work).2 ∧
      (random_choose u1 u2 k work).2 < k :=
  ⟨Nat.zero_le _, random_choose_ordered hk h1 h2 work⟩

theorem random_choose_half_three :
    random_choose (1 / 2) (1 / 2) 3 (fun _ => 0) = (1, 2) := by
  have e1 : Nat.floor ((1 / 2 : ℚ) * ((3 : Nat) : ℚ)) = 1 := by
    rw [Nat.floor_eq_iff (by norm_num)]; norm_num
  have e2 : Nat.floor ((1 / 2 : ℚ) * ((3 - 1 : Nat) : ℚ)) = 1 := by
    rw [Nat.floor_eq_iff (by norm_num)]; norm_num
  rw [random_choose_eq_of, e1, e2, random_choose_of_eq _ _ _ _ (by decide)]
  decide

/-- Three alleles and the draws `1/2`, `1/2`: `random_choose` returns `(1, 2)`. -/
theorem random_choose_distinct_ordered_witness :
    ((2 : Nat) ≤ 3) ∧ ((0 : ℚ) ≤ 1 / 2 ∧ (1 / 2 : ℚ) < 1) ∧
      (random_choose (1 / 2) (1 / 2) 3 (fun _ => 0)).1 <
        (random_choose (1 / 2) (1 / 2) 3 (fun _ => 0)).2 ∧
      random_choose (1 / 2) (1 / 2) 3 (fun _ => 0) = (1, 2) :=
  ⟨by decide, by norm_num,
    (random_choose_distinct_ordered 3 (by decide) (1 / 2) (1 / 2) (by norm_num) (by norm_num)
      (fun _ => 0)).2.1, random_choose_half_three⟩

/-- C14: `random_choose` is uniform over unordered pairs.  With the integer draws
`r1 = floor(u1*k)` in `0..k-1` and `r2 = floor(u2*(k-1))` in `0..k-2`, for every `k >= 2`
and every pair `x < y < k` exactly 2 of the `k*(k-1)` combinations `(r1, r2)` make
`random_choose` return `(x, y)`: they are `(x, y-1)` and `(y, x)`. -/
theorem random_choose_uniform (k : Nat) (hk : 2 ≤ k) (x y : Nat) (hxy : x < y) (hy : y < k)
    (work : Nat → Nat) :
    (∀ u1 u2 : ℚ, 0 ≤ u1 ∧ u1 < 1 → 0 ≤ u2 ∧ u2 < 1 →
      Nat.floor (u1 * (k : ℚ)) < k ∧ Nat.floor (u2 * ((k - 1 : Nat) : ℚ)) < k - 1 ∧
      random_choose u1 u2 k work =
        random_choose_of (Nat.floor (u1 * (k : ℚ))) (Nat.floor (u2 * ((k - 1 : Nat) : ℚ)))
          k work) ∧
    (Finset.range k ×ˢ Finset.range (k - 1)).card = k * (k - 1) ∧
    (Finset.range k ×ˢ Finset.range (k - 1)).filter
        (fun p => random_choose_of p.1 p.2 k work = (x, y)) = {(x, y - 1), (y, x)} ∧
    ((Finset.range k ×ˢ Finset.range (k - 1)).filter
        (fun p => random_choose_of p.1 p.2 k work = (x, y))).card = 2 := by
  have key : ∀ r1 r2, r1 < k → r2 < k - 1 →
      (random_choose_of r1 r2 k work = (x, y) ↔
        (r1 = x ∧ r2 = y - 1) ∨ (r1 = y ∧ r2 = x)) := by
    intro r1 r2 _ h2
    rw [random_choose_of_eq _ _ _ _ h2]
    split_ifs <;> simp only [Prod.mk.injEq] <;> omega
  have hset : (Finset.range k ×ˢ Finset.range (k - 1)).filter
      (fun p => random_choose_of p.1 p.2 k work = (x, y)) = {(x, y - 1), (y, x)} := by
    ext ⟨r1, r2⟩
    simp only [Finset.mem_filter, Finset.mem_product, Finset.mem_range, Finset.mem_insert,
      Finset.mem_singleton, Prod.mk.injEq]
    constructor
    · rintro ⟨⟨h1, h2⟩, h⟩
      exact (key r1 r2 h1 h2).1 h
    · intro h
      have hb : r1 < k ∧ r2 < k - 1 := by omega
      exact ⟨hb, (key r1 r2 hb.1 hb.2).2 h⟩
  refine ⟨?_, ?_, hset, ?_⟩
  · intro u1 u2 h1 h2
    exact ⟨floor_draw_lt h1.1 h1.2 (by omega), floor_draw_lt h2.1 h2.2 (by omega),
      random_choose_eq_of u1 u2 k work⟩
  · rw [Finset.card_product, Finset.card_range, Finset.card_range]
  · rw [hset, Finset.card_pair]
    intro h
    rw [Prod.mk.injEq] at h
    omega

/-- Three alleles and the pair `(0, 2)`: the two combinations are `(0, 1)` and `(2, 0)`. -/
theorem random_choose_uniform_witness :
    ((2 : Nat) ≤ 3) ∧ ((0 : Nat) < 2) ∧ ((2 : Nat) < 3) ∧
      ((Finset.range 3 ×ˢ Finset.range (3 - 1)).filter
        (fun p => random_choose_of p.1 p.2 3 (fun _ => 0) = (0, 2))).card = 2 ∧
      random_choose_of 0 1 3 (fun _ => 0) = (0, 2) ∧
      random_choose_of 2 0 3 (fun _ => 0) = (0, 2) :=
  ⟨by decide, by decide, by decide,
    (random_choose_uniform 3 (by decide) 0 2 (by decide) (by decide) (fun _ => 0)).2.2.2,
    by decide, by decide⟩

/-! ## The transition of cal_prob -/

theorem TRANS_eq (x : ℚ) : TRANS x = min 1 x / 2 := by
  unfold TRANS MIN
  by_cases h : (1 : ℚ) < x
  · rw [if_pos h, min_eq_left (le_of_lt h)]
  · rw [if_neg h, min_eq_right (not_lt.1 h)]

theorem TRANS_le_half (x : ℚ) : TRANS x ≤ 1 / 2 := by
  rw [TRANS_eq]
  have := min_le_left (1 : ℚ) x
  linarith

theorem test_switch_ind_cases (a : Table) (index : Index) (out : Switch) :
    (test_switch a index out).switch_ind = 0 ∨ (test_switch a index out).switch_ind = 1 ∨
      (test_switch a index out).switch_ind = 2 := by
  rw [test_switch_ind]
  split_ifs <;> simp

/-- The result of `cal_prob` on a partially switchable window. -/
theorem cal_prob_partly {R : Type} [Add R] (log : ℚ → R) (a : Table) (index : Index)
    (ln_p_old : R) (u : ℚ) (locals : Switch)
    (h : (test_switch a index locals).switch_ind = 1) :
    cal_prob log a index ln_p_old u locals =
      if u < TRANS (if (test_switch a index locals).switch_type = 1
          then (test_switch a index locals).p2_rt else (test_switch a index locals).p1_rt) then
        { a := do_switch a index (test_switch a index locals).switch_type
          ln_p_new := ln_p_old + log (if (test_switch a index locals).switch_type = 1
            then (test_switch a index locals).p2_rt else (test_switch a index locals).p1_rt)
          actual_switch := 1 }
      else { a := a, ln_p_new := ln_p_old, actual_switch := 0 } := by
  unfold cal_prob
  simp only [h, one_ne_zero, if_false, if_true]

/-- The result of `cal_prob` on a fully switchable window. -/
theorem cal_prob_full {R : Type} [Add R] (log : ℚ → R) (a : Table) (index : Index)
    (ln_p_old : R) (u : ℚ) (locals : Switch)
    (h : (test_switch a index locals).switch_ind = 2) :
    cal_prob log a index ln_p_old u locals =
      if u ≤ TRANS (test_switch a index locals).p1_rt then
        { a := do_switch a index 0
          ln_p_new := ln_p_old + log (test_switch a index locals).p1_rt
          actual_switch := 2 }
      else if u ≤ TRANS (test_switch a index locals).p1_rt
          + TRANS (test_switch a index locals).p2_rt then
        { a := do_switch a index 1
          ln_p_new := ln_p_old + log (test_switch a index locals).p2_rt
          actual_switch := 2 }
      else { a := a, ln_p_new := ln_p_old, actual_switch := 0 } := by
  unfold cal_prob
  simp only [h]
  rw [if_neg (by decide), if_neg (by decide)]

/-- The result of `cal_prob` on a window that is not switchable. -/
theorem cal_prob_none {R : Type} [Add R] (log : ℚ → R) (a : Table) (index : Index)
    (ln_p_old : R) (u : ℚ) (locals : Switch)
    (h : (test_switch a index locals).switch_ind = 0) :
    cal_prob log a index ln_p_old u locals =
      { a := a, ln_p_new := ln_p_old, actual_switch := 0 } := by
  unfold cal_prob
  simp only [h, if_true]

/-- C15: for every table, window and draw `u` with `switch_ind = 1`, exactly one direction
is legal; with `r` its ratio (`p1_rt` for D, `p2_rt` for R): if `u < min(1,r)/2` then
`cal_prob` leaves the table `do_switch` gives for that direction and returns
`ln_p_old + log(r)`; otherwise the table is unchanged and it returns `ln_p_old`. -/
theorem partly_step (R : Type) [Add R] (log : ℚ → R) (a : Table) (index : Index)
    (ln_p_old : R) (u : ℚ) (locals : Switch)
    (h : (test_switch a index locals).switch_ind = 1) :
    (legalD a index ∧ ¬legalR a index ∧
      (u < min 1 (test_switch a index locals).p1_rt / 2 →
        (cal_prob log a index ln_p_old u locals).a = do_switch a index 0 ∧
        (cal_prob log a index ln_p_old u locals).ln_p_new =
          ln_p_old + log (test_switch a index locals).p1_rt) ∧
      (¬u < min 1 (test_switch a index locals).p1_rt / 2 →
        (cal_prob log a index ln_p_old u locals).a = a ∧
        (cal_prob log a index ln_p_old u locals).ln_p_new = ln_p_old)) ∨
    (¬legalD a index ∧ legalR a index ∧
      (u < min 1 (test_switch a index locals).p2_rt / 2 →
        (cal_prob log a index ln_p_old u locals).a = do_switch a index 1 ∧
        (cal_prob log a index ln_p_old u locals).ln_p_new =
          ln_p_old + log (test_switch a index locals).p2_rt) ∧
      (¬u < min 1 (test_switch a index locals).p2_rt / 2 →
        (cal_prob log a index ln_p_old u locals).a = a ∧
        (cal_prob log a index ln_p_old u locals).ln_p_new = ln_p_old)) := by
  have hi := test_switch_ind a index locals
  have ht := test_switch_type a index locals
  have hc := cal_prob_partly log a index ln_p_old u locals h
  rw [h] at hi
  by_cases hD : legalD a index <;> by_cases hR : legalR a index
  · rw [if_pos hD, if_pos hR] at hi; omega
  · left
    rw [if_neg hR, if_pos hD] at ht
    rw [ht] at hc
    simp only [zero_ne_one, if_false] at hc
    rw [TRANS_eq] at hc
    refine ⟨hD, hR, fun hu => ?_, fun hu => ?_⟩
    · rw [hc, if_pos hu]; exact ⟨rfl, rfl⟩
    · rw [hc, if_neg hu]; exact ⟨rfl, rfl⟩
  · right
    rw [if_pos hR] at ht
    rw [ht] at hc
    simp only [if_true] at hc
    rw [TRANS_eq] at hc
    refine ⟨hD, hR, fun hu => ?_, fun hu => ?_⟩
    · rw [hc, if_pos hu]; exact ⟨rfl, rfl⟩
    · rw [hc, if_neg hu]; exact ⟨rfl, rfl⟩
  · rw [if_neg hD, if_neg hR] at hi; omega

/-- The table `[[5],[0,5],[1,1,5]]` with the window `0 1 / 0 1` is partially switchable. -/
theorem partly_step_witness :
    (test_switch table3_partly (select_index_of 0 1 0 1) ⟨0, 0, 0, 0⟩).switch_ind = 1 ∧
      legalD table3_partly (select_index_of 0 1 0 1) ∧
      ¬legalR table3_partly (select_index_of 0 1 0 1) :=
  ⟨by decide,
    (partly_step ℚ (fun _ => 0) table3_partly (select_index_of 0 1 0 1) 0 (1 / 10)
      ⟨0, 0, 0, 0⟩ (by decide)).elim (fun h => ⟨h.1, h.2.1⟩)
      (fun h => absurd (show legalD table3_partly (select_index_of 0 1 0 1) by decide) h.1)⟩

/-- C16: for every table, window and draw `u` with `switch_ind = 2` and ratios `r1 = p1_rt`
and `r2 = p2_rt`: if `u <= min(1,r1)/2`, `cal_prob` applies the D-switch and returns
`ln_p_old + log(r1)`; else if `u <= min(1,r1)/2 + min(1,r2)/2` it applies the R-switch and
returns `ln_p_old + log(r2)`; else the table is unchanged and it returns `ln_p_old`. -/
theorem full_step (R : Type) [Add R] (log : ℚ → R) (a : Table) (index : Index)
    (ln_p_old : R) (u : ℚ) (locals : Switch)
    (h : (test_switch a index locals).switch_ind = 2) :
    (u ≤ min 1 (test_switch a index locals).p1_rt / 2 →
      (cal_prob log a index ln_p_old u locals).a = do_switch a index 0 ∧
      (cal_prob log a index ln_p_old u locals).ln_p_new =
        ln_p_old + log (test_switch a index locals).p1_rt) ∧
    (¬u ≤ min 1 (test_switch a index locals).p1_rt / 2 →
      u ≤ min 1 (test_switch a index locals).p1_rt / 2
        + min 1 (test_switch a index locals).p2_rt / 2 →
      (cal_prob log a index ln_p_old u locals).a = do_switch a index 1 ∧
      (cal_prob log a index ln_p_old u locals).ln_p_new =
        ln_p_old + log (test_switch a index locals).p2_rt) ∧
    (¬u ≤ min 1 (test_switch a index locals).p1_rt / 2 →
      ¬u ≤ min 1 (test_switch a index locals).p1_rt / 2
        + min 1 (test_switch a index locals).p2_rt / 2 →
      (cal_prob log a index ln_p_old u locals).a = a ∧
      (cal_prob log a index ln_p_old u locals).ln_p_new = ln_p_old) := by
  have hc := cal_prob_full log a index ln_p_old u locals h
  rw [TRANS_eq, TRANS_eq] at hc
  refine ⟨fun h1 => ?_, fun h1 h2 => ?_, fun h1 h2 => ?_⟩
  · rw [hc, if_pos h1]; exact ⟨rfl, rfl⟩
  · rw [hc, if_neg h1, if_pos h2]; exact ⟨rfl, rfl⟩
  · rw [hc, if_neg h1, if_neg h2]; exact ⟨rfl, rfl⟩

theorem table3_p1 (out : Switch) :
    (test_switch table3 (select_index_of 0 1 0 1) out).p1_rt = 25 / 3 := by
  rw [test_switch_p1, if_pos (by decide), if_neg (by decide)]
  norm_num [select_index_of, table3, L]

theorem table3_p2 (out : Switch) :
    (test_switch table3 (select_index_of 0 1 0 1) out).p2_rt = 1 / 72 := by
  rw [test_switch_p2, if_pos (by decide), if_neg (by decide)]
  norm_num [select_index_of, table3, L]

/-- The three-allele table with the window `0 1 / 0 1` is fully switchable with
`r1 = 25/3`; the draw `1/10` is at most `min(1, r1)/2 = 1/2`, so the D-switch is applied. -/
theorem full_step_witness :
    (test_switch table3 (select_index_of 0 1 0 1) ⟨0, 0, 0, 0⟩).switch_ind = 2 ∧
      (1 / 10 : ℚ) ≤
        min 1 (test_switch table3 (select_index_of 0 1 0 1) ⟨0, 0, 0, 0⟩).p1_rt / 2 ∧
      (cal_prob (fun _ => (0 : ℚ)) table3 (select_index_of 0 1 0 1) 0 (1 / 10)
        ⟨0, 0, 0, 0⟩).a = do_switch table3 (select_index_of 0 1 0 1) 0 :=
  ⟨by decide, by rw [table3_p1]; norm_num,
    ((full_step ℚ (fun _ => 0) table3 (select_index_of 0 1 0 1) 0 (1 / 10) ⟨0, 0, 0, 0⟩
      (by decide)).1 (by rw [table3_p1]; norm_num)).1⟩

/-! ## What actual_switch reports -/

/-- C17 as stated fails: on the table `[[5],[0,5],[1,1,5]]` with the window `0 1 / 0 1`
`test_switch` reports `switch_ind = 1`, and with the draw `9/10` the move is not taken and
`cal_prob` reports `actual_switch = 0`. -/
theorem classification_counterexample :
    (test_switch table3_partly (select_index_of 0 1 0 1) ⟨0, 0, 0, 0⟩).switch_ind = 1 ∧
      (cal_prob (fun _ => (0 : ℚ)) table3_partly (select_index_of 0 1 0 1) 0 (9 / 10)
        ⟨0, 0, 0, 0⟩).actual_switch = 0 ∧
      (cal_prob (fun _ => (0 : ℚ)) table3_partly (select_index_of 0 1 0 1) 0 (9 / 10)
        ⟨0, 0, 0, 0⟩).actual_switch ≠
        (test_switch table3_partly (select_index_of 0 1 0 1) ⟨0, 0, 0, 0⟩).switch_ind := by
  have h1 : (test_switch table3_partly (select_index_of 0 1 0 1) ⟨0, 0, 0, 0⟩).switch_ind = 1 := by
    decide
  have h2 : (cal_prob (fun _ => (0 : ℚ)) table3_partly (select_index_of 0 1 0 1) 0 (9 / 10)
      ⟨0, 0, 0, 0⟩).actual_switch = 0 := by
    rw [cal_prob_partly _ _ _ _ _ _ h1, if_neg]
    have := TRANS_le_half (if (test_switch table3_partly (select_index_of 0 1 0 1)
      ⟨0, 0, 0, 0⟩).switch_type = 1
      then (test_switch table3_partly (select_index_of 0 1 0 1) ⟨0, 0, 0, 0⟩).p2_rt
      else (test_switch table3_partly (select_index_of 0 1 0 1) ⟨0, 0, 0, 0⟩).p1_rt)
    intro h
    linarith
  refine ⟨h1, h2, ?_⟩
  rw [h1, h2]
  decide

/-- C17, amended: for every table, window and draw, the classification `cal_prob` reports
through `actual_switch` is `switch_ind` when a switch was executed and 0 when none was
(then the table and the log-probability are unchanged); a partial move is taken iff
`u < TRANS(r)` and a full move iff `u <= TRANS(r1)` or `u <= TRANS(r1) + TRANS(r2)`.  The
driver increments `swch_count[actual_switch]`, so `swch_count[1]` and `swch_count[2]`
count switches performed, not windows that permit a switch. -/
theorem classification_reports_switch (R : Type) [Add R] (log : ℚ → R) (a : Table)
    (index : Index) (ln_p_old : R) (u : ℚ) (locals : Switch) :
    ((test_switch a index locals).switch_ind = 0 →
      (cal_prob log a index ln_p_old u locals).actual_switch = 0) ∧
    ((test_switch a index locals).switch_ind = 1 →
      (u < TRANS (if (test_switch a index locals).switch_type = 1
          then (test_switch a index locals).p2_rt else (test_switch a index locals).p1_rt) →
        (cal_prob log a index ln_p_old u locals).actual_switch = 1 ∧
        (cal_prob log a index ln_p_old u locals).a =
          do_switch a index (test_switch a index locals).switch_type) ∧
      (¬u < TRANS (if (test_switch a index locals).switch_type = 1
          then (test_switch a index locals).p2_rt else (test_switch a index locals).p1_rt) →
        (cal_prob log a index ln_p_old u locals).actual_switch = 0)) ∧
    ((test_switch a index locals).switch_ind = 2 →
      (u ≤ TRANS (test_switch a index locals).p1_rt ∨
          u ≤ TRANS (test_switch a index locals).p1_rt
            + TRANS (test_switch a index locals).p2_rt →
        (cal_prob log a index ln_p_old u locals).actual_switch = 2 ∧
        ((cal_prob log a index ln_p_old u locals).a = do_switch a index 0 ∨
          (cal_prob log a index ln_p_old u locals).a = do_switch a index 1)) ∧
      (¬(u ≤ TRANS (test_switch a index locals).p1_rt ∨
          u ≤ TRANS (test_switch a index locals).p1_rt
            + TRANS (test_switch a index locals).p2_rt) →
        (cal_prob log a index ln_p_old u locals).actual_switch = 0)) ∧
    ((cal_prob log a index ln_p_old u locals).actual_switch = 0 →
      (cal_prob log a index ln_p_old u locals).a = a ∧
      (cal_prob log a index ln_p_old u locals).ln_p_new = ln_p_old) ∧
    (∀ (no_allele : Nat) (draws : Nat → Draw) (c : Chain R),
      (iteration log no_allele draws c).swch_count =
        Function.update c.swch_count
          ((cal_prob log c.a
            (select_index (draws c.done).u1 (draws c.done).u2 (draws c.done).u3
              (draws c.done).u4 no_allele (draws c.done).work (draws c.done).work')
            c.ln_p_simulated (draws c.done).rand_num (draws c.done).locals).actual_switch.toNat)
          (c.swch_count
            ((cal_prob log c.a
              (select_index (draws c.done).u1 (draws c.done).u2 (draws c.done).u3
                (draws c.done).u4 no_allele (draws c.done).work (draws c.done).work')
              c.ln_p_simulated (draws c.done).rand_num
              (draws c.done).locals).actual_switch.toNat) + 1)) := by
  refine ⟨fun h => ?_, fun h => ⟨fun hu => ?_, fun hu => ?_⟩,
    fun h => ⟨fun hu => ?_, fun hu => ?_⟩, fun h0 => ?_, fun _ _ _ => rfl⟩
  · rw [cal_prob_none log a index ln_p_old u locals h]
  · rw [cal_prob_partly log a index ln_p_old u locals h, if_pos hu]
    exact ⟨rfl, rfl⟩
  · rw [cal_prob_partly log a index ln_p_old u locals h, if_neg hu]
  · rw [cal_prob_full log a index ln_p_old u locals h]
    by_cases h1 : u ≤ TRANS (test_switch a index locals).p1_rt
    · rw [if_pos h1]; exact ⟨rfl, Or.inl rfl⟩
    · rw [if_neg h1, if_pos (hu.resolve_left h1)]; exact ⟨rfl, Or.inr rfl⟩
  · rw [cal_prob_full log a index ln_p_old u locals h, if_neg (fun h1 => hu (Or.inl h1)),
      if_neg (fun h1 => hu (Or.inr h1))]
  · rcases test_switch_ind_cases a index locals with h | h | h
    · rw [cal_prob_none log a index ln_p_old u locals h]; exact ⟨rfl, rfl⟩
    · rw [cal_prob_partly log a index ln_p_old u locals h] at h0 ⊢
      by_cases hu : u < TRANS (if (test_switch a index locals).switch_type = 1
          then (test_switch a index locals).p2_rt else (test_switch a index locals).p1_rt)
      · rw [if_pos hu] at h0; exact absurd (show (1 : Int) = 0 from h0) (by decide)
      · rw [if_neg hu]; exact ⟨rfl, rfl⟩
    · rw [cal_prob_full log a index ln_p_old u locals h] at h0 ⊢
      by_cases h1 : u ≤ TRANS (test_switch a index locals).p1_rt
      · rw [if_pos h1] at h0; exact absurd (show (2 : Int) = 0 from h0) (by decide)
      · rw [if_neg h1] at h0 ⊢
        by_cases h2 : u ≤ TRANS (test_switch a index locals).p1_rt
            + TRANS (test_switch a index locals).p2_rt
        · rw [if_pos h2] at h0; exact absurd (show (2 : Int) = 0 from h0) (by decide)
        · rw [if_neg h2]; exact ⟨rfl, rfl⟩

/-- The three-allele table with the window `0 1 / 0 1` is fully switchable and the draw
`1/10` takes the D-switch: `actual_switch = 2`. -/
theorem classification_reports_switch_witness :
    (test_switch table3 (select_index_of 0 1 0 1) ⟨0, 0, 0, 0⟩).switch_ind = 2 ∧
      (1 / 10 : ℚ) ≤ TRANS (test_switch table3 (select_index_of 0 1 0 1) ⟨0, 0, 0, 0⟩).p1_rt ∧
      (cal_prob (fun _ => (0 : ℚ)) table3 (select_index_of 0 1 0 1) 0 (1 / 10)
        ⟨0, 0, 0, 0⟩).actual_switch = 2 :=
  ⟨by decide, by rw [table3_p1, TRANS_eq]; norm_num,
    (((classification_reports_switch ℚ (fun _ => 0) table3 (select_index_of 0 1 0 1) 0
      (1 / 10) ⟨0, 0, 0, 0⟩).2.2.1 (by decide)).1
        (Or.inl (by rw [table3_p1, TRANS_eq]; norm_num))).1⟩

/-! ## Tables on which no window is switchable -/

theorem not_legal_of_fixed {K : Nat} (a : Table)
    (hoff : ∀ i, i < K → ∀ j, j < K → i ≠ j → a (L i j) = 0)
    (hdiag : ∀ i, i < K → ∀ j, j < K → i ≠ j → ¬(a (L i i) > 0 ∧ a (L j j) > 0))
    {i1 i2 j1 j2 : Nat} (hi : i1 < i2) (hiK : i2 < K) (hj : j1 < j2) (hjK : j2 < K) :
    ¬legalD a (select_index_of i1 i2 j1 j2) ∧ ¬legalR a (select_index_of i1 i2 j1 j2) := by
  have b1 : i1 < K := by omega
  have b3 : j1 < K := by omega
  constructor
  · rintro ⟨hA, hB⟩
    change a (L i1 j1) > 0 at hA
    change a (L i2 j2) > 0 at hB
    by_cases e1 : i1 = j1
    · by_cases e2 : i2 = j2
      · subst e1; subst e2
        exact hdiag i1 b1 i2 hiK (by omega) ⟨hA, hB⟩
      · have := hoff i2 hiK j2 hjK e2; omega
    · have := hoff i1 b1 j1 b3 e1; omega
  · intro hR
    unfold legalR at hR
    by_cases ht : (select_index_of i1 i2 j1 j2).type ≤ 1
    · rw [if_pos ht] at hR
      obtain ⟨hC, hD⟩ := hR
      change a (L i1 j2) > 0 at hC
      change a (L i2 j1) > 0 at hD
      by_cases e1 : i1 = j2
      · have := hoff i2 hiK j1 b3 (by omega); omega
      · have := hoff i1 b1 j2 hjK e1; omega
    · rw [if_neg ht] at hR
      change a (L i1 j2) > 1 at hR
      have hb : i1 = j1 ∧ i2 = j2 := by
        by_contra hc
        exact ht ((select_index_of_type_le_one hi hj).2 hc)
      have := hoff i1 b1 j2 hjK (by omega); omega

theorem select_index_window {K : Nat} (hK : 2 ≤ K) (d : Draw) (hd : d.unit) :
    ∃ i1 i2 j1 j2, i1 < i2 ∧ i2 < K ∧ j1 < j2 ∧ j2 < K ∧
      select_index d.u1 d.u2 d.u3 d.u4 K d.work d.work' = select_index_of i1 i2 j1 j2 := by
  obtain ⟨h1, h2, h3, h4⟩ := hd
  have r := random_choose_ordered hK h1 h2 d.work
  have c := random_choose_ordered hK h3 h4 d.work'
  exact ⟨_, _, _, _, r.1, r.2, c.1, c.2, rfl⟩

/-- On a table where no window is switchable an iteration only counts a non-switch. -/
theorem iteration_fixed {R : Type} [Add R] (log : ℚ → R) {K : Nat} (hK : 2 ≤ K)
    (draws : Nat → Draw) (hd : ∀ n, (draws n).unit) (c : Chain R)
    (hoff : ∀ i, i < K → ∀ j, j < K → i ≠ j → c.a (L i j) = 0)
    (hdiag : ∀ i, i < K → ∀ j, j < K → i ≠ j → ¬(c.a (L i i) > 0 ∧ c.a (L j j) > 0)) :
    iteration log K draws c =
      { a := c.a, ln_p_simulated := c.ln_p_simulated,
        swch_count := Function.update c.swch_count 0 (c.swch_count 0 + 1),
        done := c.done + 1 } := by
  obtain ⟨i1, i2, j1, j2, hi, hiK, hj, hjK, hs⟩ := select_index_window hK (draws c.done) (hd _)
  have hl := not_legal_of_fixed c.a hoff hdiag hi hiK hj hjK
  have h0 : (test_switch c.a (select_index_of i1 i2 j1 j2) (draws c.done).locals).switch_ind
      = 0 := by
    rw [test_switch_ind, if_neg hl.1, if_neg hl.2]; rfl
  unfold iteration
  simp only [hs, cal_prob_none log c.a _ c.ln_p_simulated _ _ h0]
  rfl

theorem dememorize_fixed {R : Type} [Add R] (log : ℚ → R) {K : Nat} (hK : 2 ≤ K)
    (draws : Nat → Draw) (hd : ∀ n, (draws n).unit) (a : Table)
    (hoff : ∀ i, i < K → ∀ j, j < K → i ≠ j → a (L i j) = 0)
    (hdiag : ∀ i, i < K → ∀ j, j < K → i ≠ j → ¬(a (L i i) > 0 ∧ a (L j j) > 0))
    (n : Nat) : ∀ c : Chain R, c.a = a →
      (dememorize log K draws n c).a = a ∧
      (dememorize log K draws n c).ln_p_simulated = c.ln_p_simulated ∧
      (dememorize log K draws n c).swch_count 1 = c.swch_count 1 ∧
      (dememorize log K draws n c).swch_count 2 = c.swch_count 2 := by
  induction n with
  | zero => intro c hc; exact ⟨hc, rfl, rfl, rfl⟩
  | succ n ih =>
    intro c hc
    subst hc
    have hit := iteration_fixed log hK draws hd c hoff hdiag
    simp only [dememorize]
    rw [hit]
    obtain ⟨e1, e2, e3, e4⟩ := ih
      { a := c.a, ln_p_simulated := c.ln_p_simulated,
        swch_count := Function.update c.swch_count 0 (c.swch_count 0 + 1),
        done := c.done + 1 } rfl
    exact ⟨e1, e2, e3.trans (by simp [Function.update_apply]),
      e4.trans (by simp [Function.update_apply])⟩

theorem batch_fixed {R : Type} [Add R] [LE R] [DecidableRel (fun x y : R => x ≤ y)]
    (log : ℚ → R) {K : Nat} (hK : 2 ≤ K)
    (draws : Nat → Draw) (hd : ∀ n, (draws n).unit) (a : Table)
    (hoff : ∀ i, i < K → ∀ j, j < K → i ≠ j → a (L i j) = 0)
    (hdiag : ∀ i, i < K → ∀ j, j < K → i ≠ j → ¬(a (L i i) > 0 ∧ a (L j j) > 0))
    (obs : R) (n : Nat) : ∀ s : Chain R × Int, s.1.a = a →
      (batch log K draws obs n s).1.a = a ∧
      (batch log K draws obs n s).1.ln_p_simulated = s.1.ln_p_simulated ∧
      (batch log K draws obs n s).1.swch_count 1 = s.1.swch_count 1 ∧
      (batch log K draws obs n s).1.swch_count 2 = s.1.swch_count 2 := by
  induction n with
  | zero => intro s hs; exact ⟨hs, rfl, rfl, rfl⟩
  | succ n ih =>
    intro s hs
    subst hs
    have hit := iteration_fixed log hK draws hd s.1 hoff hdiag
    simp only [batch]
    rw [hit]
    obtain ⟨e1, e2, e3, e4⟩ := ih
      ((⟨s.1.a, s.1.ln_p_simulated,
        Function.update s.1.swch_count 0 (s.1.swch_count 0 + 1), s.1.done + 1⟩ : Chain R),
        if s.1.ln_p_simulated ≤ obs then s.2 + 1 else s.2) rfl
    exact ⟨e1, e2, e3.trans (by simp [Function.update_apply]),
      e4.trans (by simp [Function.update_apply])⟩

theorem sampling_fixed {R : Type} [Add R] [LE R] [DecidableRel (fun x y : R => x ≤ y)]
    (log : ℚ → R) {K : Nat} (hK : 2 ≤ K)
    (draws : Nat → Draw) (hd : ∀ n, (draws n).unit) (a : Table)
    (hoff : ∀ i, i < K → ∀ j, j < K → i ≠ j → a (L i j) = 0)
    (hdiag : ∀ i, i < K → ∀ j, j < K → i ≠ j → ¬(a (L i i) > 0 ∧ a (L j j) > 0))
    (obs : R) (size : Int) (n : Nat) : ∀ s : Chain R × Option ℚ × Option ℚ, s.1.a = a →
      (sampling log K draws obs size n s).1.a = a ∧
      (sampling log K draws obs size n s).1.ln_p_simulated = s.1.ln_p_simulated ∧
      (sampling log K draws obs size n s).1.swch_count 1 = s.1.swch_count 1 ∧
      (sampling log K draws obs size n s).1.swch_count 2 = s.1.swch_count 2 := by
  induction n with
  | zero => intro s hs; exact ⟨hs, rfl, rfl, rfl⟩
  | succ n ih =>
    intro s hs
    obtain ⟨b1, b2, b3, b4⟩ := batch_fixed log hK draws hd a hoff hdiag obs size.toNat (s.1, 0) hs
    simp only [sampling]
    obtain ⟨e1, e2, e3, e4⟩ := ih
      ((batch log K draws obs size.toNat (s.1, 0)).1,
        fadd s.2.1 (fdiv (some ((batch log K draws obs size.toNat (s.1, 0)).2 : ℚ))
          (some (size : ℚ))),
        fadd s.2.2 (fmul (fdiv (some ((batch log K draws obs size.toNat (s.1, 0)).2 : ℚ))
          (some (size : ℚ))) (fdiv (some ((batch log K draws obs size.toNat (s.1, 0)).2 : ℚ))
          (some (size : ℚ))))) b1
    exact ⟨e1, e2.trans b2, e3.trans b3, e4.trans b4⟩

/-- C18: for every table in which every off-diagonal cell is 0 and no two diagonal cells
are both positive, every ordered window below `K` gives `switch_ind = 0`, and every
`cal_prob` call returns `ln_p_old`, leaves the table unchanged and reports 0; so over a
whole run of `main` with draws in `[0,1)` and `K >= 2` alleles the table and
`ln_p_simulated` never change and no switch is counted. -/
theorem no_switch_run (R : Type) [Add R] [Zero R] [LE R] [DecidableRel (fun x y : R => x ≤ y)]
    (log : ℚ → R) (K : Nat) (a : Table)
    (hoff : ∀ i, i < K → ∀ j, j < K → i ≠ j → a (L i j) = 0)
    (hdiag : ∀ i, i < K → ∀ j, j < K → i ≠ j → ¬(a (L i i) > 0 ∧ a (L j j) > 0)) :
    (∀ i1 i2 j1 j2, i1 < i2 → i2 < K → j1 < j2 → j2 < K →
      ∀ (ln_p_old : R) (u : ℚ) (locals : Switch),
        (test_switch a (select_index_of i1 i2 j1 j2) locals).switch_ind = 0 ∧
        (cal_prob log a (select_index_of i1 i2 j1 j2) ln_p_old u locals).ln_p_new = ln_p_old ∧
        (cal_prob log a (select_index_of i1 i2 j1 j2) ln_p_old u locals).a = a ∧
        (cal_prob log a (select_index_of i1 i2 j1 j2) ln_p_old u locals).actual_switch = 0) ∧
    (2 ≤ K → ∀ (sample : randomization) (draws : Nat → Draw), (∀ n, (draws n).unit) →
      (main log a K sample draws).a = a ∧
      (main log a K sample draws).ln_p_simulated = 0 ∧
      (main log a K sample draws).result.swch_count 1 = 0 ∧
      (main log a K sample draws).result.swch_count 2 = 0) := by
  constructor
  · intro i1 i2 j1 j2 hi hiK hj hjK ln_p_old u locals
    have hl := not_legal_of_fixed a hoff hdiag hi hiK hj hjK
    have h0 : (test_switch a (select_index_of i1 i2 j1 j2) locals).switch_ind = 0 := by
      rw [test_switch_ind, if_neg hl.1, if_neg hl.2]; rfl
    rw [cal_prob_none log a _ ln_p_old u locals h0]
    exact ⟨h0, rfl, rfl, rfl⟩
  · intro hK sample draws hd
    obtain ⟨d1, d2, d3, d4⟩ := dememorize_fixed log hK draws hd a hoff hdiag sample.step.toNat
      ({ a := a, ln_p_simulated := 0, swch_count := fun _ => 0, done := 0 } : Chain R) rfl
    obtain ⟨s1, s2, s3, s4⟩ := sampling_fixed log hK draws hd a hoff hdiag (0 : R) sample.size
      sample.group.toNat
      (dememorize log K draws sample.step.toNat
        ({ a := a, ln_p_simulated := 0, swch_count := fun _ => 0, done := 0 } : Chain R),
        some 0, some 0) d1
    exact ⟨s1, s2.trans d2, s3.trans d3, s4.trans d4⟩

theorem table3_fixed_off : ∀ i, i < 3 → ∀ j, j < 3 → i ≠ j → table3_fixed (L i j) = 0 := by
  decide

theorem table3_fixed_diag :
    ∀ i, i < 3 → ∀ j, j < 3 → i ≠ j →
      ¬(table3_fixed (L i i) > 0 ∧ table3_fixed (L j j) > 0) := by
  decide

/-- The table `[[19],[0,0],[0,0,0]]`: the window `0 1 / 0 1` is not switchable. -/
theorem no_switch_run_witness :
    (∀ i, i < 3 → ∀ j, j < 3 → i ≠ j → table3_fixed (L i j) = 0) ∧
    (∀ i, i < 3 → ∀ j, j < 3 → i ≠ j →
      ¬(table3_fixed (L i i) > 0 ∧ table3_fixed (L j j) > 0)) ∧
    (test_switch table3_fixed (select_index_of 0 1 0 1) ⟨7, 7, 0, 0⟩).switch_ind = 0 ∧
    (main (fun _ => (0 : ℚ)) table3_fixed 3 ⟨2, 1, 1⟩ (fun _ => draw_half)).a = table3_fixed :=
  ⟨table3_fixed_off, table3_fixed_diag,
    ((no_switch_run ℚ (fun _ => 0) 3 table3_fixed table3_fixed_off table3_fixed_diag).1
      0 1 0 1 (by decide) (by decide) (by decide) (by decide) 0 (1 / 10) ⟨7, 7, 0, 0⟩).1,
    ((no_switch_run ℚ (fun _ => 0) 3 table3_fixed table3_fixed_off table3_fixed_diag).2
      (by decide) ⟨2, 1, 1⟩ (fun _ => draw_half)
      (fun _ => by unfold Draw.unit draw_half; norm_num)).1⟩

/-! ## The p-value and its standard error -/

theorem batch_counter {R : Type} [Add R] [LE R] [DecidableRel (fun x y : R => x ≤ y)]
    (log : ℚ → R) (K : Nat) (draws : Nat → Draw) (obs : R) (n : Nat) :
    ∀ s : Chain R × Int,
      s.2 ≤ (batch log K draws obs n s).2 ∧ (batch log K draws obs n s).2 ≤ s.2 + n := by
  induction n with
  | zero => intro s; simp [batch]
  | succ n ih =>
    intro s
    simp only [batch]
    have h := ih (iteration log K draws s.1,
      if (iteration log K draws s.1).ln_p_simulated ≤ obs then s.2 + 1 else s.2)
    simp only at h
    push_cast
    split_ifs at h ⊢ <;> omega

/-- The fraction `counter / size` of one batch lies in `[0,1]` when `size` is not 0. -/
theorem batch_fraction {R : Type} [Add R] [LE R] [DecidableRel (fun x y : R => x ≤ y)]
    (log : ℚ → R) (K : Nat) (draws : Nat → Draw) (obs : R) (size : Int) (hs : size ≠ 0)
    (c : Chain R) :
    fdiv (some ((batch log K draws obs size.toNat (c, 0)).2 : ℚ)) (some (size : ℚ)) =
        some (((batch log K draws obs size.toNat (c, 0)).2 : ℚ) / (size : ℚ)) ∧
      0 ≤ ((batch log K draws obs size.toNat (c, 0)).2 : ℚ) / (size : ℚ) ∧
      ((batch log K draws obs size.toNat (c, 0)).2 : ℚ) / (size : ℚ) ≤ 1 := by
  have hq : (size : ℚ) ≠ 0 := by exact_mod_cast hs
  obtain ⟨h1, h2⟩ := batch_counter log K draws obs size.toNat (c, 0)
  simp only [zero_add] at h1 h2
  refine ⟨by simp [fdiv, hq], ?_, ?_⟩
  · rcases lt_or_gt_of_ne hs with hneg | hpos
    · have h0 : (batch log K draws obs size.toNat (c, 0)).2 = 0 := by
        have : size.toNat = 0 := by omega
        rw [this] at h2 ⊢
        simp [batch]
      rw [h0]; simp
    · have hc : (0 : ℚ) ≤ ((batch log K draws obs size.toNat (c, 0)).2 : ℚ) := by
        exact_mod_cast h1
      have hsz : (0 : ℚ) < (size : ℚ) := by exact_mod_cast hpos
      exact div_nonneg hc (le_of_lt hsz)
  · rcases lt_or_gt_of_ne hs with hneg | hpos
    · have h0 : (batch log K draws obs size.toNat (c, 0)).2 = 0 := by
        have : size.toNat = 0 := by omega
        rw [this] at h2 ⊢
        simp [batch]
      rw [h0]; simp
    · have hsz : (0 : ℚ) < (size : ℚ) := by exact_mod_cast hpos
      rw [div_le_one hsz]
      have : (batch log K draws obs size.toNat (c, 0)).2 ≤ size := by
        have : ((size.toNat : Nat) : Int) = size := Int.toNat_of_nonneg (le_of_lt hpos)
        omega
      exact_mod_cast this

/-- The accumulators after `n` batches are the sums over a list of `n` batch fractions, each
in `[0,1]`, when `size` is not 0. -/
theorem sampling_sums {R : Type} [Add R] [LE R] [DecidableRel (fun x y : R => x ≤ y)]
    (log : ℚ → R) (K : Nat) (draws : Nat → Draw) (obs : R) (size : Int) (hs : size ≠ 0)
    (n : Nat) : ∀ (c : Chain R) (m q : ℚ),
      ∃ ps : List ℚ, ps.length = n ∧ (∀ p ∈ ps, 0 ≤ p ∧ p ≤ 1) ∧
        (sampling log K draws obs size n (c, some m, some q)).2 =
          (some (m + ps.sum), some (q + (ps.map (fun p => p * p)).sum)) := by
  induction n with
  | zero => intro c m q; exact ⟨[], rfl, by simp, by simp [sampling]⟩
  | succ n ih =>
    intro c m q
    obtain ⟨e, h0, h1⟩ := batch_fraction log K draws obs size hs c
    obtain ⟨ps, hl, hp, hsum⟩ := ih (batch log K draws obs size.toNat (c, 0)).1
      (m + ((batch log K draws obs size.toNat (c, 0)).2 : ℚ) / (size : ℚ))
      (q + ((batch log K draws obs size.toNat (c, 0)).2 : ℚ) / (size : ℚ)
        * (((batch log K draws obs size.toNat (c, 0)).2 : ℚ) / (size : ℚ)))
    refine ⟨(((batch log K draws obs size.toNat (c, 0)).2 : ℚ) / (size : ℚ)) :: ps, ?_, ?_, ?_⟩
    · simp [hl]
    · intro p hmem
      rcases List.mem_cons.1 hmem with rfl | h
      · exact ⟨h0, h1⟩
      · exact hp p h
    · simp only [sampling, e, fadd, fmul]
      rw [hsum]
      simp only [List.sum_cons, List.map_cons, add_assoc]

theorem sum_unit_bounds (ps : List ℚ) (hp : ∀ p ∈ ps, 0 ≤ p ∧ p ≤ 1) :
    0 ≤ ps.sum ∧ ps.sum ≤ ps.length := by
  induction ps with
  | nil => simp
  | cons x t ih =>
    have hx := hp x (List.mem_cons_self _ _)
    have ht := ih (fun p h => hp p (List.mem_cons_of_mem _ h))
    simp only [List.sum_cons, List.length_cons]
    push_cast
    constructor <;> linarith [hx.1, hx.2, ht.1, ht.2]

theorem sum_sq_dev (ps : List ℚ) (m : ℚ) :
    (ps.map (fun p => (p - m) ^ 2)).sum =
      (ps.map (fun p => p * p)).sum - 2 * m * ps.sum + (ps.length : ℚ) * m ^ 2 := by
  induction ps with
  | nil => simp
  | cons x t ih =>
    simp only [List.map_cons, List.sum_cons, List.length_cons, ih]
    push_cast
    ring

theorem sum_sq_nonneg (ps : List ℚ) (m : ℚ) : 0 ≤ (ps.map (fun p => (p - m) ^ 2)).sum := by
  apply List.sum_nonneg
  intro x hx
  obtain ⟨p, _, rfl⟩ := List.mem_map.1 hx
  exact sq_nonneg _

/-- The last assignments of `main` on the sums of `group > 1` batch fractions. -/
theorem p_value_se_eq (group : Int) (hg : 1 < group) (ps : List ℚ)
    (hlen : (ps.length : Int) = group) :
    p_value_se group (some ps.sum) (some (ps.map (fun p => p * p)).sum) =
      (some (ps.sum / (group : ℚ)),
       some ((ps.map (fun p => (p - ps.sum / (group : ℚ)) ^ 2)).sum
         / ((group : ℚ) * ((group : ℚ) - 1)))) := by
  have h0 : (group : ℚ) ≠ 0 := by
    have : group ≠ 0 := by omega
    exact_mod_cast this
  have h1 : (group : ℚ) - 1 ≠ 0 := by
    have : group - 1 ≠ 0 := by omega
    have h : ((group - 1 : Int) : ℚ) ≠ 0 := by exact_mod_cast this
    push_cast at h
    exact h
  have hl : ((ps.length : ℚ)) = (group : ℚ) := by exact_mod_cast hlen
  unfold p_value_se
  simp only [fdiv, fsub, fmul, h0, h1, if_false]
  rw [sum_sq_dev, hl]
  congr 2
  field_simp
  ring

/-- The result of `main` in terms of the batch fractions, when `size` is not 0. -/
theorem main_result_eq {R : Type} [Add R] [Zero R] [LE R] [DecidableRel (fun x y : R => x ≤ y)]
    (log : ℚ → R) (a : Table) (K : Nat) (sample : randomization) (draws : Nat → Draw)
    (hs : sample.size ≠ 0) :
    ∃ ps : List ℚ, ps.length = sample.group.toNat ∧ (∀ p ∈ ps, 0 ≤ p ∧ p ≤ 1) ∧
      (main log a K sample draws).result.p_value =
        (p_value_se sample.group (some ps.sum) (some (ps.map (fun p => p * p)).sum)).1 ∧
      (main log a K sample draws).result.se_radicand =
        (p_value_se sample.group (some ps.sum) (some (ps.map (fun p => p * p)).sum)).2 := by
  obtain ⟨ps, hl, hp, hsum⟩ := sampling_sums log K draws (0 : R) sample.size hs
    sample.group.toNat
    (dememorize log K draws sample.step.toNat
      ({ a := a, ln_p_simulated := 0, swch_count := fun _ => 0, done := 0 } : Chain R)) 0 0
  rw [zero_add, zero_add] at hsum
  refine ⟨ps, hl, hp, ?_, ?_⟩
  · simp only [main, hsum]
  · simp only [main, hsum]

/-- For `group > 1` and a batch size other than 0 the p-value `main` reports lies in
`[0,1]`. -/
theorem p_value_unit_interval {R : Type} [Add R] [Zero R] [LE R]
    [DecidableRel (fun x y : R => x ≤ y)]
    (log : ℚ → R) (a : Table) (K : Nat) (sample : randomization) (draws : Nat → Draw)
    (hg : 1 < sample.group) (hs : sample.size ≠ 0) :
    ∃ v : ℚ, (main log a K sample draws).result.p_value = some v ∧ 0 ≤ v ∧ v ≤ 1 := by
  obtain ⟨ps, hl, hp, h1, _⟩ := main_result_eq log a K sample draws hs
  have hlen : (ps.length : Int) = sample.group := by
    rw [hl]; exact Int.toNat_of_nonneg (by omega)
  rw [p_value_se_eq sample.group hg ps hlen] at h1
  obtain ⟨b0, b1⟩ := sum_unit_bounds ps hp
  have hgq : (0 : ℚ) < (sample.group : ℚ) := by
    have : (0 : Int) < sample.group := by omega
    exact_mod_cast this
  have hlq : (ps.length : ℚ) = (sample.group : ℚ) := by exact_mod_cast hlen
  refine ⟨ps.sum / (sample.group : ℚ), h1, div_nonneg b0 (le_of_lt hgq), ?_⟩
  rw [div_le_one hgq, ← hlq]
  exact b1

/-- C19 fails on the code for the batch size 0, which `read_data` accepts: with the
three-allele table, `step = 1`, `group = 2` and `size = 0` every batch fraction is
`0 / 0`, and the p-value `main` reports has no value, whatever the draws. -/
theorem p_value_undefined_at_size_zero (R : Type) [Add R] [Zero R] [LE R]
    [DecidableRel (fun x y : R => x ≤ y)] (log : ℚ → R) (draws : Nat → Draw) :
    (main log table3 3 { group := 2, size := 0, step := 1 } draws).result.p_value = none := by
  unfold main
  simp [sampling, batch, fdiv, fadd, fmul, p_value_se]

/-- In exact arithmetic, for every `group > 1` and every list of `group` batch fractions, the
value `main` passes to `sqrt`, `sum(p_b^2)/group/(group-1) - pbar/(group-1)*pbar` with
`pbar` the mean, equals `sum((p_b - pbar)^2)/(group*(group-1))` and is `>= 0`; and for a
batch size other than 0 the run of `main` in exact arithmetic has such a list of batch
fractions.  In the arithmetic of `double` the value can be negative. -/
theorem se_radicand_nonneg (group : Int) (hg : 1 < group) :
    (∀ ps : List ℚ, (ps.length : Int) = group →
      (p_value_se group (some ps.sum) (some (ps.map (fun p => p * p)).sum)).1 =
        some (ps.sum / (group : ℚ)) ∧
      (p_value_se group (some ps.sum) (some (ps.map (fun p => p * p)).sum)).2 =
        some ((ps.map (fun p => (p - ps.sum / (group : ℚ)) ^ 2)).sum
          / ((group : ℚ) * ((group : ℚ) - 1))) ∧
      0 ≤ (ps.map (fun p => (p - ps.sum / (group : ℚ)) ^ 2)).sum
          / ((group : ℚ) * ((group : ℚ) - 1))) ∧
    (∀ (R : Type) [Add R] [Zero R] [LE R] [DecidableRel (fun x y : R => x ≤ y)]
      (log : ℚ → R) (a : Table) (K : Nat) (size step : Int) (draws : Nat → Draw),
      size ≠ 0 →
      ∃ r : ℚ, 0 ≤ r ∧
        (main log a K { group := group, size := size, step := step } draws).result.se_radicand
          = some r) := by
  have hgq : (0 : ℚ) < (group : ℚ) := by
    have : (0 : Int) < group := by omega
    exact_mod_cast this
  have hgq1 : (0 : ℚ) < (group : ℚ) - 1 := by
    have : (0 : Int) < group - 1 := by omega
    have h : (0 : ℚ) < ((group - 1 : Int) : ℚ) := by exact_mod_cast this
    push_cast at h
    exact h
  have hnn : ∀ ps : List ℚ, 0 ≤ (ps.map (fun p => (p - ps.sum / (group : ℚ)) ^ 2)).sum
      / ((group : ℚ) * ((group : ℚ) - 1)) := fun ps =>
    div_nonneg (sum_sq_nonneg ps _) (le_of_lt (mul_pos hgq hgq1))
  constructor
  · intro ps hlen
    rw [p_value_se_eq group hg ps hlen]
    exact ⟨rfl, rfl, hnn ps⟩
  · intro R _ _ _ _ log a K size step draws hs
    obtain ⟨ps, hl, _, _, h2⟩ := main_result_eq log a K
      { group := group, size := size, step := step } draws hs
    have hl2 : ps.length = group.toNat := hl
    have hlen : (ps.length : Int) = group := by
      rw [hl2]; exact Int.toNat_of_nonneg (by omega)
    rw [p_value_se_eq group hg ps hlen] at h2
    exact ⟨_, hnn ps, h2⟩

/-- Two batches with fractions `1/4` and `3/4`: the mean is `1/2` and the value passed to
`sqrt` is `1/16`. -/
theorem se_radicand_nonneg_witness :
    ((1 : Int) < 2) ∧ ((([1 / 4, 3 / 4] : List ℚ).length : Int) = 2) ∧
      (p_value_se 2 (some ([1 / 4, 3 / 4] : List ℚ).sum)
        (some (([1 / 4, 3 / 4] : List ℚ).map (fun p => p * p)).sum)).1 =
          some (([1 / 4, 3 / 4] : List ℚ).sum / ((2 : Int) : ℚ)) ∧
      (p_value_se 2 (some (1 / 4 + 3 / 4)) (some (1 / 4 * (1 / 4) + 3 / 4 * (3 / 4)))).2 =
        some (1 / 16) :=
  ⟨by decide, by decide,
    ((se_radicand_nonneg 2 (by decide)).1 [1 / 4, 3 / 4] (by decide)).1,
    by norm_num [p_value_se, fdiv, fsub, fmul]⟩

/-! ## The cell address macros -/

/-- C27: for all `a` and `b` the macro `L` satisfies `L(a,b) = L(b,a) = m(m+1)/2 + n` with
`m = max(a,b)` and `n = min(a,b)`, and agrees with `LL` on canonical arguments `b <= a`. -/
theorem L_canonical (a b : Nat) :
    L a b = L b a ∧ L a b = max a b * (max a b + 1) / 2 + min a b ∧
      (b ≤ a → L a b = LL a b) := by
  refine ⟨(L_eq_iff a b b a).2 (Or.inr ⟨rfl, rfl⟩), ?_, ?_⟩
  · unfold L
    by_cases h : a < b
    · rw [if_pos h, max_eq_right (le_of_lt h), min_eq_left (le_of_lt h)]
    · rw [if_neg h, max_eq_left (not_lt.1 h), min_eq_right (not_lt.1 h)]
  · intro h
    unfold L LL
    rw [if_neg (not_lt.2 h)]

/-- The cell of the pair `(1, 2)` is the cell of `(2, 1)`, index 4. -/
theorem L_canonical_witness : ((1 : Nat) ≤ 2) ∧ L 2 1 = LL 2 1 ∧ L 1 2 = 4 :=
  ⟨by decide, (L_canonical 2 1).2.2 (by decide), by decide⟩


/-! ## Reading the input -/

theorem read_cell_loaded (a : Table) (cs : List Int) (rest : List (Option Int)) (i j m : Nat)
    (hm : m < cs.length) (hl : LL i j = m) :
    read_cell i j (loaded a cs m, (cs.take m).sum, (cs.drop m).map some ++ rest) =
      (loaded a cs (m + 1), (cs.take (m + 1)).sum, (cs.drop (m + 1)).map some ++ rest) := by
  have hd : cs.drop m = cs[m] :: cs.drop (m + 1) := List.drop_eq_getElem_cons hm
  have hs : (cs.take (m + 1)).sum = (cs.take m).sum + cs[m] := by
    rw [List.sum_take_succ cs m hm]
  have ha : Function.update (loaded a cs m) m cs[m] = loaded a cs (m + 1) := by
    funext k
    by_cases hk : k = m
    · subst hk
      simp [loaded, List.getD_eq_getElem?_getD, List.getElem?_eq_getElem hm]
    · rw [Function.update_noteq hk]
      simp only [loaded]
      by_cases h1 : k < m
      · simp [h1, Nat.lt_succ_of_lt h1]
      · have h2 : ¬ k < m + 1 := by omega
        simp [h1, h2]
  simp only [read_cell, hd, List.map_cons, List.cons_append, scan_int, hl, ha, hs]
  simp [loaded, List.getD_eq_getElem?_getD, List.getElem?_eq_getElem hm]

theorem read_row_loaded (a : Table) (cs : List Int) (rest : List (Option Int)) (i : Nat) :
    ∀ n : Nat, n ≤ i + 1 → i * (i + 1) / 2 + n ≤ cs.length →
      (List.range n).foldl (fun s j => read_cell i j s)
          (loaded a cs (i * (i + 1) / 2), (cs.take (i * (i + 1) / 2)).sum,
            (cs.drop (i * (i + 1) / 2)).map some ++ rest) =
        (loaded a cs (i * (i + 1) / 2 + n), (cs.take (i * (i + 1) / 2 + n)).sum,
          (cs.drop (i * (i + 1) / 2 + n)).map some ++ rest) := by
  intro n
  induction n with
  | zero => intro _ _; rfl
  | succ n ih =>
    intro h1 h2
    rw [List.range_succ, List.foldl_append, ih (by omega) (by omega)]
    exact read_cell_loaded a cs rest i n _ (by omega) rfl

theorem read_rows_loaded (a : Table) (cs : List Int) (rest : List (Option Int)) :
    ∀ k : Nat, k * (k + 1) / 2 ≤ cs.length →
      (List.range k).foldl
          (fun s i => (List.range (i + 1)).foldl (fun s j => read_cell i j s) s)
          (a, (0 : Int), cs.map some ++ rest) =
        (loaded a cs (k * (k + 1) / 2), (cs.take (k * (k + 1) / 2)).sum,
          (cs.drop (k * (k + 1) / 2)).map some ++ rest) := by
  intro k
  induction k with
  | zero =>
    intro _
    have h0 : loaded a cs 0 = a := by funext k; simp [loaded]
    simp [h0]
  | succ k ih =>
    intro h
    have hk := tri_succ k
    rw [List.range_succ, List.foldl_append, ih (by omega)]
    simp only [List.foldl_cons, List.foldl_nil]
    rw [read_row_loaded a cs rest k (k + 1) (le_refl _) (by omega), hk]

theorem read_data_input_of (a : Table) (n0 : Int) (s0 : randomization) (K : Int)
    (counts : List Int) (step group size : Int) (rest : List (Option Int))
    (hK : 3 ≤ K) (hlen : counts.length = K.toNat * (K.toNat + 1) / 2) :
    read_data a n0 s0 (input_of K counts step group size ++ rest) =
      { err := if step < 1 ∨ group ≤ 1 then 1 else 0
        a := loaded a counts (K.toNat * (K.toNat + 1) / 2)
        no_allele := K
        total := counts.sum
        sample := { group := group, size := size, step := step } } := by
  have hk : ¬ K < 3 := by omega
  have hin : input_of K counts step group size ++ rest =
      some K :: (counts.map some ++ (some step :: some group :: some size :: rest)) := by
    simp [input_of]
  rw [hin]
  simp only [read_data, scan_int, hk, if_false]
  rw [read_rows_loaded a counts _ K.toNat (by omega)]
  rw [← hlen, List.take_length, List.drop_length]
  simp only [List.map_nil, List.nil_append]
  split_ifs <;> rfl

theorem join_rows (rows : List (List Int)) :
    (∀ i, i < rows.length → (rows.getD i []).length = i + 1) →
      rows.flatten.length = rows.length * (rows.length + 1) / 2 ∧
        ∀ i j, i < rows.length → j ≤ i →
          rows.flatten.getD (i * (i + 1) / 2 + j) 0 = (rows.getD i []).getD j 0 := by
  induction rows using List.reverseRecOn with
  | nil => intro _; simp
  | append_singleton l r ih =>
    intro h
    have hl : ∀ i, i < l.length → (l.getD i []).length = i + 1 := by
      intro i hi
      have := h i (by simp; omega)
      rwa [List.getD_append _ _ _ _ hi] at this
    have hr : r.length = l.length + 1 := by
      have := h l.length (by simp)
      rwa [List.getD_append_right _ _ _ _ (le_refl _), Nat.sub_self] at this
    obtain ⟨ih1, ih2⟩ := ih hl
    have ht := tri_succ l.length
    refine ⟨by simp [ih1, hr]; omega, ?_⟩
    intro i j hi hj
    simp only [List.length_append, List.length_singleton] at hi
    simp only [List.flatten_append, List.flatten_singleton]
    by_cases hlt : i < l.length
    · have hb := tri_lt hlt
      rw [List.getD_append _ _ _ _ (by omega), List.getD_append _ _ _ _ hlt]
      exact ih2 i j hlt hj
    · have hi2 : i = l.length := by omega
      subst hi2
      rw [List.getD_append_right _ _ _ _ (by omega),
        List.getD_append_right _ _ _ _ (le_refl _)]
      simp [ih1]

theorem input_of_append_nil (K : Int) (counts : List Int) (step group size : Int) :
    input_of K counts step group size = input_of K counts step group size ++ [] :=
  (List.append_nil _).symm

/-! ## The checks of read_data -/

/-- C22: for every input whose first integer `K` is less than 3, whatever follows it,
`read_data` returns a non-zero error code, and `main` exits with code 2 without running a
single step of the chain. -/
theorem read_data_rejects_few_alleles {R : Type} [Add R] [Zero R] [LE R]
    [DecidableRel (fun x y : R => x ≤ y)] (log : ℚ → R) (a : Table) (n0 : Int)
    (s0 : randomization) (K : Int) (rest : List (Option Int)) (draws : Nat → Draw)
    (hK : K < 3) :
    (read_data a n0 s0 (some K :: rest)).err ≠ 0 ∧
      main_from_read_data log a n0 s0 (some K :: rest) draws = Except.error 2 := by
  have h : (read_data a n0 s0 (some K :: rest)).err = 1 := by
    simp [read_data, scan_int, hK]
  refine ⟨by rw [h]; decide, ?_⟩
  simp [main_from_read_data, h]

theorem read_data_rejects_few_alleles_witness :
    ((2 : Int) < 3) ∧
      ((read_data table3 0 ⟨0, 0, 0⟩ (some 2 :: [some 5, some 2, some 5, some 1, some 2,
          some 10])).err ≠ 0 ∧
        main_from_read_data (fun _ : ℚ => (0 : ℚ)) table3 0 ⟨0, 0, 0⟩
          (some 2 :: [some 5, some 2, some 5, some 1, some 2, some 10]) (fun _ => draw_half)
          = Except.error 2) :=
  ⟨by decide, read_data_rejects_few_alleles _ _ _ _ _ _ _ (by decide)⟩

/-- C23: for every input with `K >= 3` in which all `K(K+1)/2` counts and the three
parameters are present, `read_data` returns an error iff `step < 1` or `group <= 1` and
returns 0 otherwise; on an error `main` exits with code 2 before any step of the chain,
otherwise it runs the chain on what was read. -/
theorem read_data_parameter_check {R : Type} [Add R] [Zero R] [LE R]
    [DecidableRel (fun x y : R => x ≤ y)] (log : ℚ → R) (a : Table) (n0 : Int)
    (s0 : randomization) (K : Int) (counts : List Int) (step group size : Int)
    (rest : List (Option Int)) (draws : Nat → Draw)
    (hK : 3 ≤ K) (hlen : counts.length = K.toNat * (K.toNat + 1) / 2) :
    ((read_data a n0 s0 (input_of K counts step group size ++ rest)).err ≠ 0 ↔
        (step < 1 ∨ group ≤ 1)) ∧
      (¬ (step < 1 ∨ group ≤ 1) →
        (read_data a n0 s0 (input_of K counts step group size ++ rest)).err = 0) ∧
      ((step < 1 ∨ group ≤ 1) →
        main_from_read_data log a n0 s0 (input_of K counts step group size ++ rest) draws
          = Except.error 2) ∧
      (¬ (step < 1 ∨ group ≤ 1) →
        main_from_read_data log a n0 s0 (input_of K counts step group size ++ rest) draws
          = Except.ok (main log (loaded a counts (K.toNat * (K.toNat + 1) / 2)) K.toNat
              { group := group, size := size, step := step } draws)) := by
  have h := read_data_input_of a n0 s0 K counts step group size rest hK hlen
  by_cases hp : step < 1 ∨ group ≤ 1
  · simp [main_from_read_data, h, hp]
  · simp [main_from_read_data, h, hp]

set_option maxRecDepth 100000 in
theorem read_data_parameter_check_witness :
    ((read_data table3_fixed 0 ⟨0, 0, 0⟩ (input_of 3 [5, 2, 5, 1, 1, 5] 0 2 10 ++ [])).err ≠ 0 ↔
        ((0 : Int) < 1 ∨ (2 : Int) ≤ 1)) ∧
      ((3 : Int) ≤ 3) :=
  ⟨(read_data_parameter_check (fun _ : ℚ => (0 : ℚ)) table3_fixed 0 ⟨0, 0, 0⟩ 3
      [5, 2, 5, 1, 1, 5] 0 2 10 [] (fun _ => draw_half) (by decide) (by decide)).1,
    by decide⟩

/-- C24 (counterexample): the input `3 / -1 / 2 5 / 1 1 5 / 1 2 1` has the negative count
`-1`, and `read_data` returns 0 on it. -/
theorem read_data_negative_counterexample :
    (-1 : Int) ∈ [-1, 2, 5, 1, 1, 5] ∧
      (read_data (fun _ => 0) 0 ⟨0, 0, 0⟩ (input_of 3 [-1, 2, 5, 1, 1, 5] 1 2 1)).err = 0 ∧
      (read_data (fun _ => 0) 0 ⟨0, 0, 0⟩ (input_of 3 [-1, 2, 5, 1, 1, 5] 1 2 1)).a 0 = -1 := by
  rw [input_of_append_nil,
    read_data_input_of _ _ _ 3 [-1, 2, 5, 1, 1, 5] 1 2 1 [] (by decide) (by decide)]
  refine ⟨by decide, by decide, by decide⟩

/-- C24 (amended): `read_data` does not examine the counts.  For every input with `K >= 3`
in which all `K(K+1)/2` counts and the three parameters are present, the value it returns
is the same for any other list of counts of that length, it is 0 when `step >= 1` and
`group > 1`, and every count, negative ones included, is stored in the table as read. -/
theorem read_data_ignores_sign (a : Table) (n0 : Int) (s0 : randomization) (K : Int)
    (counts counts' : List Int) (step group size : Int) (rest : List (Option Int))
    (hK : 3 ≤ K) (hlen : counts.length = K.toNat * (K.toNat + 1) / 2)
    (hlen' : counts'.length = K.toNat * (K.toNat + 1) / 2) :
    (read_data a n0 s0 (input_of K counts step group size ++ rest)).err =
        (read_data a n0 s0 (input_of K counts' step group size ++ rest)).err ∧
      (1 ≤ step → 1 < group →
        (read_data a n0 s0 (input_of K counts step group size ++ rest)).err = 0) ∧
      (∀ m, m < counts.length →
        (read_data a n0 s0 (input_of K counts step group size ++ rest)).a m =
          counts.getD m 0) := by
  rw [read_data_input_of a n0 s0 K counts step group size rest hK hlen,
    read_data_input_of a n0 s0 K counts' step group size rest hK hlen']
  refine ⟨rfl, ?_, ?_⟩
  · intro h1 h2
    have : ¬ (step < 1 ∨ group ≤ 1) := by omega
    simp [this]
  · intro m hm
    simp only [loaded]
    rw [if_pos (by omega)]

theorem read_data_ignores_sign_witness :
    ((3 : Int) ≤ 3) ∧
      (read_data (fun _ => 0) 0 ⟨0, 0, 0⟩ (input_of 3 [-1, 2, 5, 1, 1, 5] 1 2 1 ++ [])).err =
        (read_data (fun _ => 0) 0 ⟨0, 0, 0⟩ (input_of 3 [5, 2, 5, 1, 1, 5] 1 2 1 ++ [])).err :=
  ⟨by decide, (read_data_ignores_sign (fun _ => 0) 0 ⟨0, 0, 0⟩ 3 [-1, 2, 5, 1, 1, 5]
    [5, 2, 5, 1, 1, 5] 1 2 1 [] (by decide) (by decide) (by decide)).1⟩

/-- C25 (the defect): `read_data` accepts `K = 21 > MAX_ALLELE`: on the input with 21
alleles, 231 counts equal to 1 and the parameters `1 2 1` it returns 0, and it has stored
a count at index `LL(20, 20) = 230`, which is not below `LENGTH = 210`. -/
theorem read_data_accepts_21_alleles :
    MAX_ALLELE < 21 ∧ LENGTH ≤ LL 20 20 ∧
      (read_data (fun _ => 0) 0 ⟨0, 0, 0⟩
        (input_of 21 (List.replicate 231 1) 1 2 1)).err = 0 ∧
      (read_data (fun _ => 0) 0 ⟨0, 0, 0⟩
        (input_of 21 (List.replicate 231 1) 1 2 1)).no_allele = 21 ∧
      (read_data (fun _ => 0) 0 ⟨0, 0, 0⟩
        (input_of 21 (List.replicate 231 1) 1 2 1)).a (LL 20 20) = 1 := by
  rw [input_of_append_nil,
    read_data_input_of _ _ _ 21 (List.replicate 231 1) 1 2 1 [] (by decide)
      (by rw [List.length_replicate]; decide)]
  refine ⟨by decide, by decide, by decide, rfl, ?_⟩
  have h : LL 20 20 = 230 := by decide
  have h2 : (21 : Int).toNat * ((21 : Int).toNat + 1) / 2 = 231 := by decide
  simp only [loaded, h, h2]
  rw [if_pos (by decide), List.getD_eq_getElem?_getD, List.getElem?_replicate]
  simp

/-- C26: for every input with `K >= 3` whose counts are the rows `rows[0], .., rows[K-1]`
of the lower triangle, row `i` having `i + 1` values, `read_data` stores the `j`-th value
of row `i` at index `i(i+1)/2 + j` for all `0 <= j <= i < K`, sets `total` to the sum of
all the counts read and `no_allele` to `K`, and leaves the cells from `K(K+1)/2` on as
they were. -/
theorem read_data_stores_rows (a : Table) (n0 : Int) (s0 : randomization) (K : Int)
    (rows : List (List Int)) (step group size : Int) (rest : List (Option Int))
    (hK : 3 ≤ K) (hrows : rows.length = K.toNat)
    (hrow : ∀ i, i < rows.length → (rows.getD i []).length = i + 1) :
    (∀ i j, i < K.toNat → j ≤ i →
        (read_data a n0 s0 (input_of K rows.flatten step group size ++ rest)).a
          (i * (i + 1) / 2 + j) = (rows.getD i []).getD j 0) ∧
      (read_data a n0 s0 (input_of K rows.flatten step group size ++ rest)).total =
        (rows.map List.sum).sum ∧
      (read_data a n0 s0 (input_of K rows.flatten step group size ++ rest)).no_allele = K ∧
      (∀ k, K.toNat * (K.toNat + 1) / 2 ≤ k →
        (read_data a n0 s0 (input_of K rows.flatten step group size ++ rest)).a k = a k) := by
  obtain ⟨h1, h2⟩ := join_rows rows hrow
  rw [hrows] at h1
  rw [read_data_input_of a n0 s0 K rows.flatten step group size rest hK h1]
  refine ⟨?_, List.sum_flatten, rfl, ?_⟩
  · intro i j hi hj
    have hb := tri_lt hi
    simp only [loaded]
    rw [if_pos (by omega)]
    exact h2 i j (by omega) hj
  · intro k hk
    simp only [loaded]
    rw [if_neg (by omega)]

theorem read_data_stores_rows_witness :
    ((3 : Int) ≤ 3) ∧
      (read_data table3_fixed 0 ⟨0, 0, 0⟩
        (input_of 3 [[5], [2, 5], [1, 1, 7]].flatten 1 2 10 ++ [])).total = 21 :=
  ⟨by decide, (read_data_stores_rows table3_fixed 0 ⟨0, 0, 0⟩ 3 [[5], [2, 5], [1, 1, 7]]
    1 2 10 [] (by decide) (by decide) (by decide)).2.1⟩


/-! ## The transition probabilities -/

theorem TRANS_pos {x : ℚ} (h : 0 < x) : 0 < TRANS x := by
  rw [TRANS_eq]
  have : 0 < min 1 x := lt_min one_pos h
  linarith

/-- C30: for all ratios `r1, r2 > 0`, `TRANS(r) = min(1,r)/2` satisfies
`0 < TRANS(r) <= 1/2` and `TRANS(r1) + TRANS(r2) <= 1`; so the three numbers `TRANS(r1)`,
`TRANS(r2)` and `1 - TRANS(r1) - TRANS(r2)` lie in `[0,1]` and sum to 1, and on a fully
switchable window with these ratios they are the lengths of the three intervals of the
draw `u` on which `cal_prob` performs the D-switch (`u <= TRANS(r1)`), the R-switch
(`TRANS(r1) < u <= TRANS(r1) + TRANS(r2)`) and no switch (`TRANS(r1) + TRANS(r2) < u`). -/
theorem TRANS_bounds (r1 r2 : ℚ) (h1 : 0 < r1) (h2 : 0 < r2) :
    (TRANS r1 = min 1 r1 / 2 ∧ 0 < TRANS r1 ∧ TRANS r1 ≤ 1 / 2) ∧
      (TRANS r2 = min 1 r2 / 2 ∧ 0 < TRANS r2 ∧ TRANS r2 ≤ 1 / 2) ∧
      TRANS r1 + TRANS r2 ≤ 1 ∧
      (0 ≤ 1 - TRANS r1 - TRANS r2 ∧ 1 - TRANS r1 - TRANS r2 ≤ 1) ∧
      TRANS r1 + TRANS r2 + (1 - TRANS r1 - TRANS r2) = 1 ∧
      (∀ (log : ℚ → ℚ) (a : Table) (index : Index) (ln_p_old u : ℚ) (locals : Switch),
        (test_switch a index locals).switch_ind = 2 →
        (test_switch a index locals).p1_rt = r1 →
        (test_switch a index locals).p2_rt = r2 →
          (u ≤ TRANS r1 →
            (cal_prob log a index ln_p_old u locals).a = do_switch a index 0) ∧
          (TRANS r1 < u → u ≤ TRANS r1 + TRANS r2 →
            (cal_prob log a index ln_p_old u locals).a = do_switch a index 1) ∧
          (TRANS r1 + TRANS r2 < u →
            (cal_prob log a index ln_p_old u locals).a = a)) := by
  have p1 := TRANS_pos h1
  have p2 := TRANS_pos h2
  have q1 := TRANS_le_half r1
  have q2 := TRANS_le_half r2
  refine ⟨⟨TRANS_eq r1, p1, q1⟩, ⟨TRANS_eq r2, p2, q2⟩, by linarith, ⟨by linarith, by linarith⟩,
    by ring, ?_⟩
  intro log a index ln_p_old u locals hs e1 e2
  rw [cal_prob_full log a index ln_p_old u locals hs, e1, e2]
  refine ⟨fun h => by rw [if_pos h], fun h h' => ?_, fun h => ?_⟩
  · rw [if_neg (not_le.2 h), if_pos h']
  · rw [if_neg (not_le.2 (by linarith)), if_neg (not_le.2 h)]

theorem TRANS_bounds_witness :
    ((0 : ℚ) < 25 / 3) ∧ ((0 : ℚ) < 1 / 72) ∧ TRANS (25 / 3) + TRANS (1 / 72) ≤ 1 :=
  ⟨by norm_num, by norm_num, (TRANS_bounds (25 / 3) (1 / 72) (by norm_num) (by norm_num)).2.2.1⟩

/-! ## The divisions of test_switch -/

theorem cst_pos (i1 i2 j1 j2 : Nat) : 0 < (select_index_of i1 i2 j1 j2).cst := by
  unfold select_index_of
  simp only
  split_ifs <;> positivity

theorem cst_values {i1 i2 j1 j2 : Nat} (hi : i1 < i2) (hj : j1 < j2) :
    (select_index_of i1 i2 j1 j2).cst = 1 / 2 ∨ 1 ≤ (select_index_of i1 i2 j1 j2).cst := by
  unfold select_index_of
  simp only
  split_ifs <;> first | contradiction | omega | norm_num

theorem p1_rt_pos (a : Table) (ha : ∀ k, 0 ≤ a k) (i1 i2 j1 j2 : Nat) (out : Switch)
    (hD : legalD a (select_index_of i1 i2 j1 j2)) :
    0 < (test_switch a (select_index_of i1 i2 j1 j2) out).p1_rt := by
  have hc := cst_pos i1 i2 j1 j2
  rw [test_switch_p1, if_pos hD]
  have hA : (0 : ℚ) < (a (L i1 j1) : ℚ) := by exact_mod_cast hD.1
  have hB : (0 : ℚ) < (a (L i2 j2) : ℚ) := by exact_mod_cast hD.2
  have hC : (0 : ℚ) ≤ (a (L i1 j2) : ℚ) := by exact_mod_cast ha _
  have hE : (0 : ℚ) ≤ (a (L i2 j1) : ℚ) := by exact_mod_cast ha _
  have f1 : (select_index_of i1 i2 j1 j2).i1 = i1 := rfl
  have f2 : (select_index_of i1 i2 j1 j2).i2 = i2 := rfl
  have f3 : (select_index_of i1 i2 j1 j2).j1 = j1 := rfl
  have f4 : (select_index_of i1 i2 j1 j2).j2 = j2 := rfl
  rw [f1, f2, f3, f4]
  split_ifs <;> positivity

theorem p2_rt_pos (a : Table) (ha : ∀ k, 0 ≤ a k) (i1 i2 j1 j2 : Nat) (out : Switch)
    (hR : legalR a (select_index_of i1 i2 j1 j2)) :
    0 < (test_switch a (select_index_of i1 i2 j1 j2) out).p2_rt := by
  have hc := cst_pos i1 i2 j1 j2
  rw [test_switch_p2, if_pos hR]
  have hA : (0 : ℚ) ≤ (a (L i1 j1) : ℚ) := by exact_mod_cast ha _
  have hB : (0 : ℚ) ≤ (a (L i2 j2) : ℚ) := by exact_mod_cast ha _
  have f1 : (select_index_of i1 i2 j1 j2).i1 = i1 := rfl
  have f2 : (select_index_of i1 i2 j1 j2).i2 = i2 := rfl
  have f3 : (select_index_of i1 i2 j1 j2).j1 = j1 := rfl
  have f4 : (select_index_of i1 i2 j1 j2).j2 = j2 := rfl
  unfold legalR at hR
  rw [f1, f2, f3, f4] at hR ⊢
  by_cases ht : (select_index_of i1 i2 j1 j2).type ≤ 1
  · rw [if_pos ht] at hR ⊢
    have hC : (0 : ℚ) < (a (L i1 j2) : ℚ) := by exact_mod_cast hR.1
    have hE : (0 : ℚ) < (a (L i2 j1) : ℚ) := by exact_mod_cast hR.2
    positivity
  · rw [if_neg ht] at hR ⊢
    have hC : (0 : ℚ) < (a (L i1 j2) : ℚ) := by
      have : (0 : Int) < a (L i1 j2) := by omega
      exact_mod_cast this
    have hE : (0 : ℚ) < ((a (L i1 j2) - 1 : Int) : ℚ) := by
      have : (0 : Int) < a (L i1 j2) - 1 := by omega
      exact_mod_cast this
    positivity

/-- The argument of `log` in a call of `cal_prob` that performs a switch is the ratio of
a legal direction. -/
theorem cal_prob_log_arg {R : Type} [Add R] (log : ℚ → R) (a : Table) (index : Index)
    (ln_p_old : R) (u : ℚ) (locals : Switch)
    (h : (cal_prob log a index ln_p_old u locals).actual_switch ≠ 0) :
    (legalD a index ∧
        (cal_prob log a index ln_p_old u locals).a = do_switch a index 0 ∧
        (cal_prob log a index ln_p_old u locals).ln_p_new =
          ln_p_old + log (test_switch a index locals).p1_rt) ∨
      (legalR a index ∧
        (cal_prob log a index ln_p_old u locals).a = do_switch a index 1 ∧
        (cal_prob log a index ln_p_old u locals).ln_p_new =
          ln_p_old + log (test_switch a index locals).p2_rt) := by
  have hi := test_switch_ind a index locals
  have ht := test_switch_type a index locals
  rcases test_switch_ind_cases a index locals with h0 | h1 | h2
  · rw [cal_prob_none log a index ln_p_old u locals h0] at h
    exact absurd rfl h
  · rw [cal_prob_partly log a index ln_p_old u locals h1] at h ⊢
    by_cases hu : u < TRANS (if (test_switch a index locals).switch_type = 1
        then (test_switch a index locals).p2_rt else (test_switch a index locals).p1_rt)
    · rw [if_pos hu]
      by_cases hD : legalD a index <;> by_cases hR : legalR a index <;>
        simp only [hD, hR, if_true, if_false] at hi ht <;>
        first
        | (rw [h1] at hi; exact absurd hi (by decide))
        | (right; rw [ht]; exact ⟨hR, rfl, by simp⟩)
        | (left; rw [ht]; exact ⟨hD, rfl, by simp⟩)
    · rw [if_neg hu] at h
      exact absurd rfl h
  · have hD : legalD a index := by
      by_contra hD
      rw [h2, if_neg hD] at hi
      split_ifs at hi <;> exact absurd hi (by decide)
    have hR : legalR a index := by
      by_contra hR
      rw [h2, if_neg hR, if_pos hD] at hi
      exact absurd hi (by decide)
    rw [cal_prob_full log a index ln_p_old u locals h2] at h ⊢
    by_cases hu : u ≤ TRANS (test_switch a index locals).p1_rt
    · rw [if_pos hu]; exact Or.inl ⟨hD, rfl, rfl⟩
    · rw [if_neg hu] at h ⊢
      by_cases hv : u ≤ TRANS (test_switch a index locals).p1_rt
          + TRANS (test_switch a index locals).p2_rt
      · rw [if_pos hv]; exact Or.inr ⟨hR, rfl, rfl⟩
      · rw [if_neg hv] at h
        exact absurd rfl h

/-- C29 (counterexample): on the table `[[5],[2,5],[1,1,5]]`, whose entries are `>= 0`,
and the window `0 1 / 1 2` the R-switch is legal and `test_switch` divides by
`index.cst = 1/2`, a divisor below 1. -/
theorem divisor_counterexample :
    (∀ k, 0 ≤ table3 k) ∧ legalR table3 (select_index_of 0 1 1 2) ∧
      (1 / 2 : ℚ) ∈ test_switch_divisors table3 (select_index_of 0 1 1 2) ∧
      ¬ (∀ d ∈ test_switch_divisors table3 (select_index_of 0 1 1 2), 1 ≤ d) := by
  have hm : (1 / 2 : ℚ) ∈ test_switch_divisors table3 (select_index_of 0 1 1 2) := by
    simp [test_switch_divisors, select_index_of, table3, L]
  refine ⟨table3_nonneg, by decide, hm, fun h => ?_⟩
  have := h _ hm
  norm_num at this

/-- C29 (amended): for every table with entries `>= 0` and every window `i1 < i2`,
`j1 < j2` classified by `select_index`, every division `test_switch` performs has a
divisor `> 0`: the divisors `1 + x` of `RATIO` are `>= 1` and the divisor `cst` is `1/2` or
`>= 1`.  Every ratio it computes for a legal direction is `> 0`, and when `cal_prob`
performs a switch the argument of `log` is such a ratio, so it is `> 0`. -/
theorem divisors_positive (a : Table) (ha : ∀ k, 0 ≤ a k) (i1 i2 j1 j2 : Nat)
    (hi : i1 < i2) (hj : j1 < j2) (out : Switch) :
    (∀ d ∈ test_switch_divisors a (select_index_of i1 i2 j1 j2), 0 < d ∧ (1 ≤ d ∨ d = 1 / 2)) ∧
      (legalD a (select_index_of i1 i2 j1 j2) →
        0 < (test_switch a (select_index_of i1 i2 j1 j2) out).p1_rt) ∧
      (legalR a (select_index_of i1 i2 j1 j2) →
        0 < (test_switch a (select_index_of i1 i2 j1 j2) out).p2_rt) ∧
      (∀ (log : ℚ → ℚ) (ln_p_old u : ℚ),
        (cal_prob log a (select_index_of i1 i2 j1 j2) ln_p_old u out).actual_switch ≠ 0 →
        ∃ r : ℚ, 0 < r ∧
          (cal_prob log a (select_index_of i1 i2 j1 j2) ln_p_old u out).ln_p_new =
            ln_p_old + log r) := by
  refine ⟨?_, p1_rt_pos a ha i1 i2 j1 j2 out, p2_rt_pos a ha i1 i2 j1 j2 out, ?_⟩
  · have hc := cst_pos i1 i2 j1 j2
    have hv := cst_values hi hj
    have hx : ∀ k, (0 : ℚ) ≤ (a k : ℚ) := fun k => by exact_mod_cast ha k
    have hone : ∀ x : ℚ, 0 ≤ x → 0 < 1 + x ∧ (1 ≤ 1 + x ∨ 1 + x = 1 / 2) :=
      fun x hx => ⟨by linarith, Or.inl (by linarith)⟩
    have hcst : 0 < (select_index_of i1 i2 j1 j2).cst ∧
        (1 ≤ (select_index_of i1 i2 j1 j2).cst ∨ (select_index_of i1 i2 j1 j2).cst = 1 / 2) :=
      ⟨hc, hv.symm⟩
    have hx1 : ∀ k, (0 : ℚ) ≤ (a k : ℚ) + 1 := fun k => by linarith [hx k]
    unfold test_switch_divisors
    simp only
    split_ifs <;>
      simp only [List.forall_mem_append, List.forall_mem_cons, List.not_mem_nil,
        false_imp_iff, implies_true, and_true, true_and] <;>
      repeat' (first | exact hcst | exact hone _ (hx _) | exact hone _ (hx1 _) | constructor)
  · intro log ln_p_old u h
    rcases cal_prob_log_arg log a _ ln_p_old u out h with ⟨hD, _, e⟩ | ⟨hR, _, e⟩
    · exact ⟨_, p1_rt_pos a ha i1 i2 j1 j2 out hD, e⟩
    · exact ⟨_, p2_rt_pos a ha i1 i2 j1 j2 out hR, e⟩

theorem divisors_positive_witness :
    (∀ k, 0 ≤ table3 k) ∧ ((0 : Nat) < 1) ∧ ((1 : Nat) < 2) ∧
      0 < (test_switch table3 (select_index_of 0 1 1 2) ⟨0, 0, 0, 0⟩).p2_rt :=
  ⟨table3_nonneg, by decide, by decide,
    (divisors_positive table3 table3_nonneg 0 1 1 2 (by decide) (by decide)
      ⟨0, 0, 0, 0⟩).2.2.1 (by decide)⟩


/-! ## The log-probability of a table -/

theorem log_factorial_nat (k : Nat) : ∀ fuel : Nat, k < fuel →
    log_factorial (fun q : ℚ => Real.log (q : ℝ)) fuel (k : Int) =
      some (Real.log (k.factorial : ℝ)) := by
  induction k with
  | zero =>
    intro fuel h
    obtain ⟨f, rfl⟩ : ∃ f, fuel = f + 1 := ⟨fuel - 1, by omega⟩
    simp [log_factorial]
  | succ k ih =>
    intro fuel h
    obtain ⟨f, rfl⟩ : ∃ f, fuel = f + 1 := ⟨fuel - 1, by omega⟩
    have h0 : ((k + 1 : Nat) : Int) ≠ 0 := by omega
    have h1 : ((k + 1 : Nat) : Int) - 1 = (k : Int) := by omega
    rw [log_factorial, if_neg h0, h1, ih f (by omega)]
    simp only [Option.map_some']
    congr 1
    have hk : ((k : ℝ) + 1) ≠ 0 := by positivity
    have hf : ((k.factorial : Nat) : ℝ) ≠ 0 := by positivity
    rw [Nat.factorial_succ]
    push_cast
    rw [Real.log_mul hk hf]

theorem log_factorial_int (z : Int) (hz : 0 ≤ z) (fuel : Nat) (h : z.toNat < fuel) :
    log_factorial (fun q : ℚ => Real.log (q : ℝ)) fuel z =
      some (Real.log (z.toNat.factorial : ℝ)) := by
  have := log_factorial_nat z.toNat fuel h
  rwa [Int.toNat_of_nonneg hz] at this

theorem cal_const_fold {R : Type} [Ring R] (log : ℚ → R) (fuel : Nat) (n : Nat → Int)
    (F : Int → R) : ∀ K : Nat,
      (∀ i, i < K → log_factorial log fuel (n i) = some (F (n i))) → ∀ c : R,
        (List.range K).foldl (fun c i => dadd c (log_factorial log fuel (n i))) (some c) =
          some (c + ∑ i ∈ Finset.range K, F (n i)) := by
  intro K
  induction K with
  | zero => intro _ c; simp
  | succ K ih =>
    intro h c
    rw [List.range_succ, List.foldl_append, ih (fun i hi => h i (by omega)) c]
    simp only [List.foldl_cons, List.foldl_nil]
    rw [h K (by omega), Finset.sum_range_succ]
    simp only [dadd]
    congr 1
    abel

theorem ln_p_row {R : Type} [Ring R] (log : ℚ → R) (fuel : Nat) (a : Table) (F : Int → R)
    (i : Nat) : ∀ n : Nat,
      (∀ j, j < n → log_factorial log fuel (a (LL i j)) = some (F (a (LL i j)))) →
      ∀ (t : Int) (c : R),
        (List.range n).foldl
            (fun s j => (s.1 + a (LL i j), dsub s.2 (log_factorial log fuel (a (LL i j)))))
            (t, some c) =
          (t + ∑ j ∈ Finset.range n, a (LL i j),
            some (c - ∑ j ∈ Finset.range n, F (a (LL i j)))) := by
  intro n
  induction n with
  | zero => intro _ t c; simp
  | succ n ih =>
    intro h t c
    rw [List.range_succ, List.foldl_append, ih (fun j hj => h j (by omega)) t c]
    simp only [List.foldl_cons, List.foldl_nil]
    rw [h n (by omega), Finset.sum_range_succ, Finset.sum_range_succ]
    simp only [dsub]
    refine Prod.ext (by simp only; ring) ?_
    simp only
    congr 1
    abel

theorem ln_p_rows {R : Type} [Ring R] (log : ℚ → R) (fuel : Nat) (a : Table) (F : Int → R) :
    ∀ K : Nat,
      (∀ i, i < K → ∀ j, j ≤ i → log_factorial log fuel (a (LL i j)) = some (F (a (LL i j)))) →
      ∀ c : R,
        (List.range K).foldl
            (fun s i =>
              let s1 := (List.range i).foldl
                (fun s j => (s.1 + a (LL i j), dsub s.2 (log_factorial log fuel (a (LL i j)))))
                s
              (s1.1, dsub s1.2 (log_factorial log fuel (a (LL i i)))))
            ((0 : Int), some c) =
          (offDiag K a,
            some (c - ∑ i ∈ Finset.range K,
              (∑ j ∈ Finset.range i, F (a (LL i j)) + F (a (LL i i))))) := by
  intro K
  induction K with
  | zero => intro _ c; simp [offDiag]
  | succ K ih =>
    intro h c
    rw [List.range_succ, List.foldl_append, ih (fun i hi j hj => h i (by omega) j hj) c]
    simp only [List.foldl_cons, List.foldl_nil]
    rw [ln_p_row log fuel a F K K (fun j hj => h K (by omega) j (by omega)),
      h K (by omega) K (le_refl _)]
    simp only [dsub]
    refine Prod.ext (by simp only [offDiag]; rw [Finset.sum_range_succ]) ?_
    simp only
    congr 1
    rw [Finset.sum_range_succ]
    abel

theorem ln_p_value_eq {R : Type} [Ring R] (log : ℚ → R) (fuel : Nat) (a : Table)
    (F : Int → R) (K : Nat)
    (h : ∀ i, i < K → ∀ j, j ≤ i →
      log_factorial log fuel (a (LL i j)) = some (F (a (LL i j)))) (c : R) :
    ln_p_value log fuel a K c =
      some (c - ∑ i ∈ Finset.range K,
          (∑ j ∈ Finset.range i, F (a (LL i j)) + F (a (LL i i)))
        + (offDiag K a : R) * log 2) := by
  unfold ln_p_value
  simp only
  rw [ln_p_rows log fuel a F K h c]
  rfl

theorem LL_lt_tri {K i j : Nat} (hi : i < K) (hj : j ≤ i) : LL i j < K * (K + 1) / 2 := by
  have := tri_lt hi
  unfold LL
  omega

/-- A depth of recursion that suffices for every call of `log_factorial` on the cells of
the triangle. -/
theorem cells_fuel (a : Table) (ha : ∀ k, 0 ≤ a k) (K fuel : Nat)
    (hf : ∑ k ∈ Finset.range (K * (K + 1) / 2), (a k).toNat < fuel) :
    ∀ i, i < K → ∀ j, j ≤ i →
      log_factorial (fun q : ℚ => Real.log (q : ℝ)) fuel (a (LL i j)) =
        some (Real.log ((a (LL i j)).toNat.factorial : ℝ)) := by
  intro i hi j hj
  apply log_factorial_int _ (ha _)
  have hmem : LL i j ∈ Finset.range (K * (K + 1) / 2) :=
    Finset.mem_range.2 (LL_lt_tri hi hj)
  have := Finset.single_le_sum (f := fun k => (a k).toNat) (fun k _ => Nat.zero_le _) hmem
  simp only at this
  omega

theorem cal_n_nonneg (K : Nat) (a : Table) (ha : ∀ k, 0 ≤ a k) (n0 : Nat → Int) (i : Nat)
    (hi : i < K) : 0 ≤ cal_n K a n0 i := by
  rw [cal_n_apply, if_pos hi, cal_n_row_eq]
  exact add_nonneg (ha _) (Finset.sum_nonneg (fun j _ => ha _))

/-- C28: for every table with entries `>= 0` and every `N >= 0`, in particular the total
of the table, `ln_p_value(a, K, cal_const(K, n, N))` with `n` computed by `cal_n` returns,
once the depth allowed to `log_factorial` is large enough,
`log N! - log (2N)! + sum_i log n_i! - sum_{i>j} log a_ij! - sum_i log a_ii!
 + (sum_{i>j} a_ij) * log 2` over the reals, where `n_i = a_ii + sum_j a(i,j)`. -/
theorem ln_p_value_formula (K : Nat) (a : Table) (ha : ∀ k, 0 ≤ a k) (n0 : Nat → Int)
    (N : Int) (hN : 0 ≤ N) :
    (∀ i, i < K → cal_n K a n0 i = a (LL i i) + ∑ j ∈ Finset.range K, a (L i j)) ∧
    ∃ fuel0 : Nat, ∀ fuel : Nat, fuel0 ≤ fuel →
      ln_p_table (fun q : ℚ => Real.log (q : ℝ)) fuel a K n0 N =
        some (Real.log (N.toNat.factorial : ℝ) - Real.log ((2 * N).toNat.factorial : ℝ)
          + ∑ i ∈ Finset.range K, Real.log ((cal_n K a n0 i).toNat.factorial : ℝ)
          - ∑ i ∈ Finset.range K, ∑ j ∈ Finset.range i,
              Real.log ((a (LL i j)).toNat.factorial : ℝ)
          - ∑ i ∈ Finset.range K, Real.log ((a (LL i i)).toNat.factorial : ℝ)
          + ((∑ i ∈ Finset.range K, ∑ j ∈ Finset.range i, a (LL i j) : Int) : ℝ)
            * Real.log 2) := by
  refine ⟨fun i hi => by rw [cal_n_apply, if_pos hi, cal_n_row_eq], ?_⟩
  refine ⟨(2 * N).toNat + ∑ i ∈ Finset.range K, (cal_n K a n0 i).toNat
    + ∑ k ∈ Finset.range (K * (K + 1) / 2), (a k).toNat + 1, ?_⟩
  intro fuel hfuel
  have h1 := log_factorial_int N hN fuel (by omega)
  have h2 := log_factorial_int (2 * N) (by omega) fuel (by omega)
  have h3 : ∀ i, i < K →
      log_factorial (fun q : ℚ => Real.log (q : ℝ)) fuel (cal_n K a n0 i) =
        some ((fun z : Int => Real.log (z.toNat.factorial : ℝ)) (cal_n K a n0 i)) := by
    intro i hi
    apply log_factorial_int _ (cal_n_nonneg K a ha n0 i hi)
    have := Finset.single_le_sum (f := fun i => (cal_n K a n0 i).toNat)
      (fun k _ => Nat.zero_le _) (Finset.mem_range.2 hi)
    simp only at this
    omega
  have h4 := cells_fuel a ha K fuel (by omega)
  unfold ln_p_table cal_const
  simp only
  rw [h1, h2]
  simp only [dsub]
  rw [cal_const_fold _ fuel _ (fun z : Int => Real.log (z.toNat.factorial : ℝ)) K h3]
  simp only
  rw [ln_p_value_eq _ fuel a (fun z : Int => Real.log (z.toNat.factorial : ℝ)) K h4]
  congr 1
  simp only [offDiag, Finset.sum_add_distrib, Rat.cast_ofNat]
  ring

theorem ln_p_value_formula_witness :
    (∀ k, 0 ≤ table3 k) ∧ ((0 : Int) ≤ 19) ∧
      ∃ (fuel0 : Nat) (x : ℝ), ∀ fuel : Nat, fuel0 ≤ fuel →
        ln_p_table (fun q : ℚ => Real.log (q : ℝ)) fuel table3 3 (fun _ => 0) 19 = some x :=
  ⟨table3_nonneg, by decide,
    (ln_p_value_formula 3 table3 table3_nonneg (fun _ => 0) 19 (by decide)).2.elim
      (fun f h => ⟨f, _, h⟩)⟩

/-! ## The chain carries the log-probability -/

theorem W_pos (K : Nat) (a : Table) : 0 < W K a := by
  unfold W
  exact div_pos (zpow_pos (by norm_num) _)
    (Finset.prod_pos (fun i _ => Finset.prod_pos (fun j _ => fq_pos _)))

/-- The D-switch ratio of `test_switch` on a window where the D-switch is legal is the
factor by which the switch changes `W`. -/
theorem ratio_D_legal {K : Nat} (a : Table) (ha : ∀ k, 0 ≤ a k) (i1 i2 j1 j2 : Nat)
    (hi : i1 < i2) (hj : j1 < j2) (hiK : i2 < K) (hjK : j2 < K) (out : Switch)
    (hD : legalD a (select_index_of i1 i2 j1 j2)) :
    (test_switch a (select_index_of i1 i2 j1 j2) out).p1_rt * W K a =
      W K (do_switch a (select_index_of i1 i2 j1 j2) 0) := by
  rw [test_switch_p1, if_pos hD]
  by_cases ht : (select_index_of i1 i2 j1 j2).type ≤ 1
  · rw [if_pos ht]
    exact ratio_D_four a ha i1 i2 j1 j2 hi hj hiK hjK
      (fun h => (select_index_of_type_le_one hi hj).1 ht ((window_C_eq_D_iff hi hj).1 h))
      hD.1 hD.2
  · rw [if_neg ht]
    refine ratio_D_three a ha i1 i2 j1 j2 hi hj hiK hjK ?_ hD.1 hD.2
    apply (window_C_eq_D_iff hi hj).2
    by_contra hc
    exact ht ((select_index_of_type_le_one hi hj).2 hc)

/-- The R-switch ratio of `test_switch` on a window where the R-switch is legal is the
factor by which the switch changes `W`. -/
theorem ratio_R_legal {K : Nat} (a : Table) (ha : ∀ k, 0 ≤ a k) (i1 i2 j1 j2 : Nat)
    (hi : i1 < i2) (hj : j1 < j2) (hiK : i2 < K) (hjK : j2 < K) (out : Switch)
    (hR : legalR a (select_index_of i1 i2 j1 j2)) :
    (test_switch a (select_index_of i1 i2 j1 j2) out).p2_rt * W K a =
      W K (do_switch a (select_index_of i1 i2 j1 j2) 1) := by
  rw [test_switch_p2, if_pos hR]
  unfold legalR at hR
  by_cases ht : (select_index_of i1 i2 j1 j2).type ≤ 1
  · rw [if_pos ht] at hR ⊢
    exact ratio_R_four a ha i1 i2 j1 j2 hi hj hiK hjK
      (fun h => (select_index_of_type_le_one hi hj).1 ht ((window_C_eq_D_iff hi hj).1 h))
      hR.1 hR.2
  · rw [if_neg ht] at hR ⊢
    refine ratio_R_three a ha i1 i2 j1 j2 hi hj hiK hjK ?_ hR
    apply (window_C_eq_D_iff hi hj).2
    by_contra hc
    exact ht ((select_index_of_type_le_one hi hj).2 hc)

theorem do_switch_R_legal_nonneg (a : Table) (ha : ∀ k, 0 ≤ a k) (i1 i2 j1 j2 : Nat)
    (hi : i1 < i2) (hj : j1 < j2) (hR : legalR a (select_index_of i1 i2 j1 j2)) (k : Nat) :
    0 ≤ do_switch a (select_index_of i1 i2 j1 j2) 1 k := by
  refine do_switch_R_nonneg a _ ha ?_ k
  unfold legalR at hR
  by_cases ht : (select_index_of i1 i2 j1 j2).type ≤ 1
  · rw [if_pos ht] at hR
    exact Or.inl ⟨fun hCD =>
      (select_index_of_type_le_one hi hj).1 ht ((window_C_eq_D_iff hi hj).1 hCD), hR⟩
  · rw [if_neg ht] at hR
    refine Or.inr ⟨(window_C_eq_D_iff hi hj).2 ?_, hR⟩
    by_contra hc
    exact ht ((select_index_of_type_le_one hi hj).2 hc)

/-- A call of `cal_prob` that reports no switch leaves the table and the log-probability
as they were. -/
theorem cal_prob_stay {R : Type} [Add R] (log : ℚ → R) (a : Table) (index : Index)
    (ln_p_old : R) (u : ℚ) (locals : Switch)
    (h : (cal_prob log a index ln_p_old u locals).actual_switch = 0) :
    (cal_prob log a index ln_p_old u locals).a = a ∧
      (cal_prob log a index ln_p_old u locals).ln_p_new = ln_p_old := by
  rcases test_switch_ind_cases a index locals with h0 | h1 | h2
  · rw [cal_prob_none log a index ln_p_old u locals h0]
    exact ⟨rfl, rfl⟩
  · rw [cal_prob_partly log a index ln_p_old u locals h1] at h ⊢
    split_ifs at h ⊢ <;>
      first
      | exact ⟨rfl, rfl⟩
      | exact absurd (show (1 : Int) = 0 from h) (by decide)
  · rw [cal_prob_full log a index ln_p_old u locals h2] at h ⊢
    split_ifs at h ⊢ <;>
      first
      | exact ⟨rfl, rfl⟩
      | exact absurd (show (2 : Int) = 0 from h) (by decide)

theorem log_ratio {p w w' : ℚ} (hw : 0 < w) (hw' : 0 < w') (h : p * w = w') :
    Real.log (p : ℝ) = Real.log (w' : ℝ) - Real.log (w : ℝ) := by
  have hp : 0 < p := by
    by_contra hc
    have : p * w ≤ 0 := mul_nonpos_of_nonpos_of_nonneg (not_lt.1 hc) (le_of_lt hw)
    linarith
  have hpR : ((p : ℝ)) ≠ 0 := by exact_mod_cast ne_of_gt hp
  have hwR : ((w : ℝ)) ≠ 0 := by exact_mod_cast ne_of_gt hw
  have e : ((w' : ℝ)) = (p : ℝ) * (w : ℝ) := by exact_mod_cast h.symm
  rw [e, Real.log_mul hpR hwR]
  ring

/-- One call of `cal_prob` with the real logarithm: the entries stay `>= 0` and the
difference between the log-probability it carries and `log W` of the table is kept. -/
theorem cal_prob_log_W {K : Nat} (a : Table) (ha : ∀ k, 0 ≤ a k) (i1 i2 j1 j2 : Nat)
    (hi : i1 < i2) (hj : j1 < j2) (hiK : i2 < K) (hjK : j2 < K) (lnp : ℝ) (u : ℚ)
    (locals : Switch) :
    (∀ k, 0 ≤ (cal_prob (fun q : ℚ => Real.log (q : ℝ)) a (select_index_of i1 i2 j1 j2)
        lnp u locals).a k) ∧
      (cal_prob (fun q : ℚ => Real.log (q : ℝ)) a (select_index_of i1 i2 j1 j2)
          lnp u locals).ln_p_new
        - Real.log ((W K (cal_prob (fun q : ℚ => Real.log (q : ℝ)) a
            (select_index_of i1 i2 j1 j2) lnp u locals).a : ℚ) : ℝ)
        = lnp - Real.log ((W K a : ℚ) : ℝ) := by
  by_cases h : (cal_prob (fun q : ℚ => Real.log (q : ℝ)) a (select_index_of i1 i2 j1 j2)
      lnp u locals).actual_switch = 0
  · obtain ⟨e1, e2⟩ := cal_prob_stay _ a _ lnp u locals h
    rw [e1, e2]
    exact ⟨ha, rfl⟩
  · rcases cal_prob_log_arg _ a _ lnp u locals h with ⟨hD, e1, e2⟩ | ⟨hR, e1, e2⟩
    · rw [e1, e2]
      refine ⟨do_switch_D_nonneg a _ ha (window_A_ne_B hi hj) hD, ?_⟩
      have := log_ratio (W_pos K a) (W_pos K _)
        (ratio_D_legal a ha i1 i2 j1 j2 hi hj hiK hjK locals hD)
      simp only at this ⊢
      linarith
    · rw [e1, e2]
      refine ⟨do_switch_R_legal_nonneg a ha i1 i2 j1 j2 hi hj hR, ?_⟩
      have := log_ratio (W_pos K a) (W_pos K _)
        (ratio_R_legal a ha i1 i2 j1 j2 hi hj hiK hjK locals hR)
      simp only at this ⊢
      linarith


theorem log_W (K : Nat) (a : Table) :
    Real.log ((W K a : ℚ) : ℝ) =
      (offDiag K a : ℝ) * Real.log 2
        - ∑ i ∈ Finset.range K,
            (∑ j ∈ Finset.range i, Real.log ((a (LL i j)).toNat.factorial : ℝ)
              + Real.log ((a (LL i i)).toNat.factorial : ℝ)) := by
  have hq : ∀ z : Int, ((fq z : ℚ) : ℝ) = (z.toNat.factorial : ℝ) := by
    intro z; unfold fq; push_cast; rfl
  have hne : ∀ z : Int, ((fq z : ℚ) : ℝ) ≠ 0 := by
    intro z; rw [hq]; positivity
  unfold W
  push_cast
  rw [Real.log_div (zpow_ne_zero _ (by norm_num))
      (Finset.prod_ne_zero_iff.2 (fun i _ => Finset.prod_ne_zero_iff.2 (fun j _ => hne _))),
    Real.log_zpow, Real.log_prod _ _ (fun i _ => Finset.prod_ne_zero_iff.2 (fun j _ => hne _))]
  congr 1
  apply Finset.sum_congr rfl
  intro i _
  rw [Real.log_prod _ _ (fun j _ => hne _), Finset.sum_range_succ]
  simp only [hq]

theorem ln_p_value_log_W (K : Nat) (a : Table) (ha : ∀ k, 0 ≤ a k) (fuel : Nat)
    (hf : ∑ k ∈ Finset.range (K * (K + 1) / 2), (a k).toNat < fuel) (constant : ℝ) :
    ln_p_value (fun q : ℚ => Real.log (q : ℝ)) fuel a K constant =
      some (constant + Real.log ((W K a : ℚ) : ℝ)) := by
  rw [ln_p_value_eq _ fuel a (fun z : Int => Real.log (z.toNat.factorial : ℝ)) K
    (cells_fuel a ha K fuel hf), log_W]
  congr 1
  push_cast
  ring

theorem iteration_log_W {K : Nat} (hK : 2 ≤ K) (draws : Nat → Draw)
    (hd : ∀ n, (draws n).unit) (c : Chain ℝ) (hc : ∀ k, 0 ≤ c.a k) :
    (∀ k, 0 ≤ (iteration (fun q : ℚ => Real.log (q : ℝ)) K draws c).a k) ∧
      (iteration (fun q : ℚ => Real.log (q : ℝ)) K draws c).ln_p_simulated
        - Real.log ((W K (iteration (fun q : ℚ => Real.log (q : ℝ)) K draws c).a : ℚ) : ℝ)
        = c.ln_p_simulated - Real.log ((W K c.a : ℚ) : ℝ) := by
  obtain ⟨i1, i2, j1, j2, hi, hiK, hj, hjK, e⟩ := select_index_window hK (draws c.done) (hd _)
  have h := @cal_prob_log_W K c.a hc i1 i2 j1 j2 hi hj hiK hjK c.ln_p_simulated
    (draws c.done).rand_num (draws c.done).locals
  unfold iteration
  simp only [e]
  exact h

theorem dememorize_log_W {K : Nat} (hK : 2 ≤ K) (draws : Nat → Draw)
    (hd : ∀ n, (draws n).unit) (n : Nat) : ∀ c : Chain ℝ, (∀ k, 0 ≤ c.a k) →
      (∀ k, 0 ≤ (dememorize (fun q : ℚ => Real.log (q : ℝ)) K draws n c).a k) ∧
        (dememorize (fun q : ℚ => Real.log (q : ℝ)) K draws n c).ln_p_simulated
          - Real.log
              ((W K (dememorize (fun q : ℚ => Real.log (q : ℝ)) K draws n c).a : ℚ) : ℝ)
          = c.ln_p_simulated - Real.log ((W K c.a : ℚ) : ℝ) := by
  induction n with
  | zero => intro c hc; exact ⟨hc, rfl⟩
  | succ n ih =>
    intro c hc
    obtain ⟨h1, h2⟩ := iteration_log_W hK draws hd c hc
    obtain ⟨h3, h4⟩ := ih _ h1
    exact ⟨h3, h4.trans h2⟩

theorem dememorize_succ_last {R : Type} [Add R] (log : ℚ → R) (K : Nat) (draws : Nat → Draw)
    (n : Nat) : ∀ c : Chain R,
      dememorize log K draws (n + 1) c = iteration log K draws (dememorize log K draws n c) := by
  induction n with
  | zero => intro c; rfl
  | succ n ih =>
    intro c
    exact ih (iteration log K draws c)

/-- In exact real arithmetic: start the chain on the observed table `a0` (entries `>= 0`)
with `ln_p_simulated = ln_p_observed = 0`, as `main` does, and let `c` be its state after
any number `m` of iterations (`select_index` and `cal_prob`), in either loop.  With the
real logarithm, unrounded sums and any `constant`, `ln_p_value` returns a value `x` on the
current table and `x0` on `a0` (once the depth allowed to `log_factorial` is large
enough), `ln_p_simulated = x - x0`, and the test `ln_p_simulated <= ln_p_observed` holds
iff `x <= x0`.  In the arithmetic of `double` the test can fail on the observed table
itself. -/
theorem counted_iff_log_probability_le (K : Nat) (hK : 2 ≤ K) (a0 : Table)
    (ha : ∀ k, 0 ≤ a0 k) (draws : Nat → Draw) (hd : ∀ n, (draws n).unit)
    (swch : Nat → Int) (constant : ℝ) (m : Nat) :
    ∃ fuel0 : Nat, ∀ fuel : Nat, fuel0 ≤ fuel → ∃ x x0 : ℝ,
      ln_p_value (fun q : ℚ => Real.log (q : ℝ)) fuel
          (dememorize (fun q : ℚ => Real.log (q : ℝ)) K draws m ⟨a0, 0, swch, 0⟩).a K
          constant = some x ∧
        ln_p_value (fun q : ℚ => Real.log (q : ℝ)) fuel a0 K constant = some x0 ∧
        (dememorize (fun q : ℚ => Real.log (q : ℝ)) K draws m
          ⟨a0, 0, swch, 0⟩).ln_p_simulated = x - x0 ∧
        ((dememorize (fun q : ℚ => Real.log (q : ℝ)) K draws m
          ⟨a0, 0, swch, 0⟩).ln_p_simulated ≤ 0 ↔ x ≤ x0) ∧
        (∀ (m' : Nat) (counter : Int), m = m' + 1 →
          batch (fun q : ℚ => Real.log (q : ℝ)) K draws 0 1
              (dememorize (fun q : ℚ => Real.log (q : ℝ)) K draws m' ⟨a0, 0, swch, 0⟩,
                counter) =
            (dememorize (fun q : ℚ => Real.log (q : ℝ)) K draws m ⟨a0, 0, swch, 0⟩,
              if x ≤ x0 then counter + 1 else counter)) := by
  obtain ⟨hc, hinv⟩ := dememorize_log_W hK draws hd m ⟨a0, 0, swch, 0⟩ ha
  refine ⟨∑ k ∈ Finset.range (K * (K + 1) / 2),
      ((dememorize (fun q : ℚ => Real.log (q : ℝ)) K draws m ⟨a0, 0, swch, 0⟩).a k).toNat
    + ∑ k ∈ Finset.range (K * (K + 1) / 2), (a0 k).toNat + 1, ?_⟩
  intro fuel hfuel
  have e1 := ln_p_value_log_W K _ hc fuel (by omega) constant
  have e0 := ln_p_value_log_W K a0 ha fuel (by omega) constant
  simp only at hinv
  have hdiff : (dememorize (fun q : ℚ => Real.log (q : ℝ)) K draws m
      ⟨a0, 0, swch, 0⟩).ln_p_simulated =
      constant + Real.log ((W K (dememorize (fun q : ℚ => Real.log (q : ℝ)) K draws m
        ⟨a0, 0, swch, 0⟩).a : ℚ) : ℝ) - (constant + Real.log ((W K a0 : ℚ) : ℝ)) := by
    linarith
  have hiff : (dememorize (fun q : ℚ => Real.log (q : ℝ)) K draws m
      ⟨a0, 0, swch, 0⟩).ln_p_simulated ≤ 0 ↔
      constant + Real.log ((W K (dememorize (fun q : ℚ => Real.log (q : ℝ)) K draws m
        ⟨a0, 0, swch, 0⟩).a : ℚ) : ℝ) ≤ constant + Real.log ((W K a0 : ℚ) : ℝ) := by
    rw [hdiff]
    exact sub_nonpos
  refine ⟨_, _, e1, e0, hdiff, hiff, ?_⟩
  intro m' counter hm
  subst hm
  rw [dememorize_succ_last] at hiff ⊢
  simp only [batch]
  by_cases h : (iteration (fun q : ℚ => Real.log (q : ℝ)) K draws
      (dememorize (fun q : ℚ => Real.log (q : ℝ)) K draws m' ⟨a0, 0, swch, 0⟩)).ln_p_simulated ≤ 0
  · rw [if_pos h, if_pos (hiff.1 h)]
  · rw [if_neg h, if_neg (fun h' => h (hiff.2 h'))]

theorem counted_iff_log_probability_le_witness :
    ((2 : Nat) ≤ 3) ∧ (∀ k, 0 ≤ table3 k) ∧ (∀ n : Nat, ((fun _ => draw_half) n).unit) ∧
      ∃ fuel0 : Nat, ∀ fuel : Nat, fuel0 ≤ fuel → ∃ x x0 : ℝ,
        ln_p_value (fun q : ℚ => Real.log (q : ℝ)) fuel
            (dememorize (fun q : ℚ => Real.log (q : ℝ)) 3 (fun _ => draw_half) 1
              ⟨table3, 0, fun _ => 0, 0⟩).a 3 0 = some x ∧
          ln_p_value (fun q : ℚ => Real.log (q : ℝ)) fuel table3 3 0 = some x0 ∧
          ((dememorize (fun q : ℚ => Real.log (q : ℝ)) 3 (fun _ => draw_half) 1
            ⟨table3, 0, fun _ => 0, 0⟩).ln_p_simulated ≤ 0 ↔ x ≤ x0) :=
  ⟨by decide, table3_nonneg, fun _ => by unfold Draw.unit draw_half; norm_num,
    (counted_iff_log_probability_le 3 (by decide) table3 table3_nonneg (fun _ => draw_half)
      (fun _ => by unfold Draw.unit draw_half; norm_num) (fun _ => 0) 0 1).imp
      (fun _ h fuel hf => (h fuel hf).imp
        (fun _ hx => hx.imp (fun _ hx0 => ⟨hx0.1, hx0.2.1, hx0.2.2.2.1⟩)))⟩


/-! ## Cell addresses stay inside the table -/

/-- C36: for every `K` and all `0 <= b <= a < K`, `L(a,b) = a(a+1)/2 + b` lies below
`K(K+1)/2`, and `L` is injective on such canonical pairs; hence for `K <= MAX_ALLELE = 20`
every index used by `do_switch` and `test_switch` (the four cells of a window below `K`)
and by `cal_n` (`LL(i,i)` and `L(i,j)` for `i, j < K`) is below `LENGTH = 210`. -/
theorem cell_index_bounds (K : Nat) :
    (∀ a b, b ≤ a → a < K → L a b = a * (a + 1) / 2 + b ∧ L a b < K * (K + 1) / 2) ∧
      (∀ a b c d, b ≤ a → a < K → d ≤ c → c < K → L a b = L c d → a = c ∧ b = d) ∧
      (K ≤ MAX_ALLELE →
        LENGTH = 210 ∧ K * (K + 1) / 2 ≤ LENGTH ∧
        (∀ index : Index, index.below K →
          L index.i1 index.j1 < LENGTH ∧ L index.i2 index.j2 < LENGTH ∧
            L index.i1 index.j2 < LENGTH ∧ L index.i2 index.j1 < LENGTH) ∧
        (∀ i j, i < K → j < K → LL i i < LENGTH ∧ L i j < LENGTH)) := by
  refine ⟨?_, ?_, ?_⟩
  · intro a b hb ha
    have h : L a b = a * (a + 1) / 2 + b := by
      unfold L
      rw [if_neg (by omega)]
    exact ⟨h, L_lt_tri ha (by omega)⟩
  · intro a b c d hb _ hd _ h
    rcases (L_eq_iff a b c d).1 h with h1 | h1
    · exact h1
    · omega
  · intro hK
    refine ⟨by decide, ?_, ?_, ?_⟩
    · have := tri_mono hK
      have h20 : MAX_ALLELE * (MAX_ALLELE + 1) / 2 = LENGTH := rfl
      omega
    · intro index hb
      exact ⟨L_lt_LENGTH hK hb.1 hb.2.2.1, L_lt_LENGTH hK hb.2.1 hb.2.2.2,
        L_lt_LENGTH hK hb.1 hb.2.2.2, L_lt_LENGTH hK hb.2.1 hb.2.2.1⟩
    · intro i j hi hj
      refine ⟨?_, L_lt_LENGTH hK hi hj⟩
      rw [LL_self]
      exact L_lt_LENGTH hK hi hi

theorem cell_index_bounds_witness :
    ((20 : Nat) ≤ MAX_ALLELE) ∧ ((19 : Nat) ≤ 19) ∧ L 19 19 = 19 * (19 + 1) / 2 + 19 ∧
      L 19 19 < 20 * (20 + 1) / 2 ∧ 20 * (20 + 1) / 2 ≤ LENGTH :=
  ⟨by decide, by decide, ((cell_index_bounds 20).1 19 19 (by decide) (by decide)).1,
    ((cell_index_bounds 20).1 19 19 (by decide) (by decide)).2,
    ((cell_index_bounds 20).2.2 (by decide)).2.1⟩

/-! ## The allele counts -/

theorem double_sum_symm (f : Nat → Nat → Int) (hf : ∀ i j, f i j = f j i) (K : Nat) :
    ∑ i ∈ Finset.range K, ∑ j ∈ Finset.range K, f i j =
      ∑ i ∈ Finset.range K, f i i + 2 * ∑ i ∈ Finset.range K, ∑ j ∈ Finset.range i, f i j := by
  induction K with
  | zero => simp
  | succ K ih =>
    have h1 : ∑ i ∈ Finset.range K, ∑ j ∈ Finset.range (K + 1), f i j =
        ∑ i ∈ Finset.range K, ∑ j ∈ Finset.range K, f i j + ∑ i ∈ Finset.range K, f K i := by
      rw [← Finset.sum_add_distrib]
      apply Finset.sum_congr rfl
      intro i _
      rw [Finset.sum_range_succ, hf i K]
    rw [Finset.sum_range_succ, h1, ih, Finset.sum_range_succ (fun j => f K j),
      Finset.sum_range_succ (fun i => f i i),
      Finset.sum_range_succ (fun i => ∑ j ∈ Finset.range i, f i j)]
    ring

theorem L_symm (i j : Nat) : L i j = L j i :=
  (L_eq_iff i j j i).2 (Or.inr ⟨rfl, rfl⟩)

/-- C37: for every table and every `K` (in particular `K >= 1`) the allele counts produced
by `cal_n` sum to twice the sum of the table entries `a(i,j)`, `0 <= j <= i < K`: the count
of allele `i` is twice the homozygote `a(i,i)` plus every heterozygote `a(i,j)`, `j != i`,
once. -/
theorem cal_n_sum (K : Nat) (a : Table) (n0 : Nat → Int) :
    ∑ i ∈ Finset.range K, cal_n K a n0 i =
        2 * ∑ i ∈ Finset.range K, ∑ j ∈ Finset.range (i + 1), a (LL i j) ∧
      (∀ i, i < K →
        cal_n K a n0 i = 2 * a (LL i i) + ∑ j ∈ (Finset.range K).erase i, a (L i j)) := by
  have hn : ∀ i, i ∈ Finset.range K →
      cal_n K a n0 i = a (L i i) + ∑ j ∈ Finset.range K, a (L i j) := by
    intro i hi
    rw [cal_n_apply, if_pos (Finset.mem_range.1 hi), cal_n_row_eq, LL_self]
  have hLL : ∀ i, ∑ j ∈ Finset.range (i + 1), a (LL i j) =
      ∑ j ∈ Finset.range i, a (L i j) + a (L i i) := by
    intro i
    rw [Finset.sum_range_succ, LL_self]
    congr 1
    apply Finset.sum_congr rfl
    intro j hj
    have : ¬ i < j := by have := Finset.mem_range.1 hj; omega
    unfold L LL
    rw [if_neg this]
  constructor
  · rw [Finset.sum_congr rfl hn, Finset.sum_add_distrib,
      double_sum_symm (fun i j => a (L i j)) (fun i j => by simp only [L_symm i j]) K,
      Finset.sum_congr rfl (fun i _ => hLL i), Finset.sum_add_distrib]
    ring
  · intro i hi
    rw [hn i (Finset.mem_range.2 hi), LL_self,
      ← Finset.add_sum_erase (Finset.range K) (fun j => a (L i j)) (Finset.mem_range.2 hi)]
    ring

theorem cal_n_sum_witness :
    ((0 : Nat) < 3) ∧
      cal_n 3 table3 (fun _ => 0) 0 =
        2 * table3 (LL 0 0) + ∑ j ∈ (Finset.range 3).erase 0, table3 (L 0 j) :=
  ⟨by decide, (cal_n_sum 3 table3 (fun _ => 0)).2 0 (by decide)⟩

/-! ## The switch type of a fully switchable window -/

theorem test_switch_type_of_both (a : Table) (index : Index) (out : Switch)
    (h : (test_switch a index out).switch_ind = 2) :
    (test_switch a index out).switch_type = 1 := by
  have hi := test_switch_ind a index out
  rw [h] at hi
  rw [test_switch_type]
  by_cases hR : legalR a index
  · rw [if_pos hR]
  · rw [if_neg hR] at hi
    split_ifs at hi <;> exact absurd hi (by decide)

/-- C33 (the defect): whenever `test_switch` reports `switch_ind = 2` it leaves
`switch_type = 1`, the value written last by the R-branch, and not 0 as its header comment
says; so on the table `[[5],[2,5],[1,1,5]]` and the window `0 1 / 0 1`, where both
directions are legal. -/
theorem switch_type_when_both_legal :
    (∀ (a : Table) (index : Index) (out : Switch),
        (test_switch a index out).switch_ind = 2 →
          (test_switch a index out).switch_type = 1 ∧
            (test_switch a index out).switch_type ≠ 0) ∧
      (test_switch table3 (select_index_of 0 1 0 1) ⟨0, 0, 0, 0⟩).switch_ind = 2 ∧
      (test_switch table3 (select_index_of 0 1 0 1) ⟨0, 0, 0, 0⟩).switch_type = 1 := by
  refine ⟨fun a index out h => ?_, by decide, by decide⟩
  have := test_switch_type_of_both a index out h
  rw [this]
  exact ⟨rfl, by decide⟩

/-! ## The depth of log_factorial -/

theorem log_factorial_none {R : Type} [Ring R] (log : ℚ → R) :
    ∀ (fuel k : Nat), fuel ≤ k → log_factorial log fuel (k : Int) = none := by
  intro fuel
  induction fuel with
  | zero => intro k _; rfl
  | succ f ih =>
    intro k hk
    obtain ⟨m, rfl⟩ : ∃ m, k = m + 1 := ⟨k - 1, by omega⟩
    have h0 : ((m + 1 : Nat) : Int) ≠ 0 := by omega
    have h1 : ((m + 1 : Nat) : Int) - 1 = (m : Int) := by omega
    rw [log_factorial, if_neg h0, h1, ih m (by omega)]
    rfl

theorem sum_log_eq (k : Nat) :
    ∑ i ∈ Finset.Icc 1 k, Real.log (i : ℝ) = Real.log (k.factorial : ℝ) := by
  induction k with
  | zero => simp
  | succ k ih =>
    have hk : ((k : ℝ) + 1) ≠ 0 := by positivity
    have hf : ((k.factorial : Nat) : ℝ) ≠ 0 := by positivity
    rw [Finset.sum_Icc_succ_top (by omega), ih, Nat.factorial_succ]
    push_cast
    rw [Real.log_mul hk hf]
    ring

/-- C32: for every integer `k >= 0` the call `log_factorial(k)` returns when `k + 1`
nested calls are allowed, the outer one and `k` recursive ones, and does not return when
only `k` are: its recursion depth is exactly `k`.  The value is
`sum_{i=1..k} log i = log(k!)` over the reals, and `log_factorial(0) = 0`. -/
theorem log_factorial_depth (k : Int) (hk : 0 ≤ k) :
    (∀ fuel : Nat, k.toNat < fuel →
        log_factorial (fun q : ℚ => Real.log (q : ℝ)) fuel k =
          some (∑ i ∈ Finset.Icc 1 k.toNat, Real.log (i : ℝ))) ∧
      (∀ fuel : Nat, fuel ≤ k.toNat →
        log_factorial (fun q : ℚ => Real.log (q : ℝ)) fuel k = none) ∧
      ∑ i ∈ Finset.Icc 1 k.toNat, Real.log (i : ℝ) = Real.log (k.toNat.factorial : ℝ) ∧
      log_factorial (fun q : ℚ => Real.log (q : ℝ)) 1 0 = some 0 := by
  refine ⟨fun fuel h => ?_, fun fuel h => ?_, sum_log_eq _, ?_⟩
  · rw [log_factorial_int k hk fuel h, sum_log_eq]
  · have := log_factorial_none (fun q : ℚ => Real.log (q : ℝ)) fuel k.toNat h
    rwa [Int.toNat_of_nonneg hk] at this
  · simp [log_factorial]

theorem log_factorial_depth_witness :
    ((0 : Int) ≤ 3) ∧
      log_factorial (fun q : ℚ => Real.log (q : ℝ)) 4 3 =
        some (∑ i ∈ Finset.Icc 1 (3 : Int).toNat, Real.log (i : ℝ)) ∧
      log_factorial (fun q : ℚ => Real.log (q : ℝ)) 3 3 = none :=
  ⟨by decide, (log_factorial_depth 3 (by decide)).1 4 (by decide),
    (log_factorial_depth 3 (by decide)).2.1 3 (by decide)⟩


/-! ## A switch and its reverse -/

theorem do_switch_D_then_R (a : Table) (index : Index) :
    do_switch (do_switch a index 0) index 1 = a := by
  funext x
  rw [do_switch_apply, do_switch_apply]
  simp only [sgn, if_true, one_ne_zero, if_false]
  ring

theorem do_switch_R_then_D (a : Table) (index : Index) :
    do_switch (do_switch a index 1) index 0 = a := by
  funext x
  rw [do_switch_apply, do_switch_apply]
  simp only [sgn, if_true, one_ne_zero, if_false]
  ring

/-- After a legal D-switch on an ordered window the R-switch is legal. -/
theorem legalR_after_D (a : Table) (ha : ∀ k, 0 ≤ a k) (i1 i2 j1 j2 : Nat)
    (hi : i1 < i2) (hj : j1 < j2) :
    legalR (do_switch a (select_index_of i1 i2 j1 j2) 0) (select_index_of i1 i2 j1 j2) := by
  have hAC := @window_A_ne_C i1 j1 j2 hj
  have hAD := @window_A_ne_D i1 i2 j1 hi
  have hBC := @window_B_ne_C i1 i2 j2 hi
  have hBD := @window_B_ne_D i2 j1 j2 hj
  have hC := ha (L i1 j2)
  have hE := ha (L i2 j1)
  have f := select_index_of_fields i1 i2 j1 j2
  unfold legalR
  rw [f.1, f.2.1, f.2.2.1, f.2.2.2]
  by_cases ht : (select_index_of i1 i2 j1 j2).type ≤ 1
  · rw [if_pos ht, do_switch_apply, do_switch_apply, f.1, f.2.1, f.2.2.1, f.2.2.2]
    simp only [cell, sgn, if_true]
    revert hAC hAD hBC hBD hC hE
    generalize L i1 j1 = k11
    generalize L i2 j2 = k22
    generalize L i1 j2 = k12
    generalize L i2 j1 = k21
    intro hAC hAD hBC hBD hC hE
    constructor <;> split_ifs <;> subst_vars <;> omega
  · have hCD : L i1 j2 = L i2 j1 := by
      apply (window_C_eq_D_iff hi hj).2
      by_contra hc
      exact ht ((select_index_of_type_le_one hi hj).2 hc)
    rw [if_neg ht, do_switch_apply, f.1, f.2.1, f.2.2.1, f.2.2.2]
    simp only [cell, sgn, if_true]
    revert hAC hAD hBC hBD hC hE hCD
    generalize L i1 j1 = k11
    generalize L i2 j2 = k22
    generalize L i1 j2 = k12
    generalize L i2 j1 = k21
    intro hAC hAD hBC hBD hC hE hCD
    subst hCD
    split_ifs <;> subst_vars <;> omega

/-- After a legal R-switch on an ordered window the D-switch is legal. -/
theorem legalD_after_R (a : Table) (ha : ∀ k, 0 ≤ a k) (i1 i2 j1 j2 : Nat)
    (hi : i1 < i2) (hj : j1 < j2) :
    legalD (do_switch a (select_index_of i1 i2 j1 j2) 1) (select_index_of i1 i2 j1 j2) := by
  have hAB := @window_A_ne_B i1 i2 j1 j2 hi hj
  have hAC := @window_A_ne_C i1 j1 j2 hj
  have hAD := @window_A_ne_D i1 i2 j1 hi
  have hBC := @window_B_ne_C i1 i2 j2 hi
  have hBD := @window_B_ne_D i2 j1 j2 hj
  have hA := ha (L i1 j1)
  have hB := ha (L i2 j2)
  have f := select_index_of_fields i1 i2 j1 j2
  unfold legalD
  rw [f.1, f.2.1, f.2.2.1, f.2.2.2, do_switch_apply, do_switch_apply, f.1, f.2.1, f.2.2.1,
    f.2.2.2]
  simp only [cell, sgn, one_ne_zero, if_false]
  revert hAB hAC hAD hBC hBD hA hB
  generalize L i1 j1 = k11
  generalize L i2 j2 = k22
  generalize L i1 j2 = k12
  generalize L i2 j1 = k21
  intro hAB hAC hAD hBC hBD hA hB
  constructor <;> split_ifs <;> subst_vars <;> omega

theorem ratio_product_one {p q w w' : ℚ} (hw : 0 < w) (h1 : p * w = w') (h2 : q * w' = w) :
    p * q = 1 := by
  have h : p * q * w = 1 * w := by
    rw [one_mul, mul_assoc, mul_comm q w, ← mul_assoc, h1, mul_comm, h2]
  exact mul_right_cancel₀ (ne_of_gt hw) h

/-- C34: for every table with entries `>= 0` and every window `i1 < i2`, `j1 < j2` as
`select_index` classifies it: if the D-switch is legal with ratio `p1_rt`, then on the
table after the D-switch `test_switch` reports the R-switch legal on the same window,
with a ratio `p2_rt'` such that `p1_rt * p2_rt' = 1`; and if the R-switch is legal with
ratio `p2_rt`, then on the table after the R-switch the D-switch is reported legal with a
ratio `p1_rt'` such that `p2_rt * p1_rt' = 1`, in exact rational arithmetic. -/
theorem detailed_balance (a : Table) (ha : ∀ k, 0 ≤ a k) (i1 i2 j1 j2 : Nat)
    (hi : i1 < i2) (hj : j1 < j2) (out out' : Switch) :
    (legalD a (select_index_of i1 i2 j1 j2) →
      ((test_switch (do_switch a (select_index_of i1 i2 j1 j2) 0)
            (select_index_of i1 i2 j1 j2) out').switch_ind = 2 ∨
        ((test_switch (do_switch a (select_index_of i1 i2 j1 j2) 0)
            (select_index_of i1 i2 j1 j2) out').switch_ind = 1 ∧
          (test_switch (do_switch a (select_index_of i1 i2 j1 j2) 0)
            (select_index_of i1 i2 j1 j2) out').switch_type = 1)) ∧
      (test_switch a (select_index_of i1 i2 j1 j2) out).p1_rt *
        (test_switch (do_switch a (select_index_of i1 i2 j1 j2) 0)
          (select_index_of i1 i2 j1 j2) out').p2_rt = 1) ∧
    (legalR a (select_index_of i1 i2 j1 j2) →
      ((test_switch (do_switch a (select_index_of i1 i2 j1 j2) 1)
            (select_index_of i1 i2 j1 j2) out').switch_ind = 2 ∨
        ((test_switch (do_switch a (select_index_of i1 i2 j1 j2) 1)
            (select_index_of i1 i2 j1 j2) out').switch_ind = 1 ∧
          (test_switch (do_switch a (select_index_of i1 i2 j1 j2) 1)
            (select_index_of i1 i2 j1 j2) out').switch_type = 0)) ∧
      (test_switch a (select_index_of i1 i2 j1 j2) out).p2_rt *
        (test_switch (do_switch a (select_index_of i1 i2 j1 j2) 1)
          (select_index_of i1 i2 j1 j2) out').p1_rt = 1) := by
  have hiK : i2 < max i2 j2 + 1 := by have := le_max_left i2 j2; omega
  have hjK : j2 < max i2 j2 + 1 := by have := le_max_right i2 j2; omega
  constructor
  · intro hD
    have hR := legalR_after_D a ha i1 i2 j1 j2 hi hj
    have ha' := do_switch_D_nonneg a _ ha (window_A_ne_B hi hj) hD
    have e1 := @ratio_D_legal (max i2 j2 + 1) a ha i1 i2 j1 j2 hi hj hiK hjK out hD
    have e2 := @ratio_R_legal (max i2 j2 + 1) _ ha' i1 i2 j1 j2 hi hj hiK hjK out' hR
    rw [do_switch_D_then_R] at e2
    exact ⟨(reports_R_iff _ _ out').2 hR, ratio_product_one (W_pos _ a) e1 e2⟩
  · intro hR
    have hD := legalD_after_R a ha i1 i2 j1 j2 hi hj
    have ha' := do_switch_R_legal_nonneg a ha i1 i2 j1 j2 hi hj hR
    have e1 := @ratio_R_legal (max i2 j2 + 1) a ha i1 i2 j1 j2 hi hj hiK hjK out hR
    have e2 := @ratio_D_legal (max i2 j2 + 1) _ ha' i1 i2 j1 j2 hi hj hiK hjK out' hD
    rw [do_switch_R_then_D] at e2
    exact ⟨(reports_D_iff _ _ out').2 hD, ratio_product_one (W_pos _ a) e1 e2⟩

theorem detailed_balance_witness :
    (∀ k, 0 ≤ table3 k) ∧ ((0 : Nat) < 1) ∧ ((1 : Nat) < 2) ∧
      legalD table3 (select_index_of 0 1 1 2) ∧
      (test_switch table3 (select_index_of 0 1 1 2) ⟨0, 0, 0, 0⟩).p1_rt *
        (test_switch (do_switch table3 (select_index_of 0 1 1 2) 0)
          (select_index_of 0 1 1 2) ⟨0, 0, 0, 0⟩).p2_rt = 1 :=
  ⟨table3_nonneg, by decide, by decide, by decide,
    ((detailed_balance table3 table3_nonneg 0 1 1 2 (by decide) (by decide) ⟨0, 0, 0, 0⟩
      ⟨0, 0, 0, 0⟩).1 (by decide)).2⟩

/-! ## What a non-zero actual_switch means -/

theorem partly_direction (a : Table) (index : Index) (out : Switch)
    (h : (test_switch a index out).switch_ind = 1) :
    (legalD a index ∧ ¬legalR a index ∧ (test_switch a index out).switch_type = 0) ∨
      (legalR a index ∧ ¬legalD a index ∧ (test_switch a index out).switch_type = 1) := by
  have hi := test_switch_ind a index out
  have ht := test_switch_type a index out
  rw [h] at hi
  by_cases hD : legalD a index <;> by_cases hR : legalR a index <;>
    simp only [hD, hR, if_true, if_false] at hi ht
  · exact absurd hi (by decide)
  · exact Or.inl ⟨hD, hR, ht⟩
  · exact Or.inr ⟨hR, hD, ht⟩
  · exact absurd hi (by decide)

theorem both_legal (a : Table) (index : Index) (out : Switch)
    (h : (test_switch a index out).switch_ind = 2) : legalD a index ∧ legalR a index := by
  have hi := test_switch_ind a index out
  rw [h] at hi
  by_cases hD : legalD a index <;> by_cases hR : legalR a index <;>
    simp only [hD, hR, if_true, if_false] at hi
  · exact ⟨hD, hR⟩
  · exact absurd hi (by decide)
  · exact absurd hi (by decide)
  · exact absurd hi (by decide)

theorem cal_prob_calls_none (a : Table) (index : Index) (u : ℚ) (locals : Switch)
    (h : (test_switch a index locals).switch_ind = 0) : cal_prob_calls a index u locals = [] := by
  unfold cal_prob_calls
  simp only [h, if_true]

theorem cal_prob_calls_partly (a : Table) (index : Index) (u : ℚ) (locals : Switch)
    (h : (test_switch a index locals).switch_ind = 1) :
    cal_prob_calls a index u locals =
      if u < TRANS (if (test_switch a index locals).switch_type = 1
          then (test_switch a index locals).p2_rt else (test_switch a index locals).p1_rt)
      then [(test_switch a index locals).switch_type] else [] := by
  unfold cal_prob_calls
  simp only [h, one_ne_zero, if_false, if_true]

theorem cal_prob_calls_full (a : Table) (index : Index) (u : ℚ) (locals : Switch)
    (h : (test_switch a index locals).switch_ind = 2) :
    cal_prob_calls a index u locals =
      if u ≤ TRANS (test_switch a index locals).p1_rt then [0]
      else if u ≤ TRANS (test_switch a index locals).p1_rt
          + TRANS (test_switch a index locals).p2_rt then [1]
      else [] := by
  unfold cal_prob_calls
  simp only [h]
  rw [if_neg (by decide), if_neg (by decide)]

/-- C35: for every table, window and draw, with `calls` the list of the calls of
`do_switch` that `cal_prob` performs: the table it leaves is the result of these calls,
and `actual_switch` is non-zero iff there is a call.  `actual_switch = 0` implies no call,
and the table and the returned log-probability are unchanged; `actual_switch = 1` implies
that exactly one direction is legal and exactly one `do_switch`, in that direction, was
performed; `actual_switch = 2` implies that both directions are legal and exactly one
`do_switch` was performed.  No other value occurs. -/
theorem actual_switch_iff_switched (R : Type) [Add R] (log : ℚ → R) (a : Table)
    (index : Index) (ln_p_old : R) (u : ℚ) (locals : Switch) :
    (cal_prob log a index ln_p_old u locals).a =
        (cal_prob_calls a index u locals).foldl (fun t type => do_switch t index type) a ∧
      ((cal_prob log a index ln_p_old u locals).actual_switch ≠ 0 ↔
        cal_prob_calls a index u locals ≠ []) ∧
      ((cal_prob log a index ln_p_old u locals).actual_switch = 0 ∨
        (cal_prob log a index ln_p_old u locals).actual_switch = 1 ∨
        (cal_prob log a index ln_p_old u locals).actual_switch = 2) ∧
      ((cal_prob log a index ln_p_old u locals).actual_switch = 0 →
        cal_prob_calls a index u locals = [] ∧
          (cal_prob log a index ln_p_old u locals).a = a ∧
          (cal_prob log a index ln_p_old u locals).ln_p_new = ln_p_old) ∧
      ((cal_prob log a index ln_p_old u locals).actual_switch = 1 →
        (test_switch a index locals).switch_ind = 1 ∧
          ((legalD a index ∧ ¬legalR a index ∧ cal_prob_calls a index u locals = [0] ∧
              (cal_prob log a index ln_p_old u locals).a = do_switch a index 0) ∨
            (legalR a index ∧ ¬legalD a index ∧ cal_prob_calls a index u locals = [1] ∧
              (cal_prob log a index ln_p_old u locals).a = do_switch a index 1))) ∧
      ((cal_prob log a index ln_p_old u locals).actual_switch = 2 →
        (test_switch a index locals).switch_ind = 2 ∧ legalD a index ∧ legalR a index ∧
          ((cal_prob_calls a index u locals = [0] ∧
              (cal_prob log a index ln_p_old u locals).a = do_switch a index 0) ∨
            (cal_prob_calls a index u locals = [1] ∧
              (cal_prob log a index ln_p_old u locals).a = do_switch a index 1))) := by
  rcases test_switch_ind_cases a index locals with h0 | h1 | h2
  · rw [cal_prob_none log a index ln_p_old u locals h0, cal_prob_calls_none a index u locals h0]
    refine ⟨rfl, by simp, Or.inl rfl, fun _ => ⟨rfl, rfl, rfl⟩, fun h => ?_, fun h => ?_⟩
    · exact absurd (show (0 : Int) = 1 from h) (by decide)
    · exact absurd (show (0 : Int) = 2 from h) (by decide)
  · rw [cal_prob_partly log a index ln_p_old u locals h1,
      cal_prob_calls_partly a index u locals h1]
    by_cases hu : u < TRANS (if (test_switch a index locals).switch_type = 1
        then (test_switch a index locals).p2_rt else (test_switch a index locals).p1_rt)
    · rw [if_pos hu, if_pos hu]
      refine ⟨rfl, by simp, Or.inr (Or.inl rfl), fun h => ?_, fun _ => ⟨h1, ?_⟩, fun h => ?_⟩
      · exact absurd (show (1 : Int) = 0 from h) (by decide)
      · rcases partly_direction a index locals h1 with ⟨hD, hR, ht⟩ | ⟨hR, hD, ht⟩
        · rw [ht]; exact Or.inl ⟨hD, hR, rfl, rfl⟩
        · rw [ht]; exact Or.inr ⟨hR, hD, rfl, rfl⟩
      · exact absurd (show (1 : Int) = 2 from h) (by decide)
    · rw [if_neg hu, if_neg hu]
      refine ⟨rfl, by simp, Or.inl rfl, fun _ => ⟨rfl, rfl, rfl⟩, fun h => ?_, fun h => ?_⟩
      · exact absurd (show (0 : Int) = 1 from h) (by decide)
      · exact absurd (show (0 : Int) = 2 from h) (by decide)
  · obtain ⟨hD, hR⟩ := both_legal a index locals h2
    rw [cal_prob_full log a index ln_p_old u locals h2, cal_prob_calls_full a index u locals h2]
    by_cases hu : u ≤ TRANS (test_switch a index locals).p1_rt
    · rw [if_pos hu, if_pos hu]
      refine ⟨rfl, by simp, Or.inr (Or.inr rfl), fun h => ?_, fun h => ?_,
        fun _ => ⟨h2, hD, hR, Or.inl ⟨rfl, rfl⟩⟩⟩
      · exact absurd (show (2 : Int) = 0 from h) (by decide)
      · exact absurd (show (2 : Int) = 1 from h) (by decide)
    · rw [if_neg hu, if_neg hu]
      by_cases hv : u ≤ TRANS (test_switch a index locals).p1_rt
          + TRANS (test_switch a index locals).p2_rt
      · rw [if_pos hv, if_pos hv]
        refine ⟨rfl, by simp, Or.inr (Or.inr rfl), fun h => ?_, fun h => ?_,
          fun _ => ⟨h2, hD, hR, Or.inr ⟨rfl, rfl⟩⟩⟩
        · exact absurd (show (2 : Int) = 0 from h) (by decide)
        · exact absurd (show (2 : Int) = 1 from h) (by decide)
      · rw [if_neg hv, if_neg hv]
        refine ⟨rfl, by simp, Or.inl rfl, fun _ => ⟨rfl, rfl, rfl⟩, fun h => ?_, fun h => ?_⟩
        · exact absurd (show (0 : Int) = 1 from h) (by decide)
        · exact absurd (show (0 : Int) = 2 from h) (by decide)

theorem actual_switch_iff_switched_witness :
    ((cal_prob (fun _ => (0 : ℚ)) table3 (select_index_of 0 1 0 1) 0 (1 / 10)
        ⟨0, 0, 0, 0⟩).actual_switch ≠ 0 ↔
      cal_prob_calls table3 (select_index_of 0 1 0 1) (1 / 10) ⟨0, 0, 0, 0⟩ ≠ []) :=
  (actual_switch_iff_switched ℚ (fun _ => (0 : ℚ)) table3 (select_index_of 0 1 0 1) 0 (1 / 10)
    ⟨0, 0, 0, 0⟩).2.1


/-! ## The switch counts of a run -/

theorem cal_prob_actual_cases {R : Type} [Add R] (log : ℚ → R) (a : Table) (index : Index)
    (ln_p_old : R) (u : ℚ) (locals : Switch) :
    (cal_prob log a index ln_p_old u locals).actual_switch = 0 ∨
      (cal_prob log a index ln_p_old u locals).actual_switch = 1 ∨
      (cal_prob log a index ln_p_old u locals).actual_switch = 2 := by
  rcases test_switch_ind_cases a index locals with h0 | h1 | h2
  · rw [cal_prob_none log a index ln_p_old u locals h0]; exact Or.inl rfl
  · rw [cal_prob_partly log a index ln_p_old u locals h1]
    split_ifs <;>
      first
      | exact Or.inl rfl
      | exact Or.inr (Or.inl rfl)
  · rw [cal_prob_full log a index ln_p_old u locals h2]
    split_ifs <;>
      first
      | exact Or.inl rfl
      | exact Or.inr (Or.inr rfl)

/-- One iteration adds one to exactly one of the three counts. -/
theorem iteration_counts {R : Type} [Add R] (log : ℚ → R) (K : Nat) (draws : Nat → Draw)
    (c : Chain R) :
    (iteration log K draws c).swch_count 0 + (iteration log K draws c).swch_count 1
        + (iteration log K draws c).swch_count 2 =
      c.swch_count 0 + c.swch_count 1 + c.swch_count 2 + 1 ∧
      ∀ k, c.swch_count k ≤ (iteration log K draws c).swch_count k := by
  unfold iteration
  simp only
  rcases cal_prob_actual_cases log c.a
      (select_index (draws c.done).u1 (draws c.done).u2 (draws c.done).u3 (draws c.done).u4 K
        (draws c.done).work (draws c.done).work')
      c.ln_p_simulated (draws c.done).rand_num (draws c.done).locals with h | h | h <;>
    rw [h] <;> refine ⟨?_, fun k => ?_⟩
  all_goals first
    | (simp [Function.update]; done)
    | (simp only [Function.update_apply]; split_ifs <;> subst_vars <;> omega)
    | (simp [Function.update]; omega)

theorem dememorize_counts {R : Type} [Add R] (log : ℚ → R) (K : Nat) (draws : Nat → Draw)
    (n : Nat) : ∀ c : Chain R,
      (dememorize log K draws n c).swch_count 0 + (dememorize log K draws n c).swch_count 1
          + (dememorize log K draws n c).swch_count 2 =
        c.swch_count 0 + c.swch_count 1 + c.swch_count 2 + n ∧
        ∀ k, c.swch_count k ≤ (dememorize log K draws n c).swch_count k := by
  induction n with
  | zero => intro c; exact ⟨by simp [dememorize], fun k => le_refl _⟩
  | succ n ih =>
    intro c
    obtain ⟨h1, h2⟩ := iteration_counts log K draws c
    obtain ⟨h3, h4⟩ := ih (iteration log K draws c)
    simp only [dememorize]
    refine ⟨?_, fun k => le_trans (h2 k) (h4 k)⟩
    rw [h3, h1]
    push_cast
    ring

theorem dememorize_add {R : Type} [Add R] (log : ℚ → R) (K : Nat) (draws : Nat → Draw)
    (m n : Nat) : ∀ c : Chain R,
      dememorize log K draws (m + n) c =
        dememorize log K draws n (dememorize log K draws m c) := by
  induction m with
  | zero => intro c; rw [Nat.zero_add]; rfl
  | succ m ih =>
    intro c
    rw [Nat.succ_add]
    exact ih (iteration log K draws c)

theorem batch_chain {R : Type} [Add R] [LE R] [DecidableRel (fun x y : R => x ≤ y)]
    (log : ℚ → R) (K : Nat) (draws : Nat → Draw) (obs : R) (n : Nat) :
    ∀ s : Chain R × Int,
      (batch log K draws obs n s).1 = dememorize log K draws n s.1 := by
  induction n with
  | zero => intro s; rfl
  | succ n ih =>
    intro s
    simp only [batch, dememorize]
    rw [ih]

theorem sampling_chain {R : Type} [Add R] [LE R] [DecidableRel (fun x y : R => x ≤ y)]
    (log : ℚ → R) (K : Nat) (draws : Nat → Draw) (obs : R) (size : Int) (g : Nat) :
    ∀ s : Chain R × Option ℚ × Option ℚ,
      (sampling log K draws obs size g s).1 =
        dememorize log K draws (g * size.toNat) s.1 := by
  induction g with
  | zero => intro s; rw [Nat.zero_mul]; rfl
  | succ g ih =>
    intro s
    simp only [sampling]
    rw [ih, batch_chain, Nat.succ_mul, Nat.add_comm, dememorize_add]

theorem main_chain {R : Type} [Add R] [Zero R] [LE R] [DecidableRel (fun x y : R => x ≤ y)]
    (log : ℚ → R) (a : Table) (K : Nat) (sample : randomization) (draws : Nat → Draw) :
    (main log a K sample draws).result.swch_count =
      (dememorize log K draws (sample.step.toNat + sample.group.toNat * sample.size.toNat)
        ({ a := a, ln_p_simulated := 0, swch_count := fun _ => 0, done := 0 } :
          Chain R)).swch_count := by
  simp only [main]
  rw [sampling_chain, dememorize_add]

theorem percentage_bounds {c T : ℚ} (hT : 0 < T) (h0 : 0 ≤ c) (h1 : c ≤ T) :
    0 ≤ c / T * 100 ∧ c / T * 100 ≤ 100 := by
  have h2 : c / T ≤ 1 := (div_le_one hT).2 h1
  have h3 : 0 ≤ c / T := div_nonneg h0 (le_of_lt hT)
  constructor <;> nlinarith

/-- C31: for every run of `main` with `step >= 1`, `group > 1` and `size >= 0` (integers
without overflow), after the run
`swch_count[0] + swch_count[1] + swch_count[2] = step + group*size`, which is `total_step`,
the denominator of the three percentages printed; the percentage of all switches is the
sum of those of partial and full switches, and each of the three lies in `[0,100]`. -/
theorem switch_counts_total (R : Type) [Add R] [Zero R] [LE R]
    [DecidableRel (fun x y : R => x ≤ y)] (log : ℚ → R) (a : Table) (K : Nat)
    (sample : randomization) (draws : Nat → Draw)
    (hstep : 1 ≤ sample.step) (hgroup : 1 < sample.group) (hsize : 0 ≤ sample.size) :
    (main log a K sample draws).result.swch_count 0
        + (main log a K sample draws).result.swch_count 1
        + (main log a K sample draws).result.swch_count 2
        = sample.step + sample.group * sample.size ∧
      (main log a K sample draws).total_step = sample.step + sample.group * sample.size ∧
      ∃ p f c : ℚ, percentages (main log a K sample draws) = (some p, some f, some c) ∧
        c = p + f ∧ (0 ≤ p ∧ p ≤ 100) ∧ (0 ≤ f ∧ f ≤ 100) ∧ (0 ≤ c ∧ c ≤ 100) := by
  obtain ⟨hsum, hmono⟩ := dememorize_counts log K draws
    (sample.step.toNat + sample.group.toNat * sample.size.toNat)
    ({ a := a, ln_p_simulated := 0, swch_count := fun _ => 0, done := 0 } : Chain R)
  have hc := main_chain log a K sample draws
  rw [← hc] at hsum hmono
  simp only at hsum hmono
  have hn : ((sample.step.toNat + sample.group.toNat * sample.size.toNat : Nat) : Int) =
      sample.step + sample.group * sample.size := by
    push_cast
    rw [Int.toNat_of_nonneg (by omega : 0 ≤ sample.step),
      Int.toNat_of_nonneg (by omega : 0 ≤ sample.group), Int.toNat_of_nonneg hsize]
  rw [hn] at hsum
  simp only [zero_add] at hsum
  have hT : (main log a K sample draws).total_step =
      sample.step + sample.group * sample.size := rfl
  have h0 := hmono 0
  have h1 := hmono 1
  have h2 := hmono 2
  have hpos : 0 < sample.step + sample.group * sample.size := by
    have : 0 ≤ sample.group * sample.size := mul_nonneg (by omega) hsize
    omega
  have hTq : (0 : ℚ) < ((sample.step + sample.group * sample.size : Int) : ℚ) := by
    exact_mod_cast hpos
  have hTne : ((sample.step + sample.group * sample.size : Int) : ℚ) ≠ 0 := ne_of_gt hTq
  have q1 : (0 : ℚ) ≤ ((main log a K sample draws).result.swch_count 1 : ℚ) := by
    exact_mod_cast h1
  have q2 : (0 : ℚ) ≤ ((main log a K sample draws).result.swch_count 2 : ℚ) := by
    exact_mod_cast h2
  have l1 : ((main log a K sample draws).result.swch_count 1 : ℚ) ≤
      ((sample.step + sample.group * sample.size : Int) : ℚ) := by
    have : (main log a K sample draws).result.swch_count 1 ≤
        sample.step + sample.group * sample.size := by omega
    exact_mod_cast this
  have l2 : ((main log a K sample draws).result.swch_count 2 : ℚ) ≤
      ((sample.step + sample.group * sample.size : Int) : ℚ) := by
    have : (main log a K sample draws).result.swch_count 2 ≤
        sample.step + sample.group * sample.size := by omega
    exact_mod_cast this
  have l12 : (((main log a K sample draws).result.swch_count 1
      + (main log a K sample draws).result.swch_count 2 : Int) : ℚ) ≤
      ((sample.step + sample.group * sample.size : Int) : ℚ) := by
    have : (main log a K sample draws).result.swch_count 1
        + (main log a K sample draws).result.swch_count 2 ≤
        sample.step + sample.group * sample.size := by omega
    exact_mod_cast this
  have q12 : (0 : ℚ) ≤ (((main log a K sample draws).result.swch_count 1
      + (main log a K sample draws).result.swch_count 2 : Int) : ℚ) := by
    have : 0 ≤ (main log a K sample draws).result.swch_count 1
        + (main log a K sample draws).result.swch_count 2 := by omega
    exact_mod_cast this
  refine ⟨hsum, hT, _, _, _, ?_, ?_, percentage_bounds hTq q1 l1, percentage_bounds hTq q2 l2,
    percentage_bounds hTq q12 l12⟩
  · simp only [percentages, hT, fdiv, fmul, hTne, if_false]
  · push_cast
    ring

theorem switch_counts_total_witness :
    ((1 : Int) ≤ 1) ∧ ((1 : Int) < 2) ∧ ((0 : Int) ≤ 3) ∧
      (main (fun _ => (0 : ℚ)) table3 3 ⟨2, 3, 1⟩ (fun _ => draw_half)).result.swch_count 0
        + (main (fun _ => (0 : ℚ)) table3 3 ⟨2, 3, 1⟩ (fun _ => draw_half)).result.swch_count 1
        + (main (fun _ => (0 : ℚ)) table3 3 ⟨2, 3, 1⟩ (fun _ => draw_half)).result.swch_count 2
        = 1 + 2 * 3 :=
  ⟨by decide, by decide, by decide,
    (switch_counts_total ℚ (fun _ => (0 : ℚ)) table3 3 ⟨2, 3, 1⟩ (fun _ => draw_half)
      (by decide) (by decide) (by decide)).1⟩

/-! ## The batch size is not checked -/

theorem fadd_none (x : Option ℚ) : fadd x none = none := by
  cases x <;> rfl

theorem sampling_none {R : Type} [Add R] [LE R] [DecidableRel (fun x y : R => x ≤ y)]
    (log : ℚ → R) (K : Nat) (draws : Nat → Draw) (obs : R) (size : Int) (n : Nat) :
    ∀ c : Chain R, (sampling log K draws obs size n (c, none, none)).2 = (none, none) := by
  induction n with
  | zero => intro c; rfl
  | succ n ih =>
    intro c
    simp only [sampling]
    have h1 : ∀ y : Option ℚ, fadd none y = none := fun y => by cases y <;> rfl
    rw [h1, h1]
    exact ih _

theorem sampling_size_zero {R : Type} [Add R] [LE R] [DecidableRel (fun x y : R => x ≤ y)]
    (log : ℚ → R) (K : Nat) (draws : Nat → Draw) (obs : R) (n : Nat) (hn : 0 < n)
    (c : Chain R) (m q : Option ℚ) :
    (sampling log K draws obs 0 n (c, m, q)).2 = (none, none) := by
  obtain ⟨k, rfl⟩ : ∃ k, n = k + 1 := ⟨n - 1, by omega⟩
  simp only [sampling]
  have hz : fdiv (some (((batch log K draws obs (0 : Int).toNat (c, 0)).2 : Int) : ℚ))
      (some (((0 : Int) : ℚ))) = none := by
    simp [fdiv]
  rw [hz, fadd_none]
  have hm : fmul (none : Option ℚ) none = none := rfl
  rw [hm, fadd_none]
  exact sampling_none log K draws obs 0 k _

/-- C38: `read_data` does not validate the batch size.  For every input with `K >= 3`, all
`K(K+1)/2` counts, `step >= 1`, `group > 1` and `size = 0` (there are such inputs, for
instance `3 / 5 / 2 5 / 1 1 5 / 1 2 0`) it returns 0; `main` then runs, every batch
fraction `counter / size` is a division by `size = 0`, and the p-value it reports has no
value. -/
theorem batch_size_not_validated (R : Type) [Add R] [Zero R] [LE R]
    [DecidableRel (fun x y : R => x ≤ y)] (log : ℚ → R) (a : Table) (n0 : Int)
    (s0 : randomization) (K : Int) (counts : List Int) (step group : Int)
    (rest : List (Option Int)) (draws : Nat → Draw)
    (hK : 3 ≤ K) (hlen : counts.length = K.toNat * (K.toNat + 1) / 2)
    (hstep : 1 ≤ step) (hgroup : 1 < group) :
    (read_data a n0 s0 (input_of K counts step group 0 ++ rest)).err = 0 ∧
      (read_data a n0 s0 (input_of K counts step group 0 ++ rest)).sample.size = 0 ∧
      (∀ counter : Int,
        fdiv (some (counter : ℚ))
          (some (((read_data a n0 s0 (input_of K counts step group 0 ++ rest)).sample.size
            : Int) : ℚ)) = none) ∧
      ∃ run : Run R,
        main_from_read_data log a n0 s0 (input_of K counts step group 0 ++ rest) draws =
          Except.ok run ∧ run.result.p_value = none := by
  have h := read_data_input_of a n0 s0 K counts step group 0 rest hK hlen
  have hp : ¬ (step < 1 ∨ group ≤ 1) := by omega
  have herr : (read_data a n0 s0 (input_of K counts step group 0 ++ rest)).err = 0 := by
    rw [h]
    exact if_neg hp
  have hsz : (read_data a n0 s0 (input_of K counts step group 0 ++ rest)).sample.size = 0 := by
    rw [h]
  have hg : 0 < group.toNat := by omega
  refine ⟨herr, hsz, fun counter => by rw [hsz]; simp [fdiv], ?_⟩
  refine ⟨main log (loaded a counts (K.toNat * (K.toNat + 1) / 2)) K.toNat
    { group := group, size := 0, step := step } draws, ?_, ?_⟩
  · simp [main_from_read_data, h, hp]
  · simp only [main]
    rw [sampling_size_zero log _ draws 0 group.toNat hg]
    rfl

theorem batch_size_not_validated_witness :
    ((3 : Int) ≤ 3) ∧ ((1 : Int) ≤ 1) ∧ ((1 : Int) < 2) ∧
      (read_data table3_fixed 0 ⟨0, 0, 0⟩ (input_of 3 [5, 2, 5, 1, 1, 5] 1 2 0 ++ [])).err = 0 ∧
      (read_data table3_fixed 0 ⟨0, 0, 0⟩
        (input_of 3 [5, 2, 5, 1, 1, 5] 1 2 0 ++ [])).sample.size = 0 :=
  ⟨by decide, by decide, by decide,
    (batch_size_not_validated ℚ (fun _ => (0 : ℚ)) table3_fixed 0 ⟨0, 0, 0⟩ 3
      [5, 2, 5, 1, 1, 5] 1 2 [] (fun _ => draw_half) (by decide) (by decide) (by decide)
      (by decide)).1,
    (batch_size_not_validated ℚ (fun _ => (0 : ℚ)) table3_fixed 0 ⟨0, 0, 0⟩ 3
      [5, 2, 5, 1, 1, 5] 1 2 [] (fun _ => draw_half) (by decide) (by decide) (by decide)
      (by decide)).2.1⟩


/-! ## Rounding to double -/

theorem test_switch_rnd_id (a : Table) (index : Index) (out : Switch) :
    test_switch_rnd id a index out = test_switch a index out := rfl

theorem cal_prob_rnd_id {R : Type} [Add R] (log : ℚ → R) (a : Table) (index : Index)
    (ln_p_old : R) (u : ℚ) (locals : Switch) :
    cal_prob_rnd id log a index ln_p_old u locals = cal_prob log a index ln_p_old u locals :=
  rfl

theorem iteration_rnd_id {R : Type} [Add R] (log : ℚ → R) (K : Nat) (draws : Nat → Draw)
    (c : Chain R) : iteration_rnd id log K draws c = iteration log K draws c := rfl

theorem dememorize_rnd_id {R : Type} [Add R] (log : ℚ → R) (K : Nat) (draws : Nat → Draw)
    (n : Nat) : ∀ c : Chain R,
      dememorize_rnd id log K draws n c = dememorize log K draws n c := by
  induction n with
  | zero => intro c; rfl
  | succ n ih => intro c; exact ih _

theorem batch_rnd_id {R : Type} [Add R] [LE R] [DecidableRel (fun x y : R => x ≤ y)]
    (log : ℚ → R) (K : Nat) (draws : Nat → Draw) (obs : R) (n : Nat) :
    ∀ s : Chain R × Int, batch_rnd id log K draws obs n s = batch log K draws obs n s := by
  induction n with
  | zero => intro s; rfl
  | succ n ih => intro s; exact ih _

theorem sampling_rnd_id {R : Type} [Add R] [LE R] [DecidableRel (fun x y : R => x ≤ y)]
    (log : ℚ → R) (K : Nat) (draws : Nat → Draw) (obs : R) (size : Int) (n : Nat) :
    ∀ s : Chain R × Option ℚ × Option ℚ,
      sampling_rnd id log K draws obs size n s = sampling log K draws obs size n s := by
  induction n with
  | zero => intro s; rfl
  | succ n ih =>
    intro s
    simp only [sampling_rnd, sampling, Option.map_id_fun, id_eq, batch_rnd_id]
    exact ih _

theorem p_value_se_rnd_id (group : Int) (p_mean p_square : Option ℚ) :
    p_value_se_rnd id group p_mean p_square = p_value_se group p_mean p_square := by
  simp only [p_value_se_rnd, p_value_se, Option.map_id_fun, id_eq]

/-- With `rnd = id` the program in rounded arithmetic is the program in exact arithmetic. -/
theorem main_rnd_id {R : Type} [Add R] [Zero R] [LE R] [DecidableRel (fun x y : R => x ≤ y)]
    (log : ℚ → R) (a : Table) (K : Nat) (sample : randomization) (draws : Nat → Draw) :
    main_rnd id log a K sample draws = main log a K sample draws := by
  simp only [main_rnd, main, dememorize_rnd_id, sampling_rnd_id, p_value_se_rnd_id]

end HWE
